import Mathlib

/-!
# TCPEpollCalc: expression evaluator, server framing and client checks

A shallow embedding of `src/client/ICalc.h` (the recursive-descent evaluator
`CalcImpl`), of the per-connection handler `Server::handle_client_data` of
`src/server/server.cpp`, and of the helpers of `src/client/client.cpp` and
`src/client/Generator.h`, followed by theorems about them.

Conventions.
* A `std::string` is a `List Char`; one `Char` stands for one byte of the C++ string.
* A C++ `double` is a value of `Dbl`, an exact model of IEEE-754 binary64 with
  round-to-nearest-even.  A finite double is a sign and a natural number `k`,
  standing for `k * 2^(-1074)`; every finite double is such a multiple.
* A C++ exception is the `error` case of `Except CalcError`.
-/

set_option exponentiation.threshold 100000
set_option maxRecDepth 100000

namespace TCPEpollCalc

/-- A byte string (`std::string`). -/
abbrev Str := List Char

/-! ## IEEE-754 binary64 -/

/-- A C++ `double`.  `fin neg k` is the finite value `(-1)^neg * k * 2^(-1074)`,
so `fin true 0` is the negative zero; the sign of a NaN is not recorded. -/
inductive Dbl where
  | fin (neg : Bool) (k : Nat)
  | inf (neg : Bool)
  | nan
  deriving DecidableEq, Repr

/-- Quotient `n / d` rounded to the nearest natural number, ties to even. -/
def roundHalfEven (n d : Nat) : Nat :=
  let q := n / d
  let r := n % d
  if 2 * r < d then q
  else if d < 2 * r then q + 1
  else if q % 2 = 0 then q else q + 1

/-- Binary search for the bit length: with `acc` the bits found so far, tries to
add `2^s`, `2^(s-1)`, ..., `1`. -/
def bitLengthAux (n : Nat) : Nat → Nat → Nat
  | 0, acc => acc
  | s + 1, acc =>
    if 2 ^ (acc + 2 ^ s) ≤ n then bitLengthAux n s (acc + 2 ^ s) else bitLengthAux n s acc

/-- Least `s` with `n < 2^(2^s)`, searched upwards from `s`. -/
def bitLengthSteps (n : Nat) : Nat → Nat → Nat
  | 0, s => s
  | fuel + 1, s => if n < 2 ^ (2 ^ s) then s else bitLengthSteps n fuel (s + 1)

/-- Number of binary digits of `n` (0 for 0). -/
def bitLength (n : Nat) : Nat :=
  if n = 0 then 0 else bitLengthAux n (bitLengthSteps n n 0) 0 + 1

/-- Least `k` that is not a finite double: `2^1024`, in units of `2^(-1074)`. -/
def Dbl.overflowThreshold : Nat := 2 ^ 2098

/-- Rounding to the nearest double, ties to even, of the non-negative rational
`num / den` given in units of `2^(-1074)`, with sign `neg`.  Below `2^53` units
the doubles are the integers (subnormals and the first binade); above, a double
has 53 significant bits. -/
def Dbl.round (neg : Bool) (num den : Nat) : Dbl :=
  let shift := bitLength (num / den) - 53
  let k := roundHalfEven num (den * 2 ^ shift) * 2 ^ shift
  if Dbl.overflowThreshold ≤ k then Dbl.inf neg else Dbl.fin neg k

namespace Dbl

/-- Unary minus. -/
def neg : Dbl → Dbl
  | fin s k => fin (!s) k
  | inf s => inf (!s)
  | nan => nan

/-- The function `std::abs` / `std::fabs`. -/
def abs : Dbl → Dbl
  | fin _ k => fin false k
  | inf _ => inf false
  | nan => nan

/-- IEEE addition. -/
def add : Dbl → Dbl → Dbl
  | nan, _ => nan
  | _, nan => nan
  | inf s, inf t => if s = t then inf s else nan
  | inf s, fin _ _ => inf s
  | fin _ _, inf t => inf t
  | fin s a, fin t b =>
    if s = t then Dbl.round s (a + b) 1
    else if b < a then Dbl.round s (a - b) 1
    else if a < b then Dbl.round t (b - a) 1
    else fin false 0

/-- IEEE subtraction. -/
def sub (x y : Dbl) : Dbl := add x (neg y)

/-- IEEE multiplication. -/
def mul : Dbl → Dbl → Dbl
  | nan, _ => nan
  | _, nan => nan
  | inf s, inf t => inf (xor s t)
  | inf s, fin t b => if b = 0 then nan else inf (xor s t)
  | fin s a, inf t => if a = 0 then nan else inf (xor s t)
  | fin s a, fin t b => Dbl.round (xor s t) (a * b) (2 ^ 1074)

/-- IEEE division. -/
def div : Dbl → Dbl → Dbl
  | nan, _ => nan
  | _, nan => nan
  | inf _, inf _ => nan
  | inf s, fin t _ => inf (xor s t)
  | fin s _, inf t => fin (xor s t) 0
  | fin s a, fin t b =>
    if b = 0 then (if a = 0 then nan else inf (xor s t))
    else Dbl.round (xor s t) (a * 2 ^ 1074) b

/-- The function `std::fmod`: the remainder of the truncated quotient; it is exact
and has the sign of the dividend. -/
def fmod : Dbl → Dbl → Dbl
  | nan, _ => nan
  | _, nan => nan
  | inf _, _ => nan
  | fin s a, inf _ => fin s a
  | fin s a, fin _ b => if b = 0 then nan else fin s (a % b)

/-- The comparison `x < y` of doubles (false when an operand is NaN). -/
def lt : Dbl → Dbl → Bool
  | nan, _ => false
  | _, nan => false
  | inf s, inf t => s && !t
  | inf s, fin _ _ => s
  | fin _ _, inf t => !t
  | fin s a, fin t b =>
    match s, t with
    | false, false => decide (a < b)
    | false, true => false
    | true, false => decide (0 < a ∨ 0 < b)
    | true, true => decide (b < a)

/-- The function `std::isinf`. -/
def isinf : Dbl → Bool
  | inf _ => true
  | _ => false

/-- The constant `std::numeric_limits<double>::epsilon()`, that is `2^(-52)`. -/
def epsilon : Dbl := fin false (2 ^ 1022)

/-- The double of a natural number that is exactly representable. -/
def ofNat (n : Nat) : Dbl := fin false (n * 2 ^ 1074)

end Dbl

/-! ## Characters and decimal conversions -/

/-- The function `std::isdigit` in the "C" locale. -/
def isdigit (c : Char) : Bool := decide (48 ≤ c.toNat) && decide (c.toNat ≤ 57)

/-- The function `std::isspace` in the "C" locale: space, `\t`, `\n`, `\v`, `\f`, `\r`. -/
def isspace (c : Char) : Bool :=
  decide (c.toNat = 32) || (decide (9 ≤ c.toNat) && decide (c.toNat ≤ 13))

/-- Value of a decimal digit character. -/
def digitVal (c : Char) : Nat := c.toNat - 48

/-- Value of a string of decimal digits. -/
def decimalValue (ds : Str) : Nat := ds.foldl (fun acc c => acc * 10 + digitVal c) 0

/-- The call `std::stod(str)` for the strings `parse_number` passes to it: decimal
digits with at most one `'.'`.  It converts the longest prefix `digits [. digits]`
with correct rounding, and throws (`none`) when no digit is present
(`std::invalid_argument`) or when `strtod` reports `ERANGE` (`std::out_of_range`),
which glibc does when the value overflows, or when it is nonzero, below the least
normal double after rounding, and not exactly representable. -/
def stod (str : Str) : Option Dbl :=
  let ip := str.takeWhile isdigit
  let fp := match str.dropWhile isdigit with
    | '.' :: r => r.takeWhile isdigit
    | _ => []
  if ip = [] ∧ fp = [] then none
  else
    let num := decimalValue (ip ++ fp) * 2 ^ 1074
    let den := 10 ^ fp.length
    if 4 * num < (2 ^ 54 - 1) * den ∧ num % den ≠ 0 then none
    else match Dbl.round false num den with
      | Dbl.fin s k => some (Dbl.fin s k)
      | _ => none

/-- Character of a decimal digit. -/
def digitChar (d : Nat) : Char := Char.ofNat (48 + d)

/-- Digits of `n`, most significant first, prepended to `acc`. -/
def natDigitsAux : Nat → Nat → Str → Str
  | 0, _, acc => acc
  | fuel + 1, n, acc =>
    if n < 10 then digitChar n :: acc
    else natDigitsAux fuel (n / 10) (digitChar (n % 10) :: acc)

/-- The call `std::to_string(n)` for a non-negative integer. -/
def to_string (n : Nat) : Str := natDigitsAux (n + 1) n []

/-- The method `Server::format_double_2dp`: `std::fixed` with precision 2, which
rounds the exact binary value to two decimals, ties to even.  The sign of a NaN
is not modelled and it is written `nan`. -/
def format_double_2dp : Dbl → Str
  | Dbl.fin s k =>
    let cents := roundHalfEven (k * 100) (2 ^ 1074)
    (if s then ['-'] else []) ++ to_string (cents / 100) ++
      ['.', digitChar (cents % 100 / 10), digitChar (cents % 10)]
  | Dbl.inf s => if s then "-inf".toList else "inf".toList
  | Dbl.nan => "nan".toList

/-! ## The evaluator `CalcImpl` (src/client/ICalc.h) -/

/-- The exceptions `CalcImpl::calculate` throws, one constructor per `throw`. -/
inductive CalcError where
  | emptyExpression
  | invalidCharacter (c : Char)
  | unexpectedCharacters (pos : Nat)
  | expectedNumber
  | expectedDigit
  | invalidNumberFormat
  | divisionByZero
  | moduloByZero
  | overflow
  deriving DecidableEq, Repr

/-- The text `e.what()` of an exception, read as a C string (it ends at a NUL byte). -/
def CalcError.what : CalcError → Str
  | emptyExpression => "Empty expression".toList
  | invalidCharacter c =>
    if c.toNat = 0 then "Invalid character: ".toList else "Invalid character: ".toList ++ [c]
  | unexpectedCharacters pos => "Unexpected characters at position ".toList ++ to_string pos
  | expectedNumber => "Expected number".toList
  | expectedDigit => "Expected digit or decimal point after minus".toList
  | invalidNumberFormat => "Invalid number format".toList
  | divisionByZero => "Division by zero".toList
  | moduloByZero => "Modulo by zero".toList
  | overflow => "Arithmetic overflow".toList

/-- The error taxonomy of the specification (section 7). -/
inductive ErrorKind where
  | InvalidCharacter
  | SyntaxError
  | DivisionByZero
  | ModuloByZero
  | Overflow
  deriving DecidableEq, Repr

/-- Kind of each exception: a syntax error is an empty expression, a malformed
number or trailing garbage. -/
def CalcError.kind : CalcError → ErrorKind
  | emptyExpression => ErrorKind.SyntaxError
  | invalidCharacter _ => ErrorKind.InvalidCharacter
  | unexpectedCharacters _ => ErrorKind.SyntaxError
  | expectedNumber => ErrorKind.SyntaxError
  | expectedDigit => ErrorKind.SyntaxError
  | invalidNumberFormat => ErrorKind.SyntaxError
  | divisionByZero => ErrorKind.DivisionByZero
  | moduloByZero => ErrorKind.ModuloByZero
  | overflow => ErrorKind.Overflow

/-- The test of `validate_characters` that a character is allowed. -/
def allowedChar (c : Char) : Bool :=
  isdigit c || c = '+' || c = '-' || c = '*' || c = '/' || c = '%' || c = '.' || isspace c

/-- The method `CalcImpl::validate_characters`: throws at the first character that
is not allowed. -/
def validate_characters : Str → Except CalcError Unit
  | [] => Except.ok ()
  | c :: cs =>
    if allowedChar c then validate_characters cs
    else Except.error (CalcError.invalidCharacter c)

/-- The loop of `skip_spaces`; every iteration advances `pos`, so `s.length`
iterations are never exceeded. -/
def skipLoop (s : Str) : Nat → Nat → Nat
  | 0, pos => pos
  | fuel + 1, pos =>
    match s[pos]? with
    | none => pos
    | some c => if isspace c then skipLoop s fuel (pos + 1) else pos

/-- The method `CalcImpl::skip_spaces`; returns the new `pos`. -/
def skip_spaces (s : Str) (pos : Nat) : Nat := skipLoop s s.length pos

/-- The digit loop of `parse_number`: digits and at most one `'.'`. -/
def numberLoop (s : Str) : Nat → Nat → Bool → Nat
  | 0, pos, _ => pos
  | fuel + 1, pos, has_decimal =>
    match s[pos]? with
    | none => pos
    | some c =>
      if isdigit c || (!has_decimal && c = '.') then
        numberLoop s fuel (pos + 1) (if c = '.' then true else has_decimal)
      else pos

/-- The call `s.substr(start, len)`. -/
def substr (s : Str) (start len : Nat) : Str := (s.drop start).take len

/-- The method `CalcImpl::parse_number`; returns the value and the new `pos`. -/
def parse_number (s : Str) (pos : Nat) : Except CalcError (Dbl × Nat) :=
  let pos1 := skip_spaces s pos
  match s[pos1]? with
  | none => Except.error CalcError.expectedNumber
  | some c0 =>
    let negative : Bool := c0 = '-'
    let pos2 := if negative then pos1 + 1 else pos1
    match s[pos2]? with
    | none => Except.error CalcError.expectedDigit
    | some c =>
      if !isdigit c && c ≠ '.' then Except.error CalcError.expectedDigit
      else
        let pos3 := numberLoop s s.length pos2 false
        match stod (substr s pos2 (pos3 - pos2)) with
        | none => Except.error CalcError.invalidNumberFormat
        | some value => Except.ok (if negative then value.neg else value, pos3)

/-- The method `CalcImpl::parse_factor`. -/
def parse_factor (s : Str) (pos : Nat) : Except CalcError (Dbl × Nat) :=
  parse_number s (skip_spaces s pos)

/-- The `while` loop of `parse_term`; every iteration consumes the operator, so
`s.length` iterations are never exceeded. -/
def termLoop (s : Str) : Nat → Dbl → Nat → Except CalcError (Dbl × Nat)
  | 0, lhs, pos => Except.ok (lhs, pos)
  | fuel + 1, lhs, pos =>
    match s[pos]? with
    | none => Except.ok (lhs, pos)
    | some op =>
      if op ≠ '*' ∧ op ≠ '/' ∧ op ≠ '%' then Except.ok (lhs, pos)
      else
        match parse_factor s (pos + 1) with
        | Except.error e => Except.error e
        | Except.ok (rhs, pos1) =>
          if op = '*' then termLoop s fuel (lhs.mul rhs) (skip_spaces s pos1)
          else if op = '/' then
            if rhs.abs.lt Dbl.epsilon then Except.error CalcError.divisionByZero
            else termLoop s fuel (lhs.div rhs) (skip_spaces s pos1)
          else
            if rhs.abs.lt Dbl.epsilon then Except.error CalcError.moduloByZero
            else termLoop s fuel (lhs.fmod rhs) (skip_spaces s pos1)

/-- The method `CalcImpl::parse_term`. -/
def parse_term (s : Str) (pos : Nat) : Except CalcError (Dbl × Nat) :=
  match parse_factor s pos with
  | Except.error e => Except.error e
  | Except.ok (lhs, pos1) => termLoop s s.length lhs (skip_spaces s pos1)

/-- The `while` loop of `parse_expression`. -/
def exprLoop (s : Str) : Nat → Dbl → Nat → Except CalcError (Dbl × Nat)
  | 0, lhs, pos => Except.ok (lhs, pos)
  | fuel + 1, lhs, pos =>
    match s[pos]? with
    | none => Except.ok (lhs, pos)
    | some op =>
      if op ≠ '+' ∧ op ≠ '-' then Except.ok (lhs, pos)
      else
        match parse_term s (pos + 1) with
        | Except.error e => Except.error e
        | Except.ok (rhs, pos1) =>
          if op = '+' then exprLoop s fuel (lhs.add rhs) (skip_spaces s pos1)
          else exprLoop s fuel (lhs.sub rhs) (skip_spaces s pos1)

/-- The method `CalcImpl::parse_expression`. -/
def parse_expression (s : Str) (pos : Nat) : Except CalcError (Dbl × Nat) :=
  match parse_term s pos with
  | Except.error e => Except.error e
  | Except.ok (lhs, pos1) => exprLoop s s.length lhs (skip_spaces s pos1)

/-- The method `CalcImpl::calculate`. -/
def calculate (expr : Str) : Except CalcError Dbl :=
  if expr = [] then Except.error CalcError.emptyExpression
  else
    match validate_characters expr with
    | Except.error e => Except.error e
    | Except.ok _ =>
      match parse_expression expr 0 with
      | Except.error e => Except.error e
      | Except.ok (result, pos) =>
        let pos1 := skip_spaces expr pos
        if pos1 ≠ expr.length then Except.error (CalcError.unexpectedCharacters pos1)
        else if result.isinf then Except.error CalcError.overflow
        else Except.ok result

instance instDecidableEqExcept {ε α : Type} [DecidableEq ε] [DecidableEq α] :
    DecidableEq (Except ε α)
  | Except.ok a, Except.ok b => decidable_of_iff (a = b) (by simp)
  | Except.error a, Except.error b => decidable_of_iff (a = b) (by simp)
  | Except.ok _, Except.error _ => isFalse (by simp)
  | Except.error _, Except.ok _ => isFalse (by simp)

/-! ## Expressions as token sequences, and their standard evaluation

The grammar of the specification (section 4.1), with its whitespace made explicit,
and the evaluation it calls standard: terms are the maximal runs of `* / %`,
evaluated left to right, and the terms are then combined left to right by `+ -`. -/

/-- The five binary operators. -/
inductive Op where
  | add
  | sub
  | mul
  | div
  | mod
  deriving DecidableEq, Repr

/-- Character of an operator. -/
def Op.char : Op → Char
  | add => '+'
  | sub => '-'
  | mul => '*'
  | div => '/'
  | mod => '%'

/-- The operators `* / %`, which bind tighter than `+ -`. -/
def Op.isMul : Op → Bool
  | mul => true
  | div => true
  | mod => true
  | _ => false

/-- A number token: an optional minus sign, the digits before the decimal point
and, when there is a decimal point, the digits after it. -/
structure NumLit where
  neg : Bool
  ip : Str
  fp : Option Str
  deriving DecidableEq, Repr

/-- The characters of a number token after its sign. -/
def NumLit.absText (n : NumLit) : Str :=
  n.ip ++ (match n.fp with
    | none => []
    | some f => '.' :: f)

/-- The characters of a number token. -/
def NumLit.text (n : NumLit) : Str := (if n.neg then ['-'] else []) ++ n.absText

/-- The grammar rule `number := "-"? digit+ ("." digit+)?`. -/
def NumLit.wf (n : NumLit) : Bool :=
  !n.ip.isEmpty && n.ip.all isdigit &&
    (match n.fp with
      | none => true
      | some f => !f.isEmpty && f.all isdigit)

/-- The rule `number := "-"? (digit+ ("." digit*)? | "." digit+)`: digits on at
least one side of the decimal point. -/
def NumLit.lax (n : NumLit) : Bool :=
  n.ip.all isdigit &&
    (match n.fp with
      | none => !n.ip.isEmpty
      | some f => f.all isdigit && (!n.ip.isEmpty || !f.isEmpty))

/-- The shape the scanner of `parse_number` takes for a number: digits with at most
one decimal point, not empty (this includes the lone `"."`). -/
def NumLit.lexical (n : NumLit) : Bool :=
  n.ip.all isdigit &&
    (match n.fp with
      | none => !n.ip.isEmpty
      | some f => f.all isdigit)

/-- The double a number token denotes: the nearest double of its decimal value,
if it is in range. -/
def NumLit.value (n : NumLit) : Option Dbl :=
  match stod n.absText with
  | none => none
  | some v => some (if n.neg then v.neg else v)

/-- An operator followed by its right operand, with the whitespace after each. -/
structure Item where
  op : Op
  ws1 : Str
  num : NumLit
  ws2 : Str
  deriving DecidableEq, Repr

/-- An expression `number (op number)*` with the whitespace before the first
token, between adjacent tokens and after the last one. -/
structure Expr where
  ws0 : Str
  first : NumLit
  ws1 : Str
  items : List Item
  deriving DecidableEq, Repr

/-- The characters of an item. -/
def Item.render (i : Item) : Str := i.op.char :: (i.ws1 ++ (i.num.text ++ i.ws2))

/-- The characters of a list of items. -/
def renderItems : List Item → Str
  | [] => []
  | i :: is => i.render ++ renderItems is

/-- The characters of an expression. -/
def Expr.render (e : Expr) : Str := e.ws0 ++ (e.first.text ++ (e.ws1 ++ renderItems e.items))

/-- The tokens of an item. -/
def Item.token (i : Item) : Op × NumLit := (i.op, i.num)

/-- The tokens of an expression, its whitespace forgotten. -/
def Expr.tokens (e : Expr) : NumLit × List (Op × NumLit) := (e.first, e.items.map Item.token)

/-- All whitespace of an item is whitespace. -/
def Item.spaced (i : Item) : Bool := i.ws1.all isspace && i.ws2.all isspace

/-- All whitespace of an expression is whitespace. -/
def Expr.spaced (e : Expr) : Bool :=
  e.ws0.all isspace && e.ws1.all isspace && e.items.all Item.spaced

/-- The expression satisfies the grammar of the specification. -/
def Expr.wf (e : Expr) : Bool :=
  e.spaced && e.first.wf && e.items.all (fun i => i.num.wf)

/-- The expression satisfies the grammar with the number rule relaxed to `lax`. -/
def Expr.lax (e : Expr) : Bool :=
  e.spaced && e.first.lax && e.items.all (fun i => i.num.lax)

/-- The expression is a sequence of tokens as the scanner takes them. -/
def Expr.lexical (e : Expr) : Bool :=
  e.spaced && e.first.lexical && e.items.all (fun i => i.num.lexical)

/-- One binary operation on doubles; `/` and `%` fail on a right operand within
epsilon of zero. -/
def applyOp : Op → Dbl → Dbl → Except CalcError Dbl
  | Op.add, a, b => Except.ok (a.add b)
  | Op.sub, a, b => Except.ok (a.sub b)
  | Op.mul, a, b => Except.ok (a.mul b)
  | Op.div, a, b =>
    if b.abs.lt Dbl.epsilon then Except.error CalcError.divisionByZero else Except.ok (a.div b)
  | Op.mod, a, b =>
    if b.abs.lt Dbl.epsilon then Except.error CalcError.moduloByZero else Except.ok (a.fmod b)

/-- Value of a number token, or the error of a number out of range. -/
def evalNum (n : NumLit) : Except CalcError Dbl :=
  match n.value with
  | none => Except.error CalcError.invalidNumberFormat
  | some v => Except.ok v

/-- Left-to-right evaluation of a run `lhs op1 n1 op2 n2 ...`. -/
def evalRun (lhs : Dbl) : List (Op × NumLit) → Except CalcError Dbl
  | [] => Except.ok lhs
  | (op, n) :: rest =>
    match evalNum n with
    | Except.error e => Except.error e
    | Except.ok r =>
      match applyOp op lhs r with
      | Except.error e => Except.error e
      | Except.ok v => evalRun v rest

/-- Value of a term: a number followed by a run of `* / %`. -/
def evalTerm (n : NumLit) (run : List (Op × NumLit)) : Except CalcError Dbl :=
  match evalNum n with
  | Except.error e => Except.error e
  | Except.ok v => evalRun v run

/-- Splits `op1 n1 op2 n2 ...` into the run of `* / %` at its head and the terms
that follow, each with the `+` or `-` before it. -/
def groupTerms : List (Op × NumLit) →
    List (Op × NumLit) × List (Op × NumLit × List (Op × NumLit))
  | [] => ([], [])
  | (op, n) :: rest =>
    let g := groupTerms rest
    if op.isMul then ((op, n) :: g.1, g.2) else ([], (op, n, g.1) :: g.2)

/-- Left-to-right combination of the terms. -/
def evalTerms (lhs : Dbl) : List (Op × NumLit × List (Op × NumLit)) → Except CalcError Dbl
  | [] => Except.ok lhs
  | (op, n, run) :: rest =>
    match evalTerm n run with
    | Except.error e => Except.error e
    | Except.ok r =>
      match applyOp op lhs r with
      | Except.error e => Except.error e
      | Except.ok v => evalTerms v rest

/-- Standard operator-precedence evaluation of a token sequence: `* / %` bind
tighter than `+ -`, equal precedence associates to the left. -/
def stdEval (t : NumLit × List (Op × NumLit)) : Except CalcError Dbl :=
  let g := groupTerms t.2
  match evalTerm t.1 g.1 with
  | Except.error e => Except.error e
  | Except.ok v => evalTerms v g.2

/-- The overflow check at the end of `calculate`. -/
def overflowCheck : Except CalcError Dbl → Except CalcError Dbl
  | Except.error e => Except.error e
  | Except.ok v => if v.isinf then Except.error CalcError.overflow else Except.ok v

/-! ## Failures met by the evaluation, from left to right -/

/-- The item is a `/` or `%` whose right operand is within epsilon of zero. -/
def isZeroDivisor (i : Op × NumLit) : Bool :=
  (decide (i.1 = Op.div) || decide (i.1 = Op.mod)) &&
    (match i.2.value with
      | some r => r.abs.lt Dbl.epsilon
      | none => false)

/-- The operator of the leftmost zero divisor, if there is one. -/
def firstZeroDivisor : List (Op × NumLit) → Option Op
  | [] => none
  | i :: rest => if isZeroDivisor i then some i.1 else firstZeroDivisor rest

/-- Every number of the token sequence is in the range of a double. -/
def inRange (t : NumLit × List (Op × NumLit)) : Bool :=
  t.1.value.isSome && t.2.all (fun i => i.2.value.isSome)

/-- What goes wrong at an item when it is reached: its number is out of range, or
it is a zero divisor. -/
def itemFailure (i : Op × NumLit) : Option CalcError :=
  match i.2.value with
  | none => some CalcError.invalidNumberFormat
  | some r =>
    if r.abs.lt Dbl.epsilon then
      match i.1 with
      | Op.div => some CalcError.divisionByZero
      | Op.mod => some CalcError.moduloByZero
      | _ => none
    else none

/-- The failure of the leftmost item that fails, if one does. -/
def firstFailure : List (Op × NumLit) → Option CalcError
  | [] => none
  | i :: rest =>
    match itemFailure i with
    | some e => some e
    | none => firstFailure rest

/-- Reading a token sequence from left to right, the first thing that goes wrong:
a number out of the range of a double, or a zero divisor. -/
def exprFailure (t : NumLit × List (Op × NumLit)) : Option CalcError :=
  match t.1.value with
  | none => some CalcError.invalidNumberFormat
  | some _ => firstFailure t.2

/-- The outcome `r` is the first failure of `toks`, or a value when nothing fails. -/
def failOutcome (toks : List (Op × NumLit)) (r : Except CalcError Dbl) : Prop :=
  match firstFailure toks with
  | some e => r = Except.error e
  | none => ∃ v, r = Except.ok v

/-- The tokens of a list of terms, in order. -/
def flattenTerms : List (Op × NumLit × List (Op × NumLit)) → List (Op × NumLit)
  | [] => []
  | (op, n, run) :: rest => (op, n) :: (run ++ flattenTerms rest)

/-! ## The server connection handler (src/server/server.cpp) -/

/-- The per-connection record `Server::Client` (the peer address, used only for
logging, is left out). -/
structure Client where
  in_buf : Str
  out_buf : Str
  out_sent : Nat
  closing : Bool
  deriving DecidableEq, Repr

/-- The record `Client{"", "", 0, client_addr, false}` of a newly accepted connection. -/
def Client.fresh : Client := { in_buf := [], out_buf := [], out_sent := 0, closing := false }

/-- The bits of `events` that `handle_client_data` tests. -/
structure Events where
  epollin : Bool
  epollout : Bool
  epollrdhup : Bool
  epollhup : Bool
  epollerr : Bool
  deriving DecidableEq, Repr

/-- The interest set of an `epoll_ctl(EPOLL_CTL_MOD)` call: `EPOLLIN` or `EPOLLOUT`,
each with `EPOLLET | EPOLLRDHUP | EPOLLHUP | EPOLLERR`. -/
inductive Interest where
  | readable
  | writable
  deriving DecidableEq, Repr

/-- Result of one `recv` call: `bytes b` is the return value `b.length` with the
bytes `b` (so `bytes []` is the return value 0), `wouldBlock` is -1 with `EAGAIN`,
`error` is -1 with another `errno`. -/
inductive RecvResult where
  | bytes (b : Str)
  | wouldBlock
  | error
  deriving DecidableEq, Repr

/-- Result of one `send` call: `accepted n` says the transport takes `n` of the
bytes offered (all of them if fewer are offered), `wouldBlock` is -1 with
`EAGAIN`, `error` is -1 with another `errno`. -/
inductive SendResult where
  | accepted (n : Nat)
  | wouldBlock
  | error
  deriving DecidableEq, Repr

/-- What one call of the handler does to its connection: the record left in the
table (`none` when the descriptor was closed and the entry erased), the bytes
handed to the transport, and the interest set of the last `epoll_ctl` `MOD`. -/
structure Outcome where
  client : Option Client
  sent : Str
  ctl : Option Interest
  deriving DecidableEq, Repr

/-- The call `s.find(ch)`; `none` is `npos`. -/
def find : Str → Char → Option Nat
  | [], _ => none
  | c :: cs, ch =>
    if c = ch then some 0
    else match find cs ch with
      | none => none
      | some i => some (i + 1)

/-- The response line of one request: the result with two decimals, or
`Error: ` and the text of the exception; then a newline. -/
def response (expr : Str) : Str :=
  match calculate expr with
  | Except.ok result => format_double_2dp result ++ ['\n']
  | Except.error e => "Error: ".toList ++ (e.what ++ ['\n'])

/-- The token loop `while ((pos = in_buf.find(' ')) != npos)`; every iteration
erases at least one byte of `in_buf`, so `in_buf.length` iterations are never
exceeded. -/
def extractLoop : Nat → Client → Client
  | 0, c => c
  | fuel + 1, c =>
    match find c.in_buf ' ' with
    | none => c
    | some pos =>
      let expr := substr c.in_buf 0 pos
      let c1 := { c with in_buf := c.in_buf.drop (pos + 1) }
      extractLoop fuel (if expr ≠ [] then { c1 with out_buf := c1.out_buf ++ response expr } else c1)

/-- The body of `if (count > 0)`: append the bytes received, then extract and
answer the complete tokens. -/
def onData (c : Client) (b : Str) : Client :=
  extractLoop (c.in_buf ++ b).length { c with in_buf := c.in_buf ++ b }

/-- The `recv` loop of the `EPOLLIN` branch over the results of the successive
`recv` calls; when the list ends no more data is available (`EAGAIN`).  `none` is
the `recv` error path, which closes and erases the connection. -/
def recvLoop : Client → Option Interest → List RecvResult → Option (Client × Option Interest)
  | c, ctl, [] => some (c, ctl)
  | c, ctl, RecvResult.bytes b :: rest =>
    if 0 < b.length then
      let c1 := onData c b
      recvLoop c1 (if c1.out_buf ≠ [] then some Interest.writable else ctl) rest
    else some (c, ctl)
  | c, ctl, RecvResult.wouldBlock :: _ => some (c, ctl)
  | _, _, RecvResult.error :: _ => none

/-- The `send` loop of the `EPOLLOUT` branch over the results of the successive
`send` calls; `acc` collects the bytes sent.  The record is `none` on the `send`
error path (also taken when `send` returns 0). -/
def sendLoop : Client → Str → List SendResult → Option Client × Str
  | c, acc, [] => (some c, acc)
  | c, acc, r :: rest =>
    if c.out_sent < c.out_buf.length then
      match r with
      | SendResult.accepted n =>
        let k := min n (c.out_buf.length - c.out_sent)
        if 0 < k then
          sendLoop { c with out_sent := c.out_sent + k } (acc ++ substr c.out_buf c.out_sent k) rest
        else (none, acc)
      | SendResult.wouldBlock => (some c, acc)
      | SendResult.error => (none, acc)
    else (some c, acc)

/-- The `EPOLLRDHUP` branch. -/
def handleRdhup (c : Client) : Outcome :=
  let c1 := if c.in_buf ≠ [] then
      { c with in_buf := [], out_buf := c.out_buf ++ response c.in_buf }
    else c
  if c1.out_buf = [] then { client := none, sent := [], ctl := none }
  else { client := some { c1 with closing := true }, sent := [], ctl := some Interest.writable }

/-- The `EPOLLOUT` branch. -/
def handleOut (c : Client) (ctl : Option Interest) (sends : List SendResult) : Outcome :=
  match sendLoop c [] sends with
  | (none, acc) => { client := none, sent := acc, ctl := ctl }
  | (some c1, acc) =>
    if c1.out_buf.length ≤ c1.out_sent then
      if c1.closing then { client := none, sent := acc, ctl := ctl }
      else { client := some { c1 with out_buf := [], out_sent := 0 }, sent := acc,
             ctl := some Interest.readable }
    else { client := some c1, sent := acc, ctl := ctl }

/-- The body of `Server::handle_client_data` for a connection found in the table,
given the results of the `recv` and `send` calls it makes. -/
def handleClient (c : Client) (ev : Events) (recvs : List RecvResult)
    (sends : List SendResult) : Outcome :=
  if ev.epollerr || ev.epollhup then { client := none, sent := [], ctl := none }
  else if ev.epollrdhup then handleRdhup c
  else
    match (if ev.epollin then recvLoop c none recvs else some (c, none)) with
    | none => { client := none, sent := [], ctl := none }
    | some (c1, ctl) =>
      if ev.epollout then handleOut c1 ctl sends
      else { client := some c1, sent := [], ctl := ctl }

/-- The connection table `std::map<int, Client> clients`. -/
abbrev Table := Int → Option Client

/-- The method `Server::handle_client_data`: the new table and the bytes sent. -/
def handle_client_data (clients : Table) (client_fd : Int) (ev : Events)
    (recvs : List RecvResult) (sends : List SendResult) : Table × Str :=
  match clients client_fd with
  | none => (clients, [])
  | some c =>
    let o := handleClient c ev recvs sends
    (fun fd => if fd = client_fd then o.client else clients fd, o.sent)

/-- One readiness event on a connection with the results of its system calls. -/
structure Step where
  ev : Events
  recvs : List RecvResult
  sends : List SendResult
  deriving DecidableEq, Repr

/-- A sequence of readiness events on one connection: the record left (`none` once
closed; later events find no entry) and all the bytes sent. -/
def runSteps : Option Client → Str → List Step → Option Client × Str
  | c, acc, [] => (c, acc)
  | none, acc, _ :: _ => (none, acc)
  | some c, acc, st :: rest =>
    let o := handleClient c st.ev st.recvs st.sends
    runSteps o.client (acc ++ o.sent) rest

/-- The event mask `EPOLLIN`. -/
def Events.readable : Events :=
  { epollin := true, epollout := false, epollrdhup := false, epollhup := false, epollerr := false }

/-- The event mask `EPOLLOUT`. -/
def Events.writable : Events :=
  { epollin := false, epollout := true, epollrdhup := false, epollhup := false, epollerr := false }

/-- The event mask `EPOLLIN | EPOLLRDHUP`: data and the peer's shutdown reported together. -/
def Events.readableRdhup : Events :=
  { epollin := true, epollout := false, epollrdhup := true, epollhup := false, epollerr := false }

/-- The event mask `EPOLLOUT | EPOLLRDHUP`: writable, with the peer's shutdown still reported. -/
def Events.writableRdhup : Events :=
  { epollin := false, epollout := true, epollrdhup := true, epollhup := false, epollerr := false }

/-- A readable event whose `recv` calls return the given chunks and then `EAGAIN`. -/
def readStep (chunks : List Str) : Step :=
  { ev := Events.readable, recvs := chunks.map RecvResult.bytes, sends := [] }

/-! ## Request framing, as the specification words it -/

/-- Puts `c` in front of the first token, or of the residue when there is no token. -/
def consToken (c : Char) (r : List Str × Str) : List Str × Str :=
  match r.1 with
  | [] => ([], c :: r.2)
  | t :: ts => ((c :: t) :: ts, r.2)

/-- The space-terminated tokens of a byte stream, in order, and the residue after
the last space. -/
def splitStream : Str → List Str × Str
  | [] => ([], [])
  | c :: cs =>
    if c = ' ' then ([] :: (splitStream cs).1, (splitStream cs).2)
    else consToken c (splitStream cs)

/-- The response lines of a list of tokens: one per non-empty token, in order. -/
def answers : List Str → Str
  | [] => []
  | t :: ts => (if t = [] then [] else response t) ++ answers ts

/-! ## The client (src/client/client.cpp, src/client/Generator.h) -/

/-- The constant `0.005` of `double_equal_2dp`: the double nearest to 5/1000. -/
def Dbl.tolerance : Dbl := Dbl.round false (5 * 2 ^ 1074) 1000

/-- The function `double_equal_2dp`: `std::fabs(a - b) < 0.005`. -/
def double_equal_2dp (a b : Dbl) : Bool := (a.sub b).abs.lt Dbl.tolerance

/-- The outcome the client reports for a response. -/
inductive Verdict where
  | OK
  | MISMATCH
  | ERROR
  deriving DecidableEq, Repr

/-- The comparison in the response verification of `Client::run`, once the expected
value and the received value are at hand. -/
def classify (expected actual : Dbl) : Verdict :=
  if !double_equal_2dp expected actual then Verdict.MISMATCH else Verdict.OK

/-- The function `tolower` on one byte. -/
def tolower (c : Char) : Char :=
  if 65 ≤ c.toNat ∧ c.toNat ≤ 90 then Char.ofNat (c.toNat + 32) else c

/-- The function `isxdigit`. -/
def isxdigit (c : Char) : Bool :=
  isdigit c || (decide (97 ≤ (tolower c).toNat) && decide ((tolower c).toNat ≤ 102))

/-- Value of a hexadecimal digit character. -/
def hexVal (c : Char) : Nat := if isdigit c then digitVal c else (tolower c).toNat - 87

/-- Value of a string of hexadecimal digits. -/
def hexValue (ds : Str) : Nat := ds.foldl (fun acc c => acc * 16 + hexVal c) 0

/-- Whether `s` starts with the lower-case word `w`, letter case ignored
(`strncasecmp`). -/
def startsWithWord (w : Str) (s : Str) : Bool := (s.take w.length).map tolower = w

/-- The finite result of `strtod` for the magnitude `num / den`, in units of
`2^(-1074)`, with sign `neg`: the nearest double; `none` stands for `ERANGE`, set
on overflow, and when the value is nonzero, below the least normal double after
rounding, and not exactly representable. -/
def strtodRound (neg : Bool) (num den : Nat) : Option Dbl :=
  if 4 * num < (2 ^ 54 - 1) * den ∧ num % den ≠ 0 then none
  else match Dbl.round neg num den with
    | Dbl.fin s k => some (Dbl.fin s k)
    | _ => none

/-- The exponent part of a number: after the exponent letter, an optional sign and
at least one decimal digit; without a digit there is no exponent part (0). -/
def exponentPart (s : Str) : Int :=
  let signed : Bool × Str := match s with
    | '-' :: r => (true, r)
    | '+' :: r => (false, r)
    | r => (false, r)
  let ds := signed.2.takeWhile isdigit
  if signed.1 then -((decimalValue ds : Nat) : Int) else ((decimalValue ds : Nat) : Int)

/-- The digits before and after the decimal point at the head of `s`, for the digit
test `p`, and the rest of `s`. -/
def mantissaDigits (p : Char → Bool) (s : Str) : Str × Str × Str :=
  let ip := s.takeWhile p
  match s.dropWhile p with
  | '.' :: r => (ip, r.takeWhile p, r.dropWhile p)
  | r => (ip, [], r)

/-- The digits of a hexadecimal number at the head of `s`: `0x` or `0X` followed by
hexadecimal digits with at most one point and at least one digit; and the rest. -/
def hexMantissa (s : Str) : Option (Str × Str × Str) :=
  match s with
  | '0' :: x :: r =>
    if tolower x = 'x' then
      let m := mantissaDigits isxdigit r
      if m.1 = [] ∧ m.2.1 = [] then none else some m
    else none
  | _ => none

/-- The exponent that follows the digits: `letter` in either case and an exponent
part; 0 when there is none. -/
def exponentOf (letter : Char) (rest : Str) : Int :=
  match rest with
  | c :: r => if tolower c = letter then exponentPart r else 0
  | [] => 0

/-- The conversion `strtod` does after the white space and the sign, in the "C"
locale: `inf` or `nan` in any letter case, a hexadecimal number `0x h.h p±d`, or
a decimal number `d.d e±d`; at least one digit is needed, characters after the
number are ignored, and `0x` without a hexadecimal digit is the number 0.  The
outer `none` is "no conversion", the inner one `ERANGE`. -/
def strtodBody (neg : Bool) (s : Str) : Option (Option Dbl) :=
  if startsWithWord "inf".toList s then some (some (Dbl.inf neg))
  else if startsWithWord "nan".toList s then some (some Dbl.nan)
  else
    match hexMantissa s with
    | some (ip, fp, rest) =>
      let e : Int := exponentOf 'p' rest - 4 * (fp.length : Int)
      some (strtodRound neg (hexValue (ip ++ fp) * 2 ^ 1074 * 2 ^ e.toNat) (2 ^ (-e).toNat))
    | none =>
      let m := mantissaDigits isdigit s
      if m.1 = [] ∧ m.2.1 = [] then none
      else
        let e : Int := exponentOf 'e' m.2.2
        some (strtodRound neg (decimalValue (m.1 ++ m.2.1) * 2 ^ 1074 * 10 ^ e.toNat)
          (10 ^ m.2.1.length * 10 ^ (-e).toNat))

/-- The function `strtod` of the C library (glibc), without its end pointer: it
skips white space, reads an optional sign and converts the longest number that
follows. -/
def strtod (s : Str) : Option (Option Dbl) :=
  match s.dropWhile isspace with
  | '-' :: r => strtodBody true r
  | '+' :: r => strtodBody false r
  | r => strtodBody false r

/-- The call `std::stod(str)` on any string, as `Client::run` makes it on a response
line: the value `strtod` converts, and an exception (`none`) when nothing is
converted (`std::invalid_argument`) or `strtod` reports `ERANGE`
(`std::out_of_range`).  On the strings `parse_number` passes it is `stod`. -/
def stodAny (str : Str) : Option Dbl :=
  match strtod str with
  | some (some v) => some v
  | _ => none

/-- The response verification of `Client::run` for the response line, trimmed of
its trailing white space: `ERROR` when `calculate` or `std::stod` throws, and
otherwise the comparison of the two values. -/
def verifyResponse (expr response_line : Str) : Verdict :=
  match calculate expr with
  | Except.error _ => Verdict.ERROR
  | Except.ok expected =>
    match stodAny response_line with
    | none => Verdict.ERROR
    | some actual => classify expected actual

/-- The constant `Generator::kOps`, indexed as `kOps[k]`. -/
def kOps (k : Nat) : Char := ("+-*/".toList).getD k '/'

/-- The `for` loop of `Generator::generate_expression`, with `k` iterations left at
index `i`; `num i` and `op i` are the values the two distributions draw in
iteration `i`. -/
def generateLoop (num op : Nat → Nat) (n : Nat) : Nat → Nat → Str → Str
  | 0, _, expr => expr
  | k + 1, i, expr =>
    let e1 := expr ++ to_string (num i)
    generateLoop num op n k (i + 1) (if i < n - 1 then e1 ++ [kOps (op i)] else e1)

/-- The method `Generator::generate_expression`; `none` is the exception for
`n <= 0`.  The result ends with a space. -/
def generate_expression (num op : Nat → Nat) (n : Int) : Option Str :=
  if n ≤ 0 then none
  else some (generateLoop num op n.toNat n.toNat 0 [] ++ [' '])

/-! ## Events on several connections, and what an event receives -/

/-- The non-empty byte blocks the `recv` loop of a readable event appends to the
input buffer: it stops at the first call that returns 0, `EAGAIN` or an error. -/
def recvChunks : List RecvResult → List Str
  | RecvResult.bytes b :: rest => if 0 < b.length then b :: recvChunks rest else []
  | _ => []

/-- Whether the `recv` loop ends on the `perror("recv")` path. -/
def recvFails : List RecvResult → Bool
  | RecvResult.bytes b :: rest => if 0 < b.length then recvFails rest else false
  | RecvResult.error :: _ => true
  | _ => false

/-- An event that reports readable, writable or both, and neither an error, a
hangup nor the peer's shutdown. -/
def Events.plain (ev : Events) : Bool := !ev.epollerr && !ev.epollhup && !ev.epollrdhup

/-- The bytes the connection receives during one event. -/
def Step.data (st : Step) : Str := if st.ev.epollin then (recvChunks st.recvs).flatten else []

/-- The bytes the connection receives during a sequence of events. -/
def streamOf (steps : List Step) : Str := (steps.map Step.data).flatten

/-- The part of the output buffer not yet handed to the transport. -/
def Client.pending (c : Client) : Str := c.out_buf.drop c.out_sent

/-- The loop body of `Server::run` for a batch of client events, each with its
descriptor: the table and, per descriptor, the bytes sent so far. -/
def runEvents : Table → (Int → Str) → List (Int × Step) → Table × (Int → Str)
  | clients, out, [] => (clients, out)
  | clients, out, (fd, st) :: rest =>
    let r := handle_client_data clients fd st.ev st.recvs st.sends
    runEvents r.1 (fun d => if d = fd then out d ++ r.2 else out d) rest

/-- The events of a batch that are on descriptor `fd`, in order. -/
def stepsOf (fd : Int) (evs : List (Int × Step)) : List Step :=
  (evs.filter (fun e => decide (e.1 = fd))).map Prod.snd

/-! ## The client connection handler (src/client/client.cpp) -/

/-- The loop of `split_expression_randomly`; `draw i m` is the value the `i`-th
distribution `dist(1, m)` returns.  Every iteration advances `pos`, so
`expr.length` iterations are never exceeded. -/
def splitLoop (expr : Str) (draw : Nat → Nat → Nat) : Nat → Nat → Nat → List Str → List Str
  | 0, _, _, parts => parts
  | fuel + 1, i, pos, parts =>
    if pos < expr.length then
      let remaining := expr.length - pos
      let max_chunk := min 4 remaining
      let len := draw i max_chunk
      splitLoop expr draw fuel (i + 1) (pos + len) (parts ++ [substr expr pos len])
    else parts

/-- The function `split_expression_randomly`. -/
def split_expression_randomly (expr : Str) (draw : Nat → Nat → Nat) : List Str :=
  splitLoop expr draw expr.length 0 0 []

/-- What `std::uniform_int_distribution<size_t>(1, m)` guarantees of its values. -/
def drawsInRange (draw : Nat → Nat → Nat) : Prop := ∀ i m, 1 ≤ m → 1 ≤ draw i m ∧ draw i m ≤ m

/-- The record `Conn` of a client task (descriptor and task number left out). -/
structure Conn where
  expr : Str
  chunks : List Str
  chunk_index : Nat
  send_offset : Nat
  recv_buffer : Str
  finished_sending : Bool
  deriving DecidableEq, Repr

/-- The task `Client::run` creates for an expression and its chunks. -/
def Conn.init (expr : Str) (chunks : List Str) : Conn :=
  { expr := expr, chunks := chunks, chunk_index := 0, send_offset := 0, recv_buffer := [],
    finished_sending := false }

/-- The function `send_all`: the value `send` returns (`-1` on `EAGAIN` and on an
error) and the new offset. -/
def send_all (data : Str) (offset : Nat) (r : SendResult) : Int × Nat :=
  let sent : Int := match r with
    | SendResult.accepted n => ((min n (data.length - offset) : Nat) : Int)
    | SendResult.wouldBlock => -1
    | SendResult.error => -1
  (sent, if 0 < sent then offset + sent.toNat else offset)

/-- The `EPOLLOUT` branch of `Client::run` for one task, given the result of its
`send` call (`epoll_ctl` taken to succeed): the record left (`none` when the task
is closed and erased) and the bytes transmitted. -/
def clientWritable (c : Conn) (r : SendResult) : Option Conn × Str :=
  if !c.finished_sending then
    if c.chunk_index < c.chunks.length then
      let chunk := c.chunks.getD c.chunk_index []
      let (sent, offset) := send_all chunk c.send_offset r
      let bytes := substr chunk c.send_offset (offset - c.send_offset)
      let c1 := { c with send_offset := offset }
      if 0 < sent then
        let c2 := if c1.send_offset = chunk.length then
            { c1 with chunk_index := c1.chunk_index + 1, send_offset := 0 }
          else c1
        (some (if c2.chunk_index < c2.chunks.length then c2
          else { c2 with finished_sending := true }), bytes)
      else if sent = -1 ∧ r ≠ SendResult.wouldBlock then (none, bytes)
      else
        (some (if c1.chunk_index < c1.chunks.length then c1
          else { c1 with finished_sending := true }), bytes)
    else (some c, [])
  else (some c, [])

/-- A sequence of writable events on one task: the record left and all the bytes
transmitted. -/
def runWritable : Option Conn → Str → List SendResult → Option Conn × Str
  | c, acc, [] => (c, acc)
  | none, acc, _ :: _ => (none, acc)
  | some c, acc, r :: rest =>
    runWritable (clientWritable c r).1 (acc ++ (clientWritable c r).2) rest

/-- What the readable handling of `Client::run` does besides updating the record. -/
inductive Effect where
  | verify (response_line : Str)
  | close
  | epollDel
  | erase
  deriving DecidableEq, Repr

/-- The `recv` loop of the client's `EPOLLIN` branch: the response buffer and the
flag `closed`. -/
def clientRecvLoop : Str → List RecvResult → Str × Bool
  | buf, [] => (buf, false)
  | buf, RecvResult.bytes b :: rest =>
    if 0 < b.length then clientRecvLoop (buf ++ b) rest else (buf, true)
  | buf, RecvResult.wouldBlock :: _ => (buf, false)
  | buf, RecvResult.error :: _ => (buf, true)

/-- The loop `while (!response_line.empty() && std::isspace(response_line.back()))`. -/
def trimRight (line : Str) : Str := (line.reverse.dropWhile isspace).reverse

/-- The `EPOLLIN` branch of `Client::run` for one task: the record and, in order,
the response verified, the `close`, `epoll_ctl(EPOLL_CTL_DEL)` and `conns.erase`
calls made. -/
def clientReadable (c : Conn) (recvs : List RecvResult) : Conn × List Effect :=
  let (buf, closed) := clientRecvLoop c.recv_buffer recvs
  let (buf1, effs) := match find buf '\n' with
    | some pos =>
      (buf.drop (pos + 1),
        [Effect.verify (trimRight (substr buf 0 pos)), Effect.close, Effect.epollDel, Effect.erase])
    | none => (buf, [])
  ({ c with recv_buffer := buf1 },
    effs ++ (if closed then [Effect.close, Effect.epollDel, Effect.erase] else []))

/-! ## Auxiliary notions of the proofs -/

/-- The next character, if any, is not whitespace. -/
def noSpaceHead (rest : Str) : Prop := ∀ c, rest.head? = some c → isspace c = false

/-- The next character, if any, is neither a digit nor a decimal point. -/
def stopHead (rest : Str) : Prop := ∀ c, rest.head? = some c → isdigit c = false ∧ c ≠ '.'

/-- A value together with the position reached. -/
def withPos (r : Except CalcError Dbl) (p : Nat) : Except CalcError (Dbl × Nat) :=
  match r with
  | Except.error e => Except.error e
  | Except.ok v => Except.ok (v, p)

/-- The text is empty or starts with `+` or `-`. -/
def addHead (tail : Str) : Prop := ∀ c, tail.head? = some c → c = '+' ∨ c = '-'

/-- The text is empty or starts with an operator. -/
def opHead (tail : Str) : Prop :=
  ∀ c, tail.head? = some c → c = '+' ∨ c = '-' ∨ c = '*' ∨ c = '/' ∨ c = '%'

/-- Every number of the items has the shape the scanner takes, and the whitespace
is whitespace. -/
def itemsOk (is : List Item) : Bool := is.all (fun i => i.spaced && i.num.lexical)

/-- The function `groupTerms` on items: the run of `* / %` at the head, and the
terms that follow, each led by its `+` or `-` item. -/
def groupItems : List Item → List Item × List (Item × List Item)
  | [] => ([], [])
  | i :: rest =>
    let g := groupItems rest
    if i.op.isMul then (i :: g.1, g.2) else ([], (i, g.1) :: g.2)

/-- The characters of a list of terms. -/
def renderGroups : List (Item × List Item) → Str
  | [] => []
  | g :: gs => renderItems (g.1 :: g.2) ++ renderGroups gs

/-- The tokens of a term. -/
def groupToken (g : Item × List Item) : Op × NumLit × List (Op × NumLit) :=
  (g.1.op, g.1.num, g.2.map Item.token)

/-- A term led by `+` or `-`, followed by a run of `* / %`. -/
def groupOk (g : Item × List Item) : Bool :=
  !g.1.op.isMul && g.2.all (fun i => i.op.isMul) && itemsOk (g.1 :: g.2)

/-- The digits of a number token are digits. -/
def NumLit.digitsOk (n : NumLit) : Bool :=
  n.ip.all isdigit &&
    (match n.fp with
      | none => true
      | some f => f.all isdigit)

/-- The whitespace of the items is whitespace and their numbers follow the relaxed rule. -/
def itemsLax (is : List Item) : Bool := is.all Item.spaced && is.all (fun i => i.num.lax)

/-- The exceptions thrown inside `parse_expression`. -/
def CalcError.isParseError : CalcError → Bool
  | expectedNumber => true
  | expectedDigit => true
  | invalidNumberFormat => true
  | divisionByZero => true
  | moduloByZero => true
  | _ => false

/-- Appends whitespace after the last item of a non-empty list of items. -/
def appendWsItems : Item → List Item → Str → List Item
  | i, [], ws => [{ i with ws2 := i.ws2 ++ ws }]
  | i, j :: rest, ws => i :: appendWsItems j rest ws

/-- Appends whitespace after the last token of an expression. -/
def Expr.appendWs (e : Expr) (ws : Str) : Expr :=
  match e.items with
  | [] => { e with ws1 := e.ws1 ++ ws }
  | i :: rest => { e with items := appendWsItems i rest ws }

/-- The number token of a string of digits, without sign or decimal point. -/
def NumLit.ofDigits (ds : Str) : NumLit := { neg := false, ip := ds, fp := none }

/-- The operator a draw of `op_dist` selects. -/
def opOfDraw (k : Nat) : Op :=
  if k = 0 then Op.add else if k = 1 then Op.sub else if k = 2 then Op.mul else Op.div

/-- The items `op(i-1) num(i)`, ..., for `k` numbers from index `i` on. -/
def genItems (num op : Nat → Nat) : Nat → Nat → List Item
  | 0, _ => []
  | k + 1, i =>
    { op := opOfDraw (op (i - 1)), ws1 := [], num := NumLit.ofDigits (to_string (num i)),
      ws2 := [] } :: genItems num op k (i + 1)

/-- The generated expression as a token sequence without whitespace. -/
def genExpr (num op : Nat → Nat) (n : Nat) : Expr :=
  { ws0 := [], first := NumLit.ofDigits (to_string (num 0)), ws1 := [],
    items := genItems num op (n - 1) 1 }

/-- The cursor is within the output buffer and the input buffer holds no delimiter. -/
def Client.tidy (c : Client) : Prop := c.out_sent ≤ c.out_buf.length ∧ ' ' ∉ c.in_buf

/-- The record after the bytes `d` have been received and their tokens answered. -/
def Client.fed (c : Client) (d : Str) : Client :=
  { in_buf := (splitStream (c.in_buf ++ d)).2
    out_buf := c.out_buf ++ answers (splitStream (c.in_buf ++ d)).1
    out_sent := c.out_sent
    closing := c.closing }

/-- Every event of the sequence reports readable or writable only. -/
def plainSteps (steps : List Step) : Bool := steps.all (fun st => st.ev.plain)

/-- The state of a task's sending, for the chunks `chunks` and the bytes `sent`
transmitted so far: the indices are in range, the bytes transmitted are the chunks
before `chunk_index` and the first `send_offset` bytes of the current one, and
`finished_sending` says that no chunk is left. -/
def sendInv (chunks : List Str) (c : Conn) (sent : Str) : Prop :=
  c.chunks = chunks ∧ c.chunk_index ≤ chunks.length ∧
  (c.chunk_index < chunks.length → c.send_offset < (chunks.getD c.chunk_index []).length) ∧
  (c.chunk_index = chunks.length → c.send_offset = 0) ∧
  sent = (chunks.take c.chunk_index).flatten ++ (chunks.getD c.chunk_index []).take c.send_offset ∧
  (c.finished_sending = true ↔ c.chunk_index = chunks.length)

/-- The function `std::isfinite`: neither an infinity nor a NaN. -/
def Dbl.isfinite : Dbl → Bool
  | Dbl.fin _ _ => true
  | _ => false

/-- The expression `1000...0*10` whose first number is `10^308`: every literal is
a finite double, the product is not. -/
def overflowExpr : Expr :=
  { ws0 := [], first := NumLit.ofDigits ('1' :: List.replicate 308 '0'), ws1 := [],
    items := [{ op := Op.mul, ws1 := [], num := NumLit.ofDigits "10".toList, ws2 := [] }] }

/-- The expression that is the single number `10^309`, above the largest double. -/
def hugeNumberExpr : Expr :=
  { ws0 := [], first := NumLit.ofDigits ('1' :: List.replicate 309 '0'), ws1 := [], items := [] }

/-- The expression `2+3*4 ` of the specification. -/
def exampleExpr : Expr :=
  { ws0 := [], first := NumLit.ofDigits "2".toList, ws1 := [],
    items := [{ op := Op.add, ws1 := [], num := NumLit.ofDigits "3".toList, ws2 := [] },
      { op := Op.mul, ws1 := [], num := NumLit.ofDigits "4".toList, ws2 := " ".toList }] }

/-- The expression `10^309+3/0`: its first number is above the largest double. -/
def hugeLiteralExpr : Expr :=
  { ws0 := [], first := NumLit.ofDigits ('1' :: List.replicate 309 '0'), ws1 := [],
    items := [{ op := Op.add, ws1 := [], num := NumLit.ofDigits "3".toList, ws2 := [] },
      { op := Op.div, ws1 := [], num := NumLit.ofDigits "0".toList, ws2 := [] }] }

/-- The expression `3/0+10^309`: the zero divisor comes before the number that is
out of range. -/
def zeroDivFirstExpr : Expr :=
  { ws0 := [], first := NumLit.ofDigits "3".toList, ws1 := [],
    items := [{ op := Op.div, ws1 := [], num := NumLit.ofDigits "0".toList, ws2 := [] },
      { op := Op.add, ws1 := [], num := NumLit.ofDigits ('1' :: List.replicate 309 '0'),
        ws2 := [] }] }

/-- The expression `8 - 6/0 % 0`, whose leftmost zero divisor is a `/`. -/
def zeroDivExpr : Expr :=
  { ws0 := [], first := NumLit.ofDigits "8".toList, ws1 := " ".toList,
    items := [{ op := Op.sub, ws1 := " ".toList, num := NumLit.ofDigits "6".toList, ws2 := [] },
      { op := Op.div, ws1 := [], num := NumLit.ofDigits "0".toList, ws2 := " ".toList },
      { op := Op.mod, ws1 := " ".toList, num := NumLit.ofDigits "0".toList, ws2 := [] }] }

/-- The expression ` 2 +\t3*\n4`, the tokens of `2+3*4 ` with other whitespace. -/
def spacedExpr : Expr :=
  { ws0 := " ".toList, first := NumLit.ofDigits "2".toList, ws1 := " ".toList,
    items := [{ op := Op.add, ws1 := "\t".toList, num := NumLit.ofDigits "3".toList, ws2 := [] },
      { op := Op.mul, ws1 := "\n".toList, num := NumLit.ofDigits "4".toList, ws2 := [] }] }

/-- The draws 7, 100, 3 of `num_dist` (any value afterwards is 1). -/
def sampleNum (i : Nat) : Nat := if i = 0 then 7 else if i = 1 then 100 else if i = 2 then 3 else 1

/-- The draws 2, 3 of `op_dist`, that is `*` and `/` (any value afterwards is 0). -/
def sampleOp (i : Nat) : Nat := if i = 0 then 2 else if i = 1 then 3 else 0

/-- A table with two connections: descriptor 5 has received `1+`, descriptor 7 has
the answer `9.00` pending. -/
def twoClients : Table := fun fd =>
  if fd = 5 then some { in_buf := "1+".toList, out_buf := [], out_sent := 0, closing := false }
  else if fd = 7 then
    some { in_buf := [], out_buf := "9.00\n".toList, out_sent := 0, closing := false }
  else none

/-- A connection with the residue `2+2` in its input buffer and the line `9.00`
pending, two bytes of it sent. -/
def residueClient : Client :=
  { in_buf := "2+2".toList, out_buf := "9.00\n".toList, out_sent := 2, closing := false }

/-- A connection with a lone tab in its input buffer and the line `9.00` pending. -/
def tabClient : Client :=
  { in_buf := "\t".toList, out_buf := "9.00\n".toList, out_sent := 0, closing := false }

/-- The bytes `2+2 3*` arrive, two bytes of the answer are sent, and the bytes
`3 ` arrive while the rest of the first answer is still pending. -/
def interleavedSteps : List Step :=
  [readStep ["2+2 3*".toList],
    { ev := Events.writable, recvs := [], sends := [SendResult.accepted 2] },
    readStep ["3 ".toList]]

/-- The expression `1000...0*10-1000...0*10`, the difference of two products of
`10^308` and 10. -/
def nanExpr : Expr :=
  { ws0 := [], first := NumLit.ofDigits ('1' :: List.replicate 308 '0'), ws1 := [],
    items := [{ op := Op.mul, ws1 := [], num := NumLit.ofDigits "10".toList, ws2 := [] },
      { op := Op.sub, ws1 := [], num := NumLit.ofDigits ('1' :: List.replicate 308 '0'),
        ws2 := [] },
      { op := Op.mul, ws1 := [], num := NumLit.ofDigits "10".toList, ws2 := [] }] }

/-- The expression `1000...0*10%3`: the remainder of an overflowing product. -/
def nanModExpr : Expr :=
  { ws0 := [], first := NumLit.ofDigits ('1' :: List.replicate 308 '0'), ws1 := [],
    items := [{ op := Op.mul, ws1 := [], num := NumLit.ofDigits "10".toList, ws2 := [] },
      { op := Op.mod, ws1 := [], num := NumLit.ofDigits "3".toList, ws2 := [] }] }

/-- The expression `-1000...0*10`, the product of `-10^308` and 10. -/
def negOverflowExpr : Expr :=
  { ws0 := [], first := { neg := true, ip := '1' :: List.replicate 308 '0', fp := none },
    ws1 := [],
    items := [{ op := Op.mul, ws1 := [], num := NumLit.ofDigits "10".toList, ws2 := [] }] }

/-! # Theorems -/

/-! ## Scanning lemmas -/

theorem getElem?_append_length (pre rest : Str) :
    (pre ++ rest)[pre.length]? = rest.head? := by
  induction pre with
  | nil => cases rest <;> simp
  | cons a pre ih => simpa using ih

theorem getElem?_at (s pre rest : Str) (p : Nat) (hs : s = pre ++ rest) (hp : p = pre.length) :
    s[p]? = rest.head? := by
  subst hs hp; exact getElem?_append_length pre rest

theorem skipLoop_spaces (ws : Str) : ∀ (s pre rest : Str) (fuel p : Nat),
    s = pre ++ (ws ++ rest) → p = pre.length →
    ws.all isspace = true → noSpaceHead rest → ws.length ≤ fuel →
    skipLoop s fuel p = p + ws.length := by
  induction ws with
  | nil =>
    intro s pre rest fuel p hs hp _ hrest _
    cases fuel with
    | zero => simp [skipLoop]
    | succ f =>
      simp only [skipLoop, getElem?_at s pre rest p (by simpa using hs) hp]
      cases hr : rest.head? with
      | none => simp
      | some c => simp [hrest c hr]
  | cons w ws ih =>
    intro s pre rest fuel p hs hp hws hrest hf
    cases fuel with
    | zero => simp at hf
    | succ f =>
      simp only [List.all_cons, Bool.and_eq_true] at hws
      simp only [skipLoop, getElem?_at s pre (w :: (ws ++ rest)) p (by simpa using hs) hp,
        List.head?_cons, hws.1, if_true]
      rw [ih s (pre ++ [w]) rest f (p + 1) (by simp [hs]) (by simp [hp]) hws.2 hrest
        (by simpa using hf)]
      simp; omega

theorem skip_spaces_spaces (s pre ws rest : Str) (p : Nat)
    (hs : s = pre ++ (ws ++ rest)) (hp : p = pre.length) (hws : ws.all isspace = true)
    (hrest : noSpaceHead rest) :
    skip_spaces s p = p + ws.length := by
  unfold skip_spaces
  apply skipLoop_spaces ws s pre rest _ p hs hp hws hrest
  subst hs; simp; omega

theorem skip_spaces_none (s pre rest : Str) (p : Nat) (hs : s = pre ++ rest)
    (hp : p = pre.length) (hrest : noSpaceHead rest) :
    skip_spaces s p = p := by
  have h := skip_spaces_spaces s pre [] rest p (by simpa using hs) hp (by simp) hrest
  simpa using h

theorem isdigit_ne_dot (c : Char) (h : isdigit c = true) : c ≠ '.' := by
  intro hc; subst hc; revert h; decide

theorem isdigit_ne_minus (c : Char) (h : isdigit c = true) : c ≠ '-' := by
  intro hc; subst hc; revert h; decide

theorem isdigit_not_space (c : Char) (h : isdigit c = true) : isspace c = false := by
  simp only [isdigit, Bool.and_eq_true, decide_eq_true_eq] at h
  simp only [isspace, Bool.or_eq_false_iff, Bool.and_eq_false_iff, decide_eq_false_iff_not]
  omega

theorem numberLoop_digits (ds : Str) : ∀ (s pre rest : Str) (fuel p : Nat) (hd : Bool),
    s = pre ++ (ds ++ rest) → p = pre.length →
    ds.all isdigit = true → ds.length ≤ fuel →
    numberLoop s fuel p hd = numberLoop s (fuel - ds.length) (p + ds.length) hd := by
  induction ds with
  | nil => intro s pre rest fuel p hd _ _ _ _; simp
  | cons d ds ih =>
    intro s pre rest fuel p hd hs hp hds hf
    cases fuel with
    | zero => simp at hf
    | succ f =>
      simp only [List.all_cons, Bool.and_eq_true] at hds
      have hnd := isdigit_ne_dot d hds.1
      simp only [numberLoop, getElem?_at s pre (d :: (ds ++ rest)) p (by simpa using hs) hp,
        List.head?_cons, hds.1, Bool.true_or, if_true, hnd, if_false]
      rw [ih s (pre ++ [d]) rest f (p + 1) hd (by simp [hs]) (by simp [hp]) hds.2
        (by simpa using hf)]
      simp only [List.length_cons, Nat.add_sub_add_right]
      congr 1; omega

theorem numberLoop_stop (s pre rest : Str) (fuel p : Nat) (hd : Bool)
    (hs : s = pre ++ rest) (hp : p = pre.length)
    (h : ∀ c, rest.head? = some c → isdigit c = false ∧ (hd = true ∨ c ≠ '.')) :
    numberLoop s fuel p hd = p := by
  cases fuel with
  | zero => simp [numberLoop]
  | succ f =>
    simp only [numberLoop, getElem?_at s pre rest p hs hp]
    cases hr : rest.head? with
    | none => simp
    | some c =>
      have hc := h c hr
      rcases hc.2 with h2 | h2
      · simp [hc.1, h2]
      · simp [hc.1, h2]

theorem numberLoop_absText (n : NumLit) (s pre rest : Str) (fuel p : Nat)
    (hs : s = pre ++ (n.absText ++ rest)) (hp : p = pre.length)
    (hn : n.lexical = true) (hrest : stopHead rest) (hf : n.absText.length ≤ fuel) :
    numberLoop s fuel p false = p + n.absText.length := by
  obtain ⟨neg, ip, fp⟩ := n
  simp only [NumLit.lexical, Bool.and_eq_true] at hn
  cases fp with
  | none =>
    simp only [NumLit.absText, List.append_nil] at hf hs ⊢
    rw [numberLoop_digits ip s pre rest fuel p false hs hp hn.1 hf]
    exact numberLoop_stop s (pre ++ ip) rest _ _ false (by simp [hs]) (by simp [hp])
      (fun c hc => ⟨(hrest c hc).1, Or.inr (hrest c hc).2⟩)
  | some f =>
    simp only [NumLit.absText, List.length_append, List.length_cons] at hf hs ⊢
    rw [numberLoop_digits ip s pre ('.' :: f ++ rest) fuel p false (by simp [hs]) hp hn.1
      (by omega)]
    obtain ⟨g, hg⟩ : ∃ g, fuel - ip.length = g + 1 := ⟨fuel - ip.length - 1, by omega⟩
    rw [hg]
    have e3 : isdigit '.' = false := by decide
    simp only [numberLoop,
      getElem?_at s (pre ++ ip) ('.' :: (f ++ rest)) (p + ip.length) (by simp [hs]) (by simp [hp]),
      List.head?_cons, e3, Bool.false_or, Bool.not_false, Bool.true_and, decide_True, if_true]
    rw [numberLoop_digits f s (pre ++ ip ++ ['.']) rest g (p + ip.length + 1) true
      (by simp [hs]) (by simp [hp, Nat.add_assoc]) hn.2 (by omega)]
    rw [numberLoop_stop s (pre ++ ip ++ ['.'] ++ f) rest _ _ true (by simp [hs])
      (by simp [hp]; omega) (fun c hc => ⟨(hrest c hc).1, Or.inl rfl⟩)]
    omega

theorem absText_head (n : NumLit) (hn : n.lexical = true) :
    ∃ c t, n.absText = c :: t ∧ (isdigit c = true ∨ c = '.') := by
  obtain ⟨neg, ip, fp⟩ := n
  simp only [NumLit.lexical, Bool.and_eq_true] at hn
  cases ip with
  | nil =>
    cases fp with
    | none => simp at hn
    | some f => exact ⟨'.', f, by simp [NumLit.absText], Or.inr rfl⟩
  | cons d ds =>
    refine ⟨d, (NumLit.mk neg ds fp).absText, by simp [NumLit.absText], ?_⟩
    simp only [List.all_cons, Bool.and_eq_true] at hn
    exact Or.inl hn.1.1

theorem substr_at (s pre mid rest : Str) (p : Nat) (hs : s = pre ++ (mid ++ rest))
    (hp : p = pre.length) : substr s p mid.length = mid := by
  subst hs hp
  simp [substr]

theorem parse_number_lit (n : NumLit) (s pre ws rest : Str) (p : Nat)
    (hs : s = pre ++ (ws ++ (n.text ++ rest))) (hp : p = pre.length)
    (hws : ws.all isspace = true) (hn : n.lexical = true) (hrest : stopHead rest) :
    parse_number s p = withPos (evalNum n) (p + ws.length + n.text.length) := by
  obtain ⟨c, t, hct, hc⟩ := absText_head n hn
  have hcsp : isspace c = false := by
    rcases hc with h | h
    · exact isdigit_not_space c h
    · subst h; decide
  have hlen : n.absText.length ≤ s.length := by
    subst hs; simp only [NumLit.text, List.length_append]; omega
  unfold parse_number
  cases hneg : n.neg with
  | true =>
    have htext : n.text = '-' :: n.absText := by simp [NumLit.text, hneg]
    have hsk : skip_spaces s p = p + ws.length :=
      skip_spaces_spaces s pre ws (n.text ++ rest) p hs hp hws
        (by intro d hd; simp [htext] at hd; subst hd; decide)
    have h1 : s[p + ws.length]? = some '-' := by
      rw [getElem?_at s (pre ++ ws) (n.text ++ rest) _ (by simp [hs]) (by simp [hp, Nat.add_assoc])]
      simp [htext]
    have h2 : s[p + ws.length + 1]? = some c := by
      rw [getElem?_at s (pre ++ ws ++ ['-']) (n.absText ++ rest) _ (by simp [hs, htext])
        (by simp [hp, Nat.add_assoc])]
      simp [hct]
    have h3 : numberLoop s s.length (p + ws.length + 1) false
        = p + ws.length + 1 + n.absText.length :=
      numberLoop_absText n s (pre ++ ws ++ ['-']) rest _ _ (by simp [hs, htext]) (by simp [hp, Nat.add_assoc])
        hn hrest hlen
    have h4 : substr s (p + ws.length + 1) n.absText.length = n.absText :=
      substr_at s (pre ++ ws ++ ['-']) n.absText rest _ (by simp [hs, htext]) (by simp [hp, Nat.add_assoc])
    have hcc : ¬ (isdigit c = false ∧ ¬ c = '.') := by
      rcases hc with h | h
      · simp [h]
      · simp [h]
    simp only [hsk, h1, decide_True, if_true, h2]
    simp only [Bool.and_eq_true, Bool.not_eq_true', decide_eq_true_eq, ne_eq, hcc, if_false, h3,
      Nat.add_sub_cancel_left, h4]
    simp only [evalNum, NumLit.value, hneg, htext, List.length_cons]
    cases stod n.absText with
    | none => simp [withPos]
    | some v => simp [withPos]; omega
  | false =>
    have htext : n.text = n.absText := by simp [NumLit.text, hneg]
    have hcm : c ≠ '-' := by
      rcases hc with h | h
      · exact isdigit_ne_minus c h
      · subst h; decide
    have hsk : skip_spaces s p = p + ws.length :=
      skip_spaces_spaces s pre ws (n.text ++ rest) p hs hp hws
        (by intro d hd; simp [htext, hct] at hd; subst hd; exact hcsp)
    have h1 : s[p + ws.length]? = some c := by
      rw [getElem?_at s (pre ++ ws) (n.text ++ rest) _ (by simp [hs]) (by simp [hp, Nat.add_assoc])]
      simp [htext, hct]
    have h3 : numberLoop s s.length (p + ws.length) false
        = p + ws.length + n.absText.length :=
      numberLoop_absText n s (pre ++ ws) rest _ _ (by simp [hs, htext]) (by simp [hp, Nat.add_assoc])
        hn hrest hlen
    have h4 : substr s (p + ws.length) n.absText.length = n.absText :=
      substr_at s (pre ++ ws) n.absText rest _ (by simp [hs, htext]) (by simp [hp, Nat.add_assoc])
    have hcc : ¬ (isdigit c = false ∧ ¬ c = '.') := by
      rcases hc with h | h
      · simp [h]
      · simp [h]
    simp only [hsk, h1, hcm, decide_False, Bool.false_eq_true, if_false]
    simp only [h1, Bool.and_eq_true, Bool.not_eq_true', decide_eq_true_eq, ne_eq, hcc, if_false, h3,
      Nat.add_sub_cancel_left, h4]
    simp only [evalNum, NumLit.value, hneg, htext]
    cases stod n.absText with
    | none => simp [withPos]
    | some v => simp [withPos]

theorem text_noSpaceHead (n : NumLit) (rest : Str) (hn : n.lexical = true) :
    noSpaceHead (n.text ++ rest) := by
  obtain ⟨c, t, hct, hc⟩ := absText_head n hn
  intro d hd
  cases hneg : n.neg with
  | true => simp [NumLit.text, hneg] at hd; subst hd; decide
  | false =>
    simp [NumLit.text, hneg, hct] at hd; subst hd
    rcases hc with h | h
    · exact isdigit_not_space _ h
    · subst h; decide

theorem parse_factor_lit (n : NumLit) (s pre ws rest : Str) (p : Nat)
    (hs : s = pre ++ (ws ++ (n.text ++ rest))) (hp : p = pre.length)
    (hws : ws.all isspace = true) (hn : n.lexical = true) (hrest : stopHead rest) :
    parse_factor s p = withPos (evalNum n) (p + ws.length + n.text.length) := by
  unfold parse_factor
  rw [skip_spaces_spaces s pre ws (n.text ++ rest) p hs hp hws (text_noSpaceHead n rest hn)]
  rw [parse_number_lit n s (pre ++ ws) [] rest (p + ws.length) (by simp [hs]) (by simp [hp, Nat.add_assoc])
    (by simp) hn hrest]
  simp

theorem opHead_of_addHead (tail : Str) (h : addHead tail) : opHead tail := by
  intro c hc
  rcases h c hc with h1 | h1
  · exact Or.inl h1
  · exact Or.inr (Or.inl h1)

theorem opChar_cases (c : Char) (h : c = '+' ∨ c = '-' ∨ c = '*' ∨ c = '/' ∨ c = '%') :
    isspace c = false ∧ isdigit c = false ∧ c ≠ '.' := by
  rcases h with h | h | h | h | h <;> subst h <;> decide

theorem noSpaceHead_of_opHead (tail : Str) (h : opHead tail) : noSpaceHead tail :=
  fun c hc => (opChar_cases c (h c hc)).1

theorem isspace_not_digit (c : Char) (h : isspace c = true) : isdigit c = false ∧ c ≠ '.' := by
  constructor
  · cases hd : isdigit c with
    | false => rfl
    | true => rw [isdigit_not_space c hd] at h; cases h
  · intro hc; subst hc; revert h; decide

theorem stopHead_ws (ws tail : Str) (hws : ws.all isspace = true) (h : opHead tail) :
    stopHead (ws ++ tail) := by
  intro c hc
  cases ws with
  | nil =>
    have := opChar_cases c (h c (by simpa using hc))
    exact ⟨this.2.1, this.2.2⟩
  | cons w ws =>
    simp only [List.cons_append, List.head?_cons, Option.some.injEq] at hc
    subst hc
    simp only [List.all_cons, Bool.and_eq_true] at hws
    exact isspace_not_digit _ hws.1

theorem opHead_renderItems (is : List Item) (tail : Str) (h : opHead tail) :
    opHead (renderItems is ++ tail) := by
  cases is with
  | nil => simpa [renderItems] using h
  | cons i is =>
    intro c hc
    simp only [renderItems, Item.render, List.cons_append, List.head?_cons,
      Option.some.injEq] at hc
    subst hc
    cases i.op <;> simp [Op.char]

theorem termLoop_run (run : List Item) : ∀ (s pre tail : Str) (fuel p : Nat) (lhs : Dbl),
    s = pre ++ (renderItems run ++ tail) → p = pre.length →
    itemsOk run = true → run.all (fun i => i.op.isMul) = true → addHead tail →
    run.length ≤ fuel →
    termLoop s fuel lhs p =
      withPos (evalRun lhs (run.map Item.token)) (p + (renderItems run).length) := by
  induction run with
  | nil =>
    intro s pre tail fuel p lhs hs hp _ _ htail _
    cases fuel with
    | zero => simp [termLoop, evalRun, withPos, renderItems]
    | succ f =>
      simp only [termLoop, getElem?_at s pre tail p (by simpa [renderItems] using hs) hp]
      cases hr : tail.head? with
      | none => simp [evalRun, withPos, renderItems]
      | some c =>
        have hc : c ≠ '*' ∧ c ≠ '/' ∧ c ≠ '%' := by
          rcases htail c hr with h | h <;> subst h <;> decide
        simp [hc, evalRun, withPos, renderItems]
  | cons i run ih =>
    intro s pre tail fuel p lhs hs hp hok hmul htail hf
    cases fuel with
    | zero => simp at hf
    | succ f =>
      simp only [itemsOk, List.all_cons, Bool.and_eq_true] at hok
      simp only [List.all_cons, Bool.and_eq_true] at hmul
      obtain ⟨⟨hsp, hnum⟩, hok'⟩ := hok
      simp only [Item.spaced, Bool.and_eq_true] at hsp
      obtain ⟨hw1, hw2⟩ := hsp
      have hcond : ¬ (i.op.char ≠ '*' ∧ i.op.char ≠ '/' ∧ i.op.char ≠ '%') := by
        have h := hmul.1
        revert h
        cases i.op <;> simp [Op.isMul, Op.char]
      have hs1 : s = pre ++ (i.op.char :: (i.ws1 ++ (i.num.text ++
          (i.ws2 ++ (renderItems run ++ tail))))) := by
        simp [hs, renderItems, Item.render]
      have hop := opHead_renderItems run tail (opHead_of_addHead tail htail)
      have hpf : parse_factor s (p + 1) =
          withPos (evalNum i.num) (p + 1 + i.ws1.length + i.num.text.length) :=
        parse_factor_lit i.num s (pre ++ [i.op.char]) i.ws1 _ (p + 1) (by simp [hs1])
          (by simp [hp]) hw1 hnum (stopHead_ws i.ws2 _ hw2 hop)
      have hsk : skip_spaces s (p + 1 + i.ws1.length + i.num.text.length) =
          p + 1 + i.ws1.length + i.num.text.length + i.ws2.length :=
        skip_spaces_spaces s (pre ++ [i.op.char] ++ i.ws1 ++ i.num.text) i.ws2 _ _
          (by simp [hs1]) (by simp [hp]; omega) hw2 (noSpaceHead_of_opHead _ hop)
      have hih := fun lhs' => ih s (pre ++ i.render) tail f
          (p + 1 + i.ws1.length + i.num.text.length + i.ws2.length) lhs'
          (by simp [hs, renderItems]) (by simp [hp, Item.render]; omega) (show itemsOk run = true from hok')
          hmul.2 htail (by simpa using hf)
      have hlen : p + 1 + i.ws1.length + i.num.text.length + i.ws2.length +
          (renderItems run).length = p + (renderItems (i :: run)).length := by
        simp [renderItems, Item.render]; omega
      simp only [termLoop, getElem?_at s pre _ p hs1 hp, List.head?_cons, hcond, if_false, hpf,
        List.map_cons, Item.token, evalRun]
      cases hev : evalNum i.num with
      | error e => simp [withPos]
      | ok r =>
        simp only [withPos, hsk, hih, hlen]
        cases hopc : i.op with
        | add => simp [hopc, Op.isMul] at hmul
        | sub => simp [hopc, Op.isMul] at hmul
        | mul => simp [Op.char, applyOp]
        | div =>
          simp only [Op.char, applyOp]
          cases hz : r.abs.lt Dbl.epsilon <;> simp
        | mod =>
          simp only [Op.char, applyOp]
          cases hz : r.abs.lt Dbl.epsilon <;> simp

theorem length_le_renderItems (is : List Item) : is.length ≤ (renderItems is).length := by
  induction is with
  | nil => simp [renderItems]
  | cons i is ih => simp [renderItems, Item.render]; omega

theorem length_le_renderGroups (gs : List (Item × List Item)) :
    gs.length ≤ (renderGroups gs).length := by
  induction gs with
  | nil => simp [renderGroups]
  | cons g gs ih => simp [renderGroups, renderItems, Item.render]; omega

theorem parse_term_lit (n : NumLit) (run : List Item) (s pre ws0 ws1 tail : Str) (p : Nat)
    (hs : s = pre ++ (ws0 ++ (n.text ++ (ws1 ++ (renderItems run ++ tail)))))
    (hp : p = pre.length) (hw0 : ws0.all isspace = true) (hw1 : ws1.all isspace = true)
    (hn : n.lexical = true) (hok : itemsOk run = true)
    (hmul : run.all (fun i => i.op.isMul) = true) (htail : addHead tail) :
    parse_term s p = withPos (evalTerm n (run.map Item.token))
      (p + ws0.length + n.text.length + ws1.length + (renderItems run).length) := by
  have hop := opHead_renderItems run tail (opHead_of_addHead tail htail)
  have hpf : parse_factor s p = withPos (evalNum n) (p + ws0.length + n.text.length) :=
    parse_factor_lit n s pre ws0 _ p hs hp hw0 hn (stopHead_ws ws1 _ hw1 hop)
  have hsk : skip_spaces s (p + ws0.length + n.text.length) =
      p + ws0.length + n.text.length + ws1.length :=
    skip_spaces_spaces s (pre ++ ws0 ++ n.text) ws1 _ _ (by simp [hs]) (by simp [hp]; omega) hw1
      (noSpaceHead_of_opHead _ hop)
  have hlen : run.length ≤ s.length := by
    have := length_le_renderItems run
    subst hs; simp only [List.length_append]; omega
  have htl := fun lhs => termLoop_run run s (pre ++ ws0 ++ n.text ++ ws1) tail s.length
    (p + ws0.length + n.text.length + ws1.length) lhs (by simp [hs]) (by simp [hp]; omega)
    hok hmul htail hlen
  unfold parse_term
  rw [hpf]
  simp only [evalTerm]
  cases evalNum n with
  | error e => simp [withPos]
  | ok v => simp only [withPos, hsk, htl]

theorem addHead_renderGroups (gs : List (Item × List Item))
    (hg : gs.all groupOk = true) : addHead (renderGroups gs) := by
  cases gs with
  | nil => intro c hc; simp [renderGroups] at hc
  | cons g gs =>
    intro c hc
    simp only [renderGroups, renderItems, Item.render, List.cons_append, List.head?_cons,
      Option.some.injEq] at hc
    subst hc
    simp only [List.all_cons, Bool.and_eq_true, groupOk, Bool.not_eq_true'] at hg
    have h := hg.1.1.1
    revert h
    cases g.1.op <;> simp [Op.isMul, Op.char]

theorem exprLoop_groups (gs : List (Item × List Item)) :
    ∀ (s pre : Str) (fuel p : Nat) (lhs : Dbl),
    s = pre ++ renderGroups gs → p = pre.length → gs.all groupOk = true → gs.length ≤ fuel →
    exprLoop s fuel lhs p =
      withPos (evalTerms lhs (gs.map groupToken)) (p + (renderGroups gs).length) := by
  induction gs with
  | nil =>
    intro s pre fuel p lhs hs hp _ _
    cases fuel with
    | zero => simp [exprLoop, evalTerms, withPos, renderGroups]
    | succ f =>
      simp [exprLoop, getElem?_at s pre [] p (by simpa [renderGroups] using hs) hp, evalTerms,
        withPos, renderGroups]
  | cons g gs ih =>
    intro s pre fuel p lhs hs hp hok hf
    cases fuel with
    | zero => simp at hf
    | succ f =>
      simp only [List.all_cons, Bool.and_eq_true] at hok
      obtain ⟨hg, hok'⟩ := hok
      have hg' := hg
      simp only [groupOk, Bool.and_eq_true, Bool.not_eq_true', itemsOk, List.all_cons,
        Item.spaced] at hg'
      obtain ⟨⟨hadd, hmul⟩, ⟨⟨hw1, hw2⟩, hnum⟩, hrun⟩ := hg'
      have hcond : ¬ (g.1.op.char ≠ '+' ∧ g.1.op.char ≠ '-') := by
        revert hadd
        cases g.1.op <;> simp [Op.isMul, Op.char]
      have hs1 : s = pre ++ (g.1.op.char :: (g.1.ws1 ++ (g.1.num.text ++
          (g.1.ws2 ++ (renderItems g.2 ++ renderGroups gs))))) := by
        simp [hs, renderGroups, renderItems, Item.render]
      have hpt : parse_term s (p + 1) = withPos (evalTerm g.1.num (g.2.map Item.token))
          (p + 1 + g.1.ws1.length + g.1.num.text.length + g.1.ws2.length +
            (renderItems g.2).length) :=
        parse_term_lit g.1.num g.2 s (pre ++ [g.1.op.char]) g.1.ws1 g.1.ws2 (renderGroups gs)
          (p + 1) (by simp [hs1]) (by simp [hp]) hw1 hw2 hnum hrun hmul
          (addHead_renderGroups gs hok')
      have hsk : skip_spaces s (p + 1 + g.1.ws1.length + g.1.num.text.length + g.1.ws2.length +
            (renderItems g.2).length) = p + 1 + g.1.ws1.length + g.1.num.text.length +
            g.1.ws2.length + (renderItems g.2).length :=
        skip_spaces_none s (pre ++ renderItems (g.1 :: g.2)) (renderGroups gs) _
          (by simp [hs, renderGroups])
          (by simp [hp, renderItems, Item.render]; omega)
          (noSpaceHead_of_opHead _ (opHead_of_addHead _ (addHead_renderGroups gs hok')))
      have hih := fun lhs' => ih s (pre ++ renderItems (g.1 :: g.2)) f
          (p + 1 + g.1.ws1.length + g.1.num.text.length + g.1.ws2.length +
            (renderItems g.2).length) lhs'
          (by simp [hs, renderGroups]) (by simp [hp, renderItems, Item.render]; omega) hok'
          (by simpa using hf)
      have hlen : p + 1 + g.1.ws1.length + g.1.num.text.length + g.1.ws2.length +
          (renderItems g.2).length + (renderGroups gs).length =
          p + (renderGroups (g :: gs)).length := by
        simp [renderGroups, renderItems, Item.render]; omega
      simp only [exprLoop, getElem?_at s pre _ p hs1 hp, List.head?_cons, hcond, if_false, hpt,
        List.map_cons, groupToken, evalTerms]
      cases hev : evalTerm g.1.num (g.2.map Item.token) with
      | error e => simp [withPos]
      | ok r =>
        simp only [withPos, hsk, hih, hlen]
        cases hopc : g.1.op with
        | add => simp [Op.char, applyOp]
        | sub => simp [Op.char, applyOp]
        | mul => simp [hopc, Op.isMul] at hadd
        | div => simp [hopc, Op.isMul] at hadd
        | mod => simp [hopc, Op.isMul] at hadd

theorem groupTerms_map (is : List Item) :
    groupTerms (is.map Item.token) =
      ((groupItems is).1.map Item.token, (groupItems is).2.map groupToken) := by
  induction is with
  | nil => simp [groupTerms, groupItems]
  | cons i is ih =>
    simp only [List.map_cons, groupItems]
    cases h : i.op.isMul with
    | true => simp [groupTerms, Item.token, h, ih]
    | false => simp [groupTerms, Item.token, h, ih, groupToken]

theorem renderItems_group (is : List Item) :
    renderItems is = renderItems (groupItems is).1 ++ renderGroups (groupItems is).2 := by
  induction is with
  | nil => simp [groupItems, renderItems, renderGroups]
  | cons i is ih =>
    simp only [groupItems]
    cases h : i.op.isMul with
    | true => simp [renderItems, ih]
    | false => simp [renderItems, renderGroups, ih]

theorem groupItems_ok (is : List Item) (hok : itemsOk is = true) :
    itemsOk (groupItems is).1 = true ∧
      (groupItems is).1.all (fun i => i.op.isMul) = true ∧
      (groupItems is).2.all groupOk = true := by
  induction is with
  | nil => simp [groupItems, itemsOk]
  | cons i is ih =>
    simp only [itemsOk, List.all_cons, Bool.and_eq_true] at hok
    obtain ⟨h1, h2, h3⟩ := ih hok.2
    simp only [groupItems]
    cases h : i.op.isMul with
    | true =>
      simp only [if_true, List.all_cons, Bool.and_eq_true, itemsOk]
      exact ⟨⟨hok.1, h1⟩, ⟨h, h2⟩, h3⟩
    | false =>
      simp only [Bool.false_eq_true, if_false, List.all_cons, Bool.and_eq_true, itemsOk,
        List.all_nil, groupOk, h, Bool.not_false, true_and]
      exact ⟨⟨h2, hok.1, h1⟩, h3⟩

theorem validate_characters_all (s : Str) (h : s.all allowedChar = true) :
    validate_characters s = Except.ok () := by
  induction s with
  | nil => rfl
  | cons c cs ih =>
    simp only [List.all_cons, Bool.and_eq_true] at h
    simp [validate_characters, h.1, ih h.2]

theorem allowed_of_space (ws : Str) (h : ws.all isspace = true) : ws.all allowedChar = true := by
  simp only [List.all_eq_true] at h ⊢
  intro c hc
  simp [allowedChar, h c hc]

theorem allowed_of_digit (ds : Str) (h : ds.all isdigit = true) : ds.all allowedChar = true := by
  simp only [List.all_eq_true] at h ⊢
  intro c hc
  simp [allowedChar, h c hc]

theorem allowed_text (n : NumLit) (hn : n.lexical = true) : n.text.all allowedChar = true := by
  obtain ⟨neg, ip, fp⟩ := n
  simp only [NumLit.lexical, Bool.and_eq_true] at hn
  have hip := allowed_of_digit ip hn.1
  have hm : allowedChar '-' = true := by decide
  have hdot : allowedChar '.' = true := by decide
  cases fp with
  | none => cases neg <;> simp [NumLit.text, NumLit.absText, hip, hm]
  | some f =>
    have hf := allowed_of_digit f hn.2
    cases neg <;> simp [NumLit.text, NumLit.absText, hip, hm, hdot, hf]

theorem allowed_renderItems (is : List Item) (hok : itemsOk is = true) :
    (renderItems is).all allowedChar = true := by
  induction is with
  | nil => simp [renderItems]
  | cons i is ih =>
    simp only [itemsOk, List.all_cons, Bool.and_eq_true, Item.spaced] at hok
    obtain ⟨⟨⟨hw1, hw2⟩, hnum⟩, hok'⟩ := hok
    have hopc : allowedChar i.op.char = true := by cases i.op <;> decide
    simp [renderItems, Item.render, hopc, allowed_of_space _ hw1, allowed_of_space _ hw2,
      allowed_text _ hnum, ih hok']

theorem text_ne_nil (n : NumLit) (hn : n.lexical = true) : n.text ≠ [] := by
  obtain ⟨c, t, hct, _⟩ := absText_head n hn
  cases hneg : n.neg <;> simp [NumLit.text, hneg, hct]

/-- The evaluator on a token sequence with any whitespace: `calculate` is the
standard operator-precedence evaluation followed by the overflow check. -/
theorem calculate_render (e : Expr) (he : e.lexical = true) :
    calculate e.render = overflowCheck (stdEval e.tokens) := by
  simp only [Expr.lexical, Expr.spaced, Bool.and_eq_true] at he
  obtain ⟨⟨⟨⟨hw0, hw1⟩, hsp⟩, hfirst⟩, hnums⟩ := he
  have hok : itemsOk e.items = true := by
    simp only [itemsOk, List.all_eq_true, Bool.and_eq_true] at hsp hnums ⊢
    exact fun i hi => ⟨hsp i hi, hnums i hi⟩
  obtain ⟨g1, g2, g3⟩ := groupItems_ok e.items hok
  have hne : e.render ≠ [] := by
    have := text_ne_nil e.first hfirst
    cases h1 : e.first.text with
    | nil => exact absurd h1 this
    | cons c t => cases h0 : e.ws0 <;> simp [Expr.render, h1, h0]
  have hval : validate_characters e.render = Except.ok () := by
    apply validate_characters_all
    simp [Expr.render, allowed_of_space _ hw0, allowed_of_space _ hw1, allowed_text _ hfirst,
      allowed_renderItems _ hok]
  have hs : e.render = [] ++ (e.ws0 ++ (e.first.text ++ (e.ws1 ++
      (renderItems (groupItems e.items).1 ++ renderGroups (groupItems e.items).2)))) := by
    simp only [Expr.render, List.nil_append]
    rw [← renderItems_group]
  have hpt := parse_term_lit e.first (groupItems e.items).1 e.render [] e.ws0 e.ws1
    (renderGroups (groupItems e.items).2) 0 hs rfl hw0 hw1 hfirst g1 g2
    (addHead_renderGroups _ g3)
  have hadd := addHead_renderGroups _ g3
  have hsk : skip_spaces e.render (0 + e.ws0.length + e.first.text.length + e.ws1.length +
      (renderItems (groupItems e.items).1).length) = 0 + e.ws0.length + e.first.text.length +
      e.ws1.length + (renderItems (groupItems e.items).1).length :=
    skip_spaces_none e.render (e.ws0 ++ e.first.text ++ e.ws1 ++
      renderItems (groupItems e.items).1) (renderGroups (groupItems e.items).2) _
      (by rw [hs]; simp) (by simp; omega) (noSpaceHead_of_opHead _ (opHead_of_addHead _ hadd))
  have hlen : (groupItems e.items).2.length ≤ e.render.length := by
    have := length_le_renderGroups (groupItems e.items).2
    rw [hs]; simp only [List.length_append]; omega
  have hel := fun lhs => exprLoop_groups (groupItems e.items).2 e.render
    (e.ws0 ++ e.first.text ++ e.ws1 ++ renderItems (groupItems e.items).1) e.render.length
    (0 + e.ws0.length + e.first.text.length + e.ws1.length +
      (renderItems (groupItems e.items).1).length) lhs (by rw [hs]; simp) (by simp; omega) g3 hlen
  have htot : 0 + e.ws0.length + e.first.text.length + e.ws1.length +
      (renderItems (groupItems e.items).1).length + (renderGroups (groupItems e.items).2).length
      = e.render.length := by
    rw [hs]; simp; omega
  have hend : skip_spaces e.render e.render.length = e.render.length :=
    skip_spaces_none e.render e.render [] _ (by simp) rfl (by intro c hc; simp at hc)
  simp only [calculate, hne, if_false, hval, parse_expression, hpt, stdEval, Expr.tokens,
    groupTerms_map]
  cases evalTerm e.first ((groupItems e.items).1.map Item.token) with
  | error err => simp [withPos, overflowCheck]
  | ok v =>
    simp only [withPos, hsk, hel, htot]
    cases evalTerms v ((groupItems e.items).2.map groupToken) with
    | error err => simp [overflowCheck]
    | ok r =>
      simp only [hend, ne_eq, not_true_eq_false, if_false, overflowCheck]

/-! ## Claims C1 and C2: the evaluator on well-formed and on invalid input -/

theorem numLit_lexical_of_wf (n : NumLit) (h : n.wf = true) : n.lexical = true := by
  obtain ⟨neg, ip, fp⟩ := n
  cases fp with
  | none => simp only [NumLit.wf, NumLit.lexical, Bool.and_eq_true] at h ⊢; exact ⟨h.1.2, h.1.1⟩
  | some f =>
    simp only [NumLit.wf, NumLit.lexical, Bool.and_eq_true] at h ⊢; exact ⟨h.1.2, h.2.2⟩

theorem expr_lexical_of_wf (e : Expr) (h : e.wf = true) : e.lexical = true := by
  simp only [Expr.wf, Expr.lexical, Bool.and_eq_true, List.all_eq_true] at h ⊢
  exact ⟨⟨h.1.1, numLit_lexical_of_wf _ h.1.2⟩, fun i hi => numLit_lexical_of_wf _ (h.2 i hi)⟩

/-- C1, as stated, fails.  (1) `10^308*10` is well formed and has no zero divisor;
its standard evaluation yields the double `+inf`, and `calculate` returns no value
on it but throws the overflow error.  (2) The single number `10^309` is well
formed and has no zero divisor, and `calculate` throws "Invalid number format" on
it: `std::stod` rejects a number above the largest double. -/
theorem calculate_overflow_counterexample :
    (overflowExpr.wf = true ∧
      overflowExpr.render = '1' :: (List.replicate 308 '0' ++ "*10".toList) ∧
      firstZeroDivisor overflowExpr.tokens.2 = none ∧
      stdEval overflowExpr.tokens = Except.ok (Dbl.inf false) ∧
      calculate overflowExpr.render = Except.error CalcError.overflow) ∧
    (hugeNumberExpr.wf = true ∧
      hugeNumberExpr.render = '1' :: List.replicate 309 '0' ∧
      firstZeroDivisor hugeNumberExpr.tokens.2 = none ∧
      calculate hugeNumberExpr.render = Except.error CalcError.invalidNumberFormat) := by
  decide

/-- C1, amended: on every well-formed expression whose standard operator-precedence
evaluation yields a value (every number is in the range of a double and no zero
divisor is met), `calculate` returns that value when it is not infinite, and
throws the overflow error when it is; and `calculate("2+3*4 ") = 14`,
`calculate("10 % 3") = 1`, `calculate("-5+2") = -3`; also `8-2-3 = 3` and
`8/4/2 = 1` (left to right), `7-2*3 = 1` and `2*3+4*5 = 26` (precedence). -/
theorem calculate_standard_eval :
    (∀ (e : Expr) (v : Dbl), e.wf = true → stdEval e.tokens = Except.ok v →
      (v.isinf = false → calculate e.render = Except.ok v) ∧
      (v.isinf = true → calculate e.render = Except.error CalcError.overflow)) ∧
    calculate "2+3*4 ".toList = Except.ok (Dbl.ofNat 14) ∧
    calculate "10 % 3".toList = Except.ok (Dbl.ofNat 1) ∧
    calculate "-5+2".toList = Except.ok (Dbl.ofNat 3).neg ∧
    calculate "8-2-3".toList = Except.ok (Dbl.ofNat 3) ∧
    calculate "8/4/2".toList = Except.ok (Dbl.ofNat 1) ∧
    calculate "7-2*3".toList = Except.ok (Dbl.ofNat 1) ∧
    calculate "2*3+4*5".toList = Except.ok (Dbl.ofNat 26) := by
  refine ⟨?_, by decide, by decide, by decide, by decide, by decide, by decide, by decide⟩
  intro e v hwf hv
  rw [calculate_render e (expr_lexical_of_wf e hwf), hv]
  constructor
  · intro hfin; simp [overflowCheck, hfin]
  · intro hinf; simp [overflowCheck, hinf]

/-- Witness of C1: the expression `2+3*4 ` of the specification, as a token sequence. -/
theorem calculate_standard_eval_witness :
    exampleExpr.render = "2+3*4 ".toList ∧
    calculate exampleExpr.render = Except.ok (Dbl.ofNat 14) :=
  ⟨by decide, (calculate_standard_eval.1 exampleExpr (Dbl.ofNat 14) (by decide) (by decide)).1
    (by decide)⟩

theorem validate_characters_first (pre : Str) (c : Char) (post : Str)
    (hpre : pre.all allowedChar = true) (hc : allowedChar c = false) :
    validate_characters (pre ++ c :: post) = Except.error (CalcError.invalidCharacter c) := by
  induction pre with
  | nil => simp [validate_characters, hc]
  | cons a pre ih =>
    simp only [List.all_cons, Bool.and_eq_true] at hpre
    simp [validate_characters, hpre.1, ih hpre.2]

theorem first_invalid_character (s : Str) (h : ∃ c ∈ s, allowedChar c = false) :
    ∃ (pre : Str) (c : Char) (post : Str), s = pre ++ c :: post ∧
      pre.all allowedChar = true ∧ allowedChar c = false := by
  induction s with
  | nil => obtain ⟨c, hc, _⟩ := h; simp at hc
  | cons a s ih =>
    by_cases ha : allowedChar a = true
    · obtain ⟨c, hc, hcf⟩ := h
      have hmem : c ∈ s := by
        rcases List.mem_cons.mp hc with h1 | h1
        · subst h1; rw [ha] at hcf; cases hcf
        · exact h1
      obtain ⟨pre, c', post, h1, h2, h3⟩ := ih ⟨c, hmem, hcf⟩
      exact ⟨a :: pre, c', post, by rw [h1]; rfl, by simp [ha, h2], h3⟩
    · exact ⟨[], a, s, rfl, rfl, by simpa using ha⟩

/-- C2: every input that contains a character outside digits, `.`, `+ - * / %`
and whitespace makes `calculate` throw the invalid-character error naming the
first such character `c` (all characters before `c` are allowed), whatever the
rest of the input is: the check precedes parsing and arithmetic.  So `3#4`, `3/0#`
and `3+#` fail with the invalid character `#`. -/
theorem calculate_invalid_character :
    (∀ s : Str, (∃ c ∈ s, allowedChar c = false) →
      ∃ (pre : Str) (c : Char) (post : Str), s = pre ++ c :: post ∧
        pre.all allowedChar = true ∧ allowedChar c = false ∧
        calculate s = Except.error (CalcError.invalidCharacter c) ∧
        (CalcError.invalidCharacter c).kind = ErrorKind.InvalidCharacter) ∧
    (∀ (pre : Str) (c : Char) (post : Str), pre.all allowedChar = true → allowedChar c = false →
      calculate (pre ++ c :: post) = Except.error (CalcError.invalidCharacter c)) ∧
    calculate "3#4".toList = Except.error (CalcError.invalidCharacter '#') ∧
    calculate "3/0#".toList = Except.error (CalcError.invalidCharacter '#') ∧
    calculate "3+#".toList = Except.error (CalcError.invalidCharacter '#') := by
  have key : ∀ (pre : Str) (c : Char) (post : Str), pre.all allowedChar = true →
      allowedChar c = false →
      calculate (pre ++ c :: post) = Except.error (CalcError.invalidCharacter c) := by
    intro pre c post hpre hc
    have hne : pre ++ c :: post ≠ [] := by simp
    simp [calculate, hne, validate_characters_first pre c post hpre hc]
  refine ⟨?_, key, by decide, by decide, by decide⟩
  intro s hs
  obtain ⟨pre, c, post, h1, h2, h3⟩ := first_invalid_character s hs
  exact ⟨pre, c, post, h1, h2, h3, by rw [h1]; exact key pre c post h2 h3, rfl⟩

/-- Witness of C2: the input `3/0#`, whose first invalid character is `#`. -/
theorem calculate_invalid_character_witness :
    calculate ("3/0".toList ++ '#' :: []) = Except.error (CalcError.invalidCharacter '#') :=
  calculate_invalid_character.2.1 "3/0".toList '#' [] (by decide) (by decide)

/-! ## Claims C4 and C10: zero divisors, and whitespace -/

theorem firstFailure_append (a b : List (Op × NumLit)) :
    firstFailure (a ++ b) =
      match firstFailure a with
      | some e => some e
      | none => firstFailure b := by
  induction a with
  | nil => simp [firstFailure]
  | cons i a ih =>
    simp only [List.cons_append, firstFailure]
    cases itemFailure i <;> simp [ih]

theorem groupTerms_flatten (toks : List (Op × NumLit)) :
    toks = (groupTerms toks).1 ++ flattenTerms (groupTerms toks).2 := by
  induction toks with
  | nil => simp [groupTerms, flattenTerms]
  | cons i toks ih =>
    obtain ⟨op, n⟩ := i
    simp only [groupTerms]
    cases h : op.isMul with
    | true => simpa using ih
    | false => simpa [flattenTerms] using ih

theorem groupTerms_heads (toks : List (Op × NumLit)) :
    (groupTerms toks).2.all (fun g => !g.1.isMul) = true := by
  induction toks with
  | nil => simp [groupTerms]
  | cons i toks ih =>
    obtain ⟨op, n⟩ := i
    simp only [groupTerms]
    cases h : op.isMul with
    | true => simpa using ih
    | false => simp only [Bool.false_eq_true, if_false, List.all_cons, h, Bool.not_false,
        Bool.true_and]; exact ih

theorem evalRun_fail (run : List (Op × NumLit)) : ∀ (lhs : Dbl),
    failOutcome run (evalRun lhs run) := by
  induction run with
  | nil => intro lhs; exact ⟨lhs, rfl⟩
  | cons i run ih =>
    intro lhs
    obtain ⟨op, n⟩ := i
    have hih := fun lhs' => ih lhs'
    simp only [failOutcome] at hih
    simp only [failOutcome, firstFailure, itemFailure, evalRun, evalNum]
    cases hv : n.value with
    | none => simp
    | some r =>
      simp only
      cases op with
      | add => cases hz : r.abs.lt Dbl.epsilon <;> simpa [applyOp] using hih _
      | sub => cases hz : r.abs.lt Dbl.epsilon <;> simpa [applyOp] using hih _
      | mul => cases hz : r.abs.lt Dbl.epsilon <;> simpa [applyOp] using hih _
      | div =>
        cases hz : r.abs.lt Dbl.epsilon with
        | true => simp [applyOp, hz]
        | false => simpa [applyOp, hz] using hih _
      | mod =>
        cases hz : r.abs.lt Dbl.epsilon with
        | true => simp [applyOp, hz]
        | false => simpa [applyOp, hz] using hih _

theorem failOutcome_ok_none (toks : List (Op × NumLit)) (v : Dbl)
    (h : failOutcome toks (Except.ok v)) : firstFailure toks = none := by
  unfold failOutcome at h
  cases hf : firstFailure toks with
  | none => rfl
  | some e => rw [hf] at h; cases h

theorem failOutcome_error_some (toks : List (Op × NumLit)) (e : CalcError)
    (h : failOutcome toks (Except.error e)) : firstFailure toks = some e := by
  unfold failOutcome at h
  cases hf : firstFailure toks with
  | none => rw [hf] at h; obtain ⟨v, hv⟩ := h; cases hv
  | some e' => rw [hf] at h; simp only [Except.error.injEq] at h; rw [h]

theorem failOutcome_append_error (a b : List (Op × NumLit)) (e : CalcError)
    (h : failOutcome a (Except.error e)) : failOutcome (a ++ b) (Except.error e) := by
  have ha := failOutcome_error_some a e h
  unfold failOutcome
  rw [firstFailure_append, ha]

theorem failOutcome_append_ok (a b : List (Op × NumLit)) (v : Dbl)
    (r : Except CalcError Dbl) (h : failOutcome a (Except.ok v)) (hb : failOutcome b r) :
    failOutcome (a ++ b) r := by
  have ha := failOutcome_ok_none a v h
  unfold failOutcome at hb ⊢
  rw [firstFailure_append, ha]
  exact hb

theorem evalTerms_fail (gs : List (Op × NumLit × List (Op × NumLit))) : ∀ (lhs : Dbl),
    gs.all (fun g => !g.1.isMul) = true →
    failOutcome (flattenTerms gs) (evalTerms lhs gs) := by
  induction gs with
  | nil => intro lhs _; exact ⟨lhs, rfl⟩
  | cons g gs ih =>
    intro lhs hh
    obtain ⟨op, n, run⟩ := g
    simp only [List.all_cons, Bool.and_eq_true, Bool.not_eq_true'] at hh
    simp only [flattenTerms, evalTerms, evalTerm, evalNum]
    cases hv : n.value with
    | none => simp [failOutcome, firstFailure, itemFailure, hv]
    | some r0 =>
      have hhead : itemFailure (op, n) = none := by
        have := hh.1
        revert this
        cases op <;> cases hz : r0.abs.lt Dbl.epsilon <;> simp [Op.isMul, itemFailure, hv, hz]
      have hcons : ∀ r, failOutcome (run ++ flattenTerms gs) r →
          failOutcome ((op, n) :: (run ++ flattenTerms gs)) r := by
        intro r hr
        simpa [failOutcome, firstFailure, hhead] using hr
      apply hcons
      simp only
      have hterm := evalRun_fail run r0
      cases ht : evalRun r0 run with
      | error e =>
        rw [ht] at hterm
        exact failOutcome_append_error _ _ e hterm
      | ok r =>
        rw [ht] at hterm
        have hap : ∃ v, applyOp op lhs r = Except.ok v := by
          have := hh.1
          revert this
          cases op <;> simp [Op.isMul, applyOp]
        obtain ⟨v, hv'⟩ := hap
        simp only [hv']
        exact failOutcome_append_ok _ _ r _ hterm (ih v hh.2)

theorem failOutcome_of_eq (toks a b : List (Op × NumLit)) (h : toks = a ++ b)
    (r : Except CalcError Dbl) (hr : failOutcome (a ++ b) r) : failOutcome toks r := by
  subst h; exact hr

/-- Standard evaluation fails exactly with the first failure met from left to
right, and yields a value when there is none. -/
theorem stdEval_fail (t : NumLit × List (Op × NumLit)) :
    match exprFailure t with
    | some e => stdEval t = Except.error e
    | none => ∃ v, stdEval t = Except.ok v := by
  simp only [exprFailure, stdEval, evalTerm, evalNum]
  cases hv : t.1.value with
  | none => simp
  | some r0 =>
    simp only
    have hterm := evalRun_fail (groupTerms t.2).1 r0
    have key : failOutcome t.2 (match evalRun r0 (groupTerms t.2).1 with
        | Except.error e => Except.error e
        | Except.ok v => evalTerms v (groupTerms t.2).2) := by
      apply failOutcome_of_eq t.2 _ _ (groupTerms_flatten t.2)
      cases ht : evalRun r0 (groupTerms t.2).1 with
      | error e =>
        rw [ht] at hterm
        exact failOutcome_append_error _ _ e hterm
      | ok r =>
        rw [ht] at hterm
        exact failOutcome_append_ok _ _ r _ hterm
          (evalTerms_fail _ r (groupTerms_heads t.2))
    exact key

theorem firstFailure_inRange (toks : List (Op × NumLit))
    (h : toks.all (fun i => i.2.value.isSome) = true) :
    firstFailure toks =
      match firstZeroDivisor toks with
      | some Op.div => some CalcError.divisionByZero
      | some Op.mod => some CalcError.moduloByZero
      | _ => none := by
  induction toks with
  | nil => rfl
  | cons i toks ih =>
    obtain ⟨op, n⟩ := i
    simp only [List.all_cons, Bool.and_eq_true] at h
    obtain ⟨r, hr⟩ := Option.isSome_iff_exists.mp h.1
    simp only [firstFailure, itemFailure, firstZeroDivisor, isZeroDivisor, hr, ih h.2]
    cases op <;> cases hz : r.abs.lt Dbl.epsilon <;> simp

theorem firstZeroDivisor_some_iff (toks : List (Op × NumLit)) :
    (∃ i ∈ toks, isZeroDivisor i = true) ↔
      firstZeroDivisor toks = some Op.div ∨ firstZeroDivisor toks = some Op.mod := by
  induction toks with
  | nil => simp [firstZeroDivisor]
  | cons i toks ih =>
    simp only [List.mem_cons, exists_eq_or_imp, firstZeroDivisor]
    cases hz : isZeroDivisor i with
    | true =>
      simp only [true_or, if_true, Option.some.injEq, true_iff]
      simp only [isZeroDivisor, Bool.and_eq_true, Bool.or_eq_true, decide_eq_true_eq] at hz
      exact hz.1
    | false => simpa using ih

theorem firstFailure_kinds (toks : List (Op × NumLit)) : ∀ x, firstFailure toks = some x →
    x = CalcError.invalidNumberFormat ∨ x = CalcError.divisionByZero ∨
      x = CalcError.moduloByZero := by
  induction toks with
  | nil => intro x hx; simp [firstFailure] at hx
  | cons i toks ih =>
    intro x hx
    simp only [firstFailure] at hx
    cases hi : itemFailure i with
    | none => rw [hi] at hx; exact ih x hx
    | some y =>
      rw [hi] at hx
      simp only [Option.some.injEq] at hx
      subst hx
      simp only [itemFailure] at hi
      split at hi
      · simp only [Option.some.injEq] at hi; exact Or.inl hi.symm
      · split at hi
        · split at hi
          · simp only [Option.some.injEq] at hi; exact Or.inr (Or.inl hi.symm)
          · simp only [Option.some.injEq] at hi; exact Or.inr (Or.inr hi.symm)
          · cases hi
        · cases hi

theorem exprFailure_kinds (t : NumLit × List (Op × NumLit)) (x : CalcError)
    (h : exprFailure t = some x) :
    x = CalcError.invalidNumberFormat ∨ x = CalcError.divisionByZero ∨
      x = CalcError.moduloByZero := by
  simp only [exprFailure] at h
  split at h
  · simp only [Option.some.injEq] at h; exact Or.inl h.symm
  · exact firstFailure_kinds _ x h

theorem calculate_fail_cases (e : Expr) (hlex : e.lexical = true) :
    (∃ err, exprFailure e.tokens = some err ∧ calculate e.render = Except.error err ∧
      (err = CalcError.invalidNumberFormat ∨ err = CalcError.divisionByZero ∨
        err = CalcError.moduloByZero)) ∨
    (exprFailure e.tokens = none ∧
      ((∃ v, calculate e.render = Except.ok v) ∨
        calculate e.render = Except.error CalcError.overflow)) := by
  have h := stdEval_fail e.tokens
  rw [calculate_render e hlex]
  cases hf : exprFailure e.tokens with
  | none =>
    rw [hf] at h
    obtain ⟨v, hv⟩ := h
    refine Or.inr ⟨rfl, ?_⟩
    rw [hv]
    cases hi : v.isinf <;> simp [overflowCheck, hi]
  | some err =>
    rw [hf] at h
    simp only at h
    exact Or.inl ⟨err, rfl, by rw [h]; rfl, exprFailure_kinds _ err hf⟩

/-- C4, as stated, fails: `10^309+3/0` is well formed and has a `/` whose right
operand is the literal 0, yet `calculate` fails with neither zero-divisor error:
the first number is out of range and the error is the syntax error
"Invalid number format". -/
theorem zero_divisor_counterexample :
    hugeLiteralExpr.wf = true ∧
    hugeLiteralExpr.render = '1' :: (List.replicate 309 '0' ++ "+3/0".toList) ∧
    firstZeroDivisor hugeLiteralExpr.tokens.2 = some Op.div ∧
    calculate hugeLiteralExpr.render = Except.error CalcError.invalidNumberFormat ∧
    CalcError.invalidNumberFormat.kind = ErrorKind.SyntaxError := by
  decide

/-- C4, amended.  Read a well-formed expression from left to right up to the first
thing that fails, a number outside the range of a double or a `/` or `%` whose
right operand is within epsilon of zero (`exprFailure`).  `calculate` fails with
the division-by-zero error exactly when that first failure is such a `/`, and
with the modulo-by-zero error exactly when it is such a `%`.  So, when every number
is in range, `calculate` fails with one of the two errors if and only if some `/`
or `%` has a right operand within epsilon of zero, and the leftmost such
operator decides which.  `3/0`, `3%0` and `3/0+10^309` are instances. -/
theorem calculate_zero_divisor :
    (∀ e : Expr, e.wf = true →
      (calculate e.render = Except.error CalcError.divisionByZero ↔
        exprFailure e.tokens = some CalcError.divisionByZero) ∧
      (calculate e.render = Except.error CalcError.moduloByZero ↔
        exprFailure e.tokens = some CalcError.moduloByZero)) ∧
    (∀ e : Expr, e.wf = true → inRange e.tokens = true →
      ((∃ i ∈ e.tokens.2, isZeroDivisor i = true) ↔
        (calculate e.render = Except.error CalcError.divisionByZero ∨
          calculate e.render = Except.error CalcError.moduloByZero)) ∧
      (calculate e.render = Except.error CalcError.divisionByZero ↔
        firstZeroDivisor e.tokens.2 = some Op.div) ∧
      (calculate e.render = Except.error CalcError.moduloByZero ↔
        firstZeroDivisor e.tokens.2 = some Op.mod)) ∧
    calculate "3/0".toList = Except.error CalcError.divisionByZero ∧
    calculate "3%0".toList = Except.error CalcError.moduloByZero ∧
    calculate zeroDivFirstExpr.render = Except.error CalcError.divisionByZero := by
  have general : ∀ e : Expr, e.wf = true →
      (calculate e.render = Except.error CalcError.divisionByZero ↔
        exprFailure e.tokens = some CalcError.divisionByZero) ∧
      (calculate e.render = Except.error CalcError.moduloByZero ↔
        exprFailure e.tokens = some CalcError.moduloByZero) := by
    intro e hwf
    rcases calculate_fail_cases e (expr_lexical_of_wf e hwf) with ⟨err, h1, h2, _⟩ | ⟨h1, h2⟩
    · rw [h1, h2]
      simp
    · rcases h2 with ⟨v, hv⟩ | hv
      · simp [h1, hv]
      · simp [h1, hv]
  refine ⟨general, ?_, by decide, by decide, by decide⟩
  intro e hwf hr
  obtain ⟨g1, g2⟩ := general e hwf
  simp only [inRange, Bool.and_eq_true] at hr
  obtain ⟨r0, hr0⟩ := Option.isSome_iff_exists.mp hr.1
  have hexp : exprFailure e.tokens = firstFailure e.tokens.2 := by
    simp [exprFailure, hr0]
  rw [hexp, firstFailure_inRange _ hr.2] at g1 g2
  rw [firstZeroDivisor_some_iff, g1, g2]
  cases hf : firstZeroDivisor e.tokens.2 with
  | none => simp
  | some o => cases o <;> simp

/-- Witness of C4: in `8 - 6/0 % 0` the leftmost zero divisor is the `/`. -/
theorem calculate_zero_divisor_witness :
    zeroDivExpr.render = "8 - 6/0 % 0".toList ∧
    (calculate zeroDivExpr.render = Except.error CalcError.divisionByZero ↔
      firstZeroDivisor zeroDivExpr.tokens.2 = some Op.div) :=
  ⟨by decide, (calculate_zero_divisor.2.1 zeroDivExpr (by decide) (by decide)).2.1⟩

/-- C10: two well-formed expressions with the same tokens, whatever whitespace
each has before the first token, between adjacent tokens and after the last one,
have the same result under `calculate`: the same value or the same error. -/
theorem calculate_whitespace_irrelevant (e1 e2 : Expr) (h1 : e1.wf = true) (h2 : e2.wf = true)
    (ht : e1.tokens = e2.tokens) : calculate e1.render = calculate e2.render := by
  rw [calculate_render e1 (expr_lexical_of_wf e1 h1),
    calculate_render e2 (expr_lexical_of_wf e2 h2), ht]

/-- Witness of C10: `2+3*4 ` and ` 2 +\t3*\n4`. -/
theorem calculate_whitespace_irrelevant_witness :
    exampleExpr.render = "2+3*4 ".toList ∧ spacedExpr.render = " 2 +\t3*\n4".toList ∧
    calculate exampleExpr.render = calculate spacedExpr.render :=
  ⟨by decide, by decide,
    calculate_whitespace_irrelevant exampleExpr spacedExpr (by decide) (by decide) (by decide)⟩

/-! ## Claims C5 and C6: request framing of the server -/

theorem find_none (s : Str) (h : find s ' ' = none) : splitStream s = ([], s) := by
  induction s with
  | nil => rfl
  | cons c cs ih =>
    simp only [find] at h
    by_cases hc : c = ' '
    · simp [hc] at h
    · simp only [hc, if_false] at h
      cases hf : find cs ' ' with
      | none => simp [splitStream, hc, ih hf, consToken]
      | some i => simp [hf] at h

theorem find_some (s : Str) (pos : Nat) (h : find s ' ' = some pos) :
    splitStream s = (s.take pos :: (splitStream (s.drop (pos + 1))).1,
      (splitStream (s.drop (pos + 1))).2) ∧ pos < s.length := by
  induction s generalizing pos with
  | nil => simp [find] at h
  | cons c cs ih =>
    simp only [find] at h
    by_cases hc : c = ' '
    · simp only [hc, if_true, Option.some.injEq] at h
      subst h
      simp [splitStream, hc]
    · simp only [hc, if_false] at h
      cases hf : find cs ' ' with
      | none => simp [hf] at h
      | some i =>
        simp only [hf, Option.some.injEq] at h
        subst h
        obtain ⟨h1, h2⟩ := ih i hf
        simp [splitStream, hc, h1, consToken, h2]

theorem extractLoop_eq (fuel : Nat) : ∀ (c : Client), c.in_buf.length ≤ fuel →
    extractLoop fuel c =
      { c with out_buf := c.out_buf ++ answers (splitStream c.in_buf).1
               in_buf := (splitStream c.in_buf).2 } := by
  induction fuel with
  | zero =>
    intro c hf
    obtain ⟨ib, ob, n, cl⟩ := c
    have h0 : ib = [] := List.eq_nil_of_length_eq_zero (Nat.le_zero.mp hf)
    subst h0
    simp [extractLoop, splitStream, answers]
  | succ f ih =>
    intro c hf
    obtain ⟨ib, ob, n, cl⟩ := c
    simp only [extractLoop]
    cases hfind : find ib ' ' with
    | none => simp [find_none ib hfind, answers]
    | some pos =>
      obtain ⟨h1, h2⟩ := find_some ib pos hfind
      have hlen : (ib.drop (pos + 1)).length ≤ f := by
        simp only [List.length_drop]; simp only at hf; omega
      simp only [substr, List.drop_zero]
      by_cases ht : List.take pos ib = []
      · rw [if_neg (not_not.mpr ht), ih _ hlen, h1]
        simp only [answers, ht, if_true, List.nil_append]
      · rw [if_pos ht, ih _ (by simpa using hlen), h1]
        simp only [answers, ht, if_false, List.append_assoc]

theorem onData_eq (c : Client) (b : Str) :
    onData c b =
      { c with out_buf := c.out_buf ++ answers (splitStream (c.in_buf ++ b)).1
               in_buf := (splitStream (c.in_buf ++ b)).2 } :=
  extractLoop_eq _ { c with in_buf := c.in_buf ++ b } (Nat.le_refl _)

theorem answers_append (a b : List Str) : answers (a ++ b) = answers a ++ answers b := by
  induction a with
  | nil => rfl
  | cons t a ih => simp [answers, ih]

theorem splitStream_cons (c : Char) (s : Str) (hc : c ≠ ' ') :
    splitStream (c :: s) = consToken c (splitStream s) := by
  simp [splitStream, hc]

theorem splitStream_append (a b : Str) :
    splitStream (a ++ b) = ((splitStream a).1 ++ (splitStream ((splitStream a).2 ++ b)).1,
      (splitStream ((splitStream a).2 ++ b)).2) := by
  induction a with
  | nil => simp [splitStream]
  | cons c a ih =>
    by_cases hc : c = ' '
    · simp [splitStream, hc, ih]
    · rw [List.cons_append, splitStream_cons c (a ++ b) hc, splitStream_cons c a hc, ih]
      cases h1 : (splitStream a).1 with
      | nil =>
        simp only [consToken, h1, List.nil_append, List.cons_append]
        rw [splitStream_cons c _ hc]
        simp only [consToken]
      | cons t ts => simp only [consToken, h1, List.cons_append]

theorem onData_onData (c : Client) (a b : Str) : onData (onData c a) b = onData c (a ++ b) := by
  simp only [onData_eq]
  rw [← List.append_assoc c.in_buf a b, splitStream_append (c.in_buf ++ a) b]
  simp only [answers_append, List.append_assoc]

theorem onData_nil_fresh : onData Client.fresh [] = Client.fresh := by
  simp [onData_eq, Client.fresh, splitStream, answers]

/-- The chunks fed one `recv` at a time, starting from `c`. -/
theorem foldl_onData (chunks : List Str) : ∀ (c : Client) (b : Str),
    chunks.foldl onData (onData c b) = onData c (b ++ chunks.flatten) := by
  induction chunks with
  | nil => intro c b; simp
  | cons a chunks ih =>
    intro c b
    simp only [List.foldl_cons, List.flatten_cons]
    rw [onData_onData, ih, List.append_assoc]

theorem foldl_onData_fresh (chunks : List Str) :
    chunks.foldl onData Client.fresh = onData Client.fresh chunks.flatten := by
  have h := foldl_onData chunks Client.fresh []
  rw [onData_nil_fresh] at h
  simpa using h

theorem recvLoop_chunks (chunks : List Str) : ∀ (c : Client) (ctl : Option Interest),
    (∀ b ∈ chunks, b ≠ []) →
    ∃ ctl1, recvLoop c ctl (chunks.map RecvResult.bytes) = some (chunks.foldl onData c, ctl1) := by
  induction chunks with
  | nil => intro c ctl _; exact ⟨ctl, rfl⟩
  | cons b chunks ih =>
    intro c ctl hne
    have hb : 0 < b.length := List.length_pos.mpr (hne b (List.mem_cons_self _ _))
    simp only [List.map_cons, recvLoop, hb, if_true, List.foldl_cons]
    exact ih _ _ (fun x hx => hne x (List.mem_cons_of_mem _ hx))

theorem handleClient_readStep (c : Client) (chunks : List Str) (hne : ∀ b ∈ chunks, b ≠ []) :
    (handleClient c (readStep chunks).ev (readStep chunks).recvs (readStep chunks).sends).client
        = some (chunks.foldl onData c) ∧
      (handleClient c (readStep chunks).ev (readStep chunks).recvs (readStep chunks).sends).sent
        = [] := by
  obtain ⟨ctl1, h⟩ := recvLoop_chunks chunks c none hne
  simp [handleClient, readStep, Events.readable, h]

theorem runSteps_readSteps (groups : List (List Str)) : ∀ (c : Client) (acc : Str),
    (∀ g ∈ groups, ∀ b ∈ g, b ≠ []) →
    runSteps (some c) acc (groups.map readStep) = (some (groups.flatten.foldl onData c), acc) := by
  induction groups with
  | nil => intro c acc _; rfl
  | cons g groups ih =>
    intro c acc hne
    obtain ⟨h1, h2⟩ := handleClient_readStep c g (hne g (List.mem_cons_self _ _))
    simp only [List.map_cons, runSteps, h1, h2, List.append_nil, List.flatten_cons,
      List.foldl_append]
    exact ih _ _ (fun x hx => hne x (List.mem_cons_of_mem _ hx))

theorem runSteps_single (r : Str) :
    runSteps (some Client.fresh) [] [readStep [r]] = (some (onData Client.fresh r), []) := by
  cases r with
  | nil =>
    rw [onData_nil_fresh]
    simp [runSteps, handleClient, readStep, Events.readable, recvLoop]
  | cons a r =>
    have h := runSteps_readSteps [[a :: r]] Client.fresh [] (by simp)
    simpa using h

theorem runSteps_fresh (groups : List (List Str)) (hne : ∀ g ∈ groups, ∀ b ∈ g, b ≠ []) :
    runSteps (some Client.fresh) [] (groups.map readStep) =
      (some (onData Client.fresh groups.flatten.flatten), []) := by
  rw [runSteps_readSteps groups Client.fresh [] hne, foldl_onData_fresh]

/-- C5: fragmentation invariance of the request framing.  Split a byte string into
non-empty chunks and deliver them to a fresh connection over any number of
readable events, each `recv` returning one chunk: the connection record (input
buffer, output buffer, cursor, flag) and the bytes sent are the same as after one
readable event whose single `recv` returns the whole string. -/
theorem fragmentation_invariance (groups : List (List Str))
    (hne : ∀ g ∈ groups, ∀ b ∈ g, b ≠ []) :
    runSteps (some Client.fresh) [] (groups.map readStep) =
      runSteps (some Client.fresh) [] [readStep [groups.flatten.flatten]] := by
  rw [runSteps_fresh groups hne, runSteps_single]

/-- Witness of C5: `2+2 3/0 1` received as `2+`, `2 3` in one event and `/0 1` in
the next. -/
theorem fragmentation_invariance_witness :
    runSteps (some Client.fresh) []
        ([["2+".toList, "2 3".toList], ["/0 1".toList]].map readStep) =
      runSteps (some Client.fresh) [] [readStep ["2+2 3/0 1".toList]] :=
  fragmentation_invariance [["2+".toList, "2 3".toList], ["/0 1".toList]] (by decide)

theorem splitStream_join (r : Str) :
    (splitStream r).1.flatMap (fun t => t ++ [' ']) ++ (splitStream r).2 = r := by
  induction r with
  | nil => rfl
  | cons c r ih =>
    by_cases hc : c = ' '
    · simp only [splitStream, hc, if_true, List.flatMap_cons, List.nil_append,
        List.singleton_append, List.cons_append]
      rw [ih]
    · rw [splitStream_cons c r hc]
      cases h1 : (splitStream r).1 with
      | nil =>
        rw [h1] at ih
        simp only [consToken, h1, List.flatMap_nil, List.nil_append] at ih ⊢
        rw [ih]
      | cons t ts =>
        rw [h1] at ih
        simp only [consToken, h1, List.flatMap_cons, List.cons_append, List.append_assoc] at ih ⊢
        rw [ih]

theorem splitStream_no_space (r : Str) :
    (∀ t ∈ (splitStream r).1, ' ' ∉ t) ∧ ' ' ∉ (splitStream r).2 := by
  induction r with
  | nil => simp [splitStream]
  | cons c r ih =>
    by_cases hc : c = ' '
    · simp only [splitStream, hc, if_true, List.mem_cons, forall_eq_or_imp, List.not_mem_nil,
        not_false_eq_true, true_and]
      exact ih
    · rw [splitStream_cons c r hc]
      have hc' : ¬ ' ' = c := fun h => hc h.symm
      cases h1 : (splitStream r).1 with
      | nil =>
        simp only [consToken, h1, List.not_mem_nil, false_implies, implies_true, List.mem_cons,
          not_or, true_and]
        exact ⟨hc', ih.2⟩
      | cons t ts =>
        rw [h1] at ih
        simp only [consToken, h1, List.mem_cons, forall_eq_or_imp, not_or]
        exact ⟨⟨⟨hc', ih.1 t (List.mem_cons_self _ _)⟩,
          fun x hx => ih.1 x (List.mem_cons_of_mem _ hx)⟩, ih.2⟩

/-- C6: request framing.  Write the received stream `r` as its space-terminated
tokens followed by the residue after the last space (`splitStream`: the tokens,
each followed by a space, and the residue concatenate to `r`, and none of them
contains a space).  However `r` is chunked over `recv` calls and readable events,
a fresh connection ends with the output buffer holding, in stream order, one
response line per non-empty token (`response`: the two-decimal result or
`Error: ` and the message, then a newline) and nothing for empty tokens, with the
residue left in the input buffer, and nothing sent yet. -/
theorem request_framing (groups : List (List Str)) (hne : ∀ g ∈ groups, ∀ b ∈ g, b ≠ []) :
    runSteps (some Client.fresh) [] (groups.map readStep) =
      (some { in_buf := (splitStream groups.flatten.flatten).2
              out_buf := answers (splitStream groups.flatten.flatten).1
              out_sent := 0
              closing := false }, []) ∧
    (splitStream groups.flatten.flatten).1.flatMap (fun t => t ++ [' ']) ++
      (splitStream groups.flatten.flatten).2 = groups.flatten.flatten ∧
    (∀ t ∈ (splitStream groups.flatten.flatten).1, ' ' ∉ t) ∧
    ' ' ∉ (splitStream groups.flatten.flatten).2 := by
  refine ⟨?_, splitStream_join _, splitStream_no_space _⟩
  rw [runSteps_fresh groups hne, onData_eq]
  simp [Client.fresh]

/-- Witness of C6: the stream `2+2 3/0  1` in three chunks yields the two lines
`4.00` and `Error: Division by zero`, nothing for the empty token, residue `1`. -/
theorem request_framing_witness :
    runSteps (some Client.fresh) []
        ([["2+".toList, "2 3".toList], ["/0  1".toList]].map readStep) =
      (some { in_buf := "1".toList
              out_buf := "4.00\nError: Division by zero\n".toList
              out_sent := 0
              closing := false }, []) :=
  (request_framing [["2+".toList, "2 3".toList], ["/0  1".toList]] (by decide)).1

/-! ## Claim C7: half-close with a pending partial token -/

theorem runSteps_writableRdhup (n : Nat) (sends : List SendResult) (c : Client) (acc : Str)
    (hin : c.in_buf = []) (hout : c.out_buf ≠ []) (hcl : c.closing = true) :
    runSteps (some c) acc
      (List.replicate n { ev := Events.writableRdhup, recvs := [], sends := sends }) =
      (some c, acc) := by
  induction n with
  | zero => rfl
  | succ n ih =>
    obtain ⟨ib, ob, k, cl⟩ := c
    simp only at hin hout hcl
    subst hin hcl
    simp only [List.replicate_succ, runSteps, handleClient, Events.writableRdhup, handleRdhup,
      Bool.or_self, Bool.false_eq_true, if_false, if_true, ne_eq, not_true_eq_false, hout,
      List.append_nil]
    exact ih

theorem runSteps_none (acc : Str) (steps : List Step) : runSteps none acc steps = (none, acc) := by
  cases steps <;> rfl

theorem runSteps_append (a : List Step) : ∀ (c : Option Client) (acc : Str) (b : List Step),
    runSteps c acc (a ++ b) = runSteps (runSteps c acc a).1 (runSteps c acc a).2 b := by
  induction a with
  | nil => intro c acc b; cases c <;> simp [runSteps]
  | cons st a ih =>
    intro c acc b
    cases c with
    | none => simp [runSteps, runSteps_none]
    | some c =>
      simp only [List.cons_append, runSteps]
      exact ih _ _ b

/-- C7 on the code: a client sends `2+2` and shuts down its write side.
(1) When the data and the half-close are reported in one event
`EPOLLIN | EPOLLRDHUP`, the handler takes the `EPOLLRDHUP` branch without reading,
finds both buffers empty and closes the connection: nothing is sent.
(2) When the data was read in an earlier event, the `EPOLLRDHUP` branch queues
`4.00\n` and returns; every later event `EPOLLOUT | EPOLLRDHUP` takes the
`EPOLLRDHUP` branch again and returns before the `EPOLLOUT` branch: whatever the
transport would accept, nothing is sent and the connection stays open.
(3) Only a writable event reported without the half-close bit sends `4.00\n` and
closes. -/
theorem half_close_pending_token :
    (∀ sends : List SendResult,
      runSteps (some Client.fresh) []
        [{ ev := Events.readableRdhup,
           recvs := [RecvResult.bytes "2+2".toList, RecvResult.bytes []], sends := sends }] =
        (none, [])) ∧
    (∀ (n : Nat) (sends : List SendResult),
      runSteps (some Client.fresh) []
        (readStep ["2+2".toList] ::
          { ev := Events.readableRdhup, recvs := [RecvResult.bytes []], sends := [] } ::
          List.replicate n { ev := Events.writableRdhup, recvs := [], sends := sends }) =
        (some { in_buf := [], out_buf := "4.00\n".toList, out_sent := 0, closing := true }, [])) ∧
    runSteps (some Client.fresh) []
        [readStep ["2+2".toList],
          { ev := Events.readableRdhup, recvs := [RecvResult.bytes []], sends := [] },
          { ev := Events.writable, recvs := [], sends := [SendResult.accepted 5] }] =
      (none, "4.00\n".toList) := by
  refine ⟨?_, ?_, by decide⟩
  · intro sends
    rfl
  · intro n sends
    have h : runSteps (some Client.fresh) []
        [readStep ["2+2".toList],
          { ev := Events.readableRdhup, recvs := [RecvResult.bytes []], sends := [] }] =
        (some { in_buf := [], out_buf := "4.00\n".toList, out_sent := 0, closing := true }, []) := by
      decide
    have h2 := runSteps_writableRdhup n sends
      { in_buf := [], out_buf := "4.00\n".toList, out_sent := 0, closing := true } [] rfl
      (by decide) rfl
    have h3 := runSteps_append
      [readStep ["2+2".toList],
        { ev := Events.readableRdhup, recvs := [RecvResult.bytes []], sends := [] }]
      (some Client.fresh) []
      (List.replicate n { ev := Events.writableRdhup, recvs := [], sends := sends })
    rw [h] at h3
    simp only [List.cons_append, List.nil_append] at h3
    rw [h3]
    exact h2

/-! ## Claim C8: the tolerance check of the client -/

theorem numChar_plain (c : Char) (h : (isdigit c || decide (c = '.')) = true) :
    isspace c = false ∧ c ≠ '-' ∧ c ≠ '+' ∧ tolower c = c := by
  simp only [Bool.or_eq_true, decide_eq_true_eq] at h
  rcases h with h | h
  · refine ⟨isdigit_not_space c h, isdigit_ne_minus c h, ?_, ?_⟩
    · intro hc; subst hc; revert h; decide
    · simp only [isdigit, Bool.and_eq_true, decide_eq_true_eq] at h
      have hn : ¬ (65 ≤ c.toNat ∧ c.toNat ≤ 90) := by omega
      simp [tolower, hn]
  · subst h
    decide

theorem numChar_not_letter (c : Char) (h : (isdigit c || decide (c = '.')) = true) :
    tolower c ≠ 'x' ∧ tolower c ≠ 'e' ∧ tolower c ≠ 'i' ∧ tolower c ≠ 'n' := by
  rw [(numChar_plain c h).2.2.2]
  refine ⟨?_, ?_, ?_, ?_⟩ <;> intro he <;> subst he <;> revert h <;> decide

theorem startsWithWord_digits (str : Str)
    (h : ∀ c ∈ str, (isdigit c || decide (c = '.')) = true) :
    startsWithWord "inf".toList str = false ∧ startsWithWord "nan".toList str = false := by
  cases str with
  | nil => exact ⟨by decide, by decide⟩
  | cons c r =>
    obtain ⟨_, _, hi, hn⟩ := numChar_not_letter c (h c (List.mem_cons_self _ _))
    constructor
    · simp only [startsWithWord, decide_eq_false_iff_not]
      intro he
      have h1 := congrArg List.head? he
      simp at h1
      exact hi h1
    · simp only [startsWithWord, decide_eq_false_iff_not]
      intro he
      have h1 := congrArg List.head? he
      simp at h1
      exact hn h1

theorem hexMantissa_digits (str : Str)
    (h : ∀ c ∈ str, (isdigit c || decide (c = '.')) = true) : hexMantissa str = none := by
  unfold hexMantissa
  split
  · rename_i x r
    have hxm : x ∈ '0' :: x :: r := List.mem_cons_of_mem _ (List.mem_cons_self _ _)
    rw [if_neg (numChar_not_letter x (h x hxm)).1]
  · rfl

theorem exponentOf_digits (rest : Str)
    (h : ∀ c ∈ rest, (isdigit c || decide (c = '.')) = true) : exponentOf 'e' rest = 0 := by
  cases rest with
  | nil => rfl
  | cons c r =>
    simp only [exponentOf]
    rw [if_neg (numChar_not_letter c (h c (List.mem_cons_self _ _))).2.1]

theorem mantissaDigits_rest (p : Char → Bool) (s : Str) : (mantissaDigits p s).2.2 <:+ s := by
  unfold mantissaDigits
  have hs : s.dropWhile p <:+ s := List.dropWhile_suffix _
  split
  · rename_i r heq
    have h1 : r.dropWhile p <:+ r := List.dropWhile_suffix _
    have h2 : r <:+ '.' :: r := List.suffix_cons _ _
    rw [heq] at hs
    exact (h1.trans h2).trans hs
  · exact hs

theorem strtod_digits (str : Str) (h : ∀ c ∈ str, (isdigit c || decide (c = '.')) = true) :
    strtod str = strtodBody false str := by
  unfold strtod
  cases str with
  | nil => rfl
  | cons c r =>
    obtain ⟨h0, h1, h2, _⟩ := numChar_plain c (h c (List.mem_cons_self _ _))
    have hws : (c :: r).dropWhile isspace = c :: r := by simp [List.dropWhile, h0]
    rw [hws]
    split
    · rename_i heq
      simp only [List.cons.injEq] at heq
      exact absurd heq.1 h1
    · rename_i heq
      simp only [List.cons.injEq] at heq
      exact absurd heq.1 h2
    · rfl

theorem stod_eq (str : Str) :
    stod str =
      if (mantissaDigits isdigit str).1 = [] ∧ (mantissaDigits isdigit str).2.1 = [] then none
      else strtodRound false
        (decimalValue ((mantissaDigits isdigit str).1 ++ (mantissaDigits isdigit str).2.1) *
          2 ^ 1074)
        (10 ^ (mantissaDigits isdigit str).2.1.length) := by
  unfold stod strtodRound mantissaDigits
  cases hd : str.dropWhile isdigit with
  | nil => simp
  | cons c r =>
    by_cases hdot : c = '.'
    · subst hdot
      simp
    · simp [hdot]

/-- On a string of digits and decimal points, which is all `parse_number` passes
to `std::stod`, the general conversion is the conversion `stod`. -/
theorem stodAny_digits (str : Str) (h : str.all (fun c => isdigit c || decide (c = '.')) = true) :
    stodAny str = stod str := by
  rw [List.all_eq_true] at h
  obtain ⟨hinf, hnan⟩ := startsWithWord_digits str h
  have hexp : exponentOf 'e' (mantissaDigits isdigit str).2.2 = 0 :=
    exponentOf_digits _ (fun c hc => h c ((mantissaDigits_rest isdigit str).subset hc))
  unfold stodAny
  rw [strtod_digits str h, stod_eq]
  unfold strtodBody
  rw [hinf, hnan, hexMantissa_digits str h]
  simp only [Bool.false_eq_true, if_false, hexp, Int.toNat_zero, Nat.pow_zero, Nat.mul_one,
    Int.neg_zero]
  by_cases hA : (mantissaDigits isdigit str).1 = [] ∧ (mantissaDigits isdigit str).2.1 = []
  · simp [hA]
  · simp only [hA, if_false]
    cases strtodRound false _ _ <;> rfl

theorem appendWsItems_render (rest : List Item) : ∀ (i : Item) (ws : Str),
    renderItems (appendWsItems i rest ws) = renderItems (i :: rest) ++ ws := by
  induction rest with
  | nil => intro i ws; simp [appendWsItems, renderItems, Item.render]
  | cons j rest ih =>
    intro i ws
    simp only [appendWsItems, renderItems, ih j ws, List.append_assoc]

theorem appendWsItems_tokens (rest : List Item) : ∀ (i : Item) (ws : Str),
    (appendWsItems i rest ws).map Item.token = (i :: rest).map Item.token := by
  induction rest with
  | nil => intro i ws; simp [appendWsItems, Item.token]
  | cons j rest ih =>
    intro i ws
    simp only [appendWsItems, List.map_cons, ih j ws]

theorem appendWsItems_ok (P : NumLit → Bool) (rest : List Item) : ∀ (i : Item) (ws : Str),
    ws.all isspace = true → (i :: rest).all Item.spaced = true →
    (i :: rest).all (fun i => P i.num) = true →
    (appendWsItems i rest ws).all Item.spaced = true ∧
      (appendWsItems i rest ws).all (fun i => P i.num) = true := by
  induction rest with
  | nil =>
    intro i ws hws hsp hlex
    simp only [List.all_cons, List.all_nil, Bool.and_true, Item.spaced, Bool.and_eq_true] at hsp hlex
    simp [appendWsItems, Item.spaced, hsp.1, hsp.2, hws, hlex]
  | cons j rest ih =>
    intro i ws hws hsp hlex
    rw [List.all_cons, Bool.and_eq_true] at hsp hlex
    obtain ⟨h1, h2⟩ := ih j ws hws hsp.2 hlex.2
    simp only [appendWsItems, List.all_cons, Bool.and_eq_true]
    exact ⟨⟨hsp.1, h1⟩, ⟨hlex.1, h2⟩⟩

theorem appendWs_render (e : Expr) (ws : Str) : (e.appendWs ws).render = e.render ++ ws := by
  obtain ⟨w0, f, w1, items⟩ := e
  cases items with
  | nil => simp [Expr.appendWs, Expr.render, renderItems]
  | cons i rest => simp [Expr.appendWs, Expr.render, appendWsItems_render]

theorem appendWs_tokens (e : Expr) (ws : Str) : (e.appendWs ws).tokens = e.tokens := by
  obtain ⟨w0, f, w1, items⟩ := e
  cases items with
  | nil => simp [Expr.appendWs, Expr.tokens]
  | cons i rest => simp [Expr.appendWs, Expr.tokens, appendWsItems_tokens]

theorem appendWs_lexical (e : Expr) (ws : Str) (hws : ws.all isspace = true)
    (he : e.lexical = true) : (e.appendWs ws).lexical = true := by
  obtain ⟨w0, f, w1, items⟩ := e
  simp only [Expr.lexical, Expr.spaced, Bool.and_eq_true] at he
  obtain ⟨⟨⟨⟨h0, h1⟩, hsp⟩, hf⟩, hlex⟩ := he
  cases items with
  | nil => simp [Expr.appendWs, Expr.lexical, Expr.spaced, h0, h1, hws, hf]
  | cons i rest =>
    obtain ⟨h2, h3⟩ := appendWsItems_ok NumLit.lexical rest i ws hws hsp hlex
    simp only [Expr.appendWs, Expr.lexical, Expr.spaced, Bool.and_eq_true]
    exact ⟨⟨⟨⟨h0, h1⟩, h2⟩, hf⟩, h3⟩

/-- Whitespace after the last token does not change the result. -/
theorem calculate_trailing_ws (e : Expr) (ws : Str) (hws : ws.all isspace = true)
    (he : e.lexical = true) : calculate (e.render ++ ws) = calculate e.render := by
  rw [← appendWs_render, calculate_render _ (appendWs_lexical e ws hws he), appendWs_tokens,
    calculate_render e he]

theorem digitChar_isdigit (d : Nat) (h : d < 10) : isdigit (digitChar d) = true := by
  interval_cases d <;> decide

theorem natDigitsAux_digits (fuel : Nat) : ∀ (n : Nat) (acc : Str),
    acc.all isdigit = true → (natDigitsAux fuel n acc).all isdigit = true := by
  induction fuel with
  | zero => intro n acc h; exact h
  | succ f ih =>
    intro n acc h
    simp only [natDigitsAux]
    by_cases hn : n < 10
    · simp [hn, digitChar_isdigit n hn, h]
    · simp only [hn, if_false]
      apply ih
      simp [digitChar_isdigit (n % 10) (Nat.mod_lt _ (by decide)), h]

theorem natDigitsAux_ne_nil (fuel : Nat) : ∀ (n : Nat) (acc : Str),
    (0 < fuel ∨ acc ≠ []) → natDigitsAux fuel n acc ≠ [] := by
  induction fuel with
  | zero =>
    intro n acc h
    rcases h with h | h
    · exact absurd h (Nat.lt_irrefl 0)
    · exact h
  | succ f ih =>
    intro n acc _
    simp only [natDigitsAux]
    by_cases hn : n < 10
    · simp [hn]
    · simp only [hn, if_false]
      exact ih _ _ (Or.inr (by simp))

theorem to_string_wf (m : Nat) : (NumLit.ofDigits (to_string m)).wf = true := by
  have h1 := natDigitsAux_digits (m + 1) m [] rfl
  have h2 := natDigitsAux_ne_nil (m + 1) m [] (Or.inl (Nat.succ_pos m))
  simp only [NumLit.wf, NumLit.ofDigits, to_string, h1, Bool.and_true, Bool.not_eq_true',
    List.isEmpty_eq_false]
  exact h2

theorem opOfDraw_char (k : Nat) : (opOfDraw k).char = kOps k := by
  by_cases h0 : k = 0
  · subst h0; rfl
  by_cases h1 : k = 1
  · subst h1; rfl
  by_cases h2 : k = 2
  · subst h2; rfl
  by_cases h3 : k = 3
  · subst h3; rfl
  have h4 : 4 ≤ k := by omega
  simp only [opOfDraw, h0, h1, h2, if_false, Op.char, kOps]
  rw [List.getD_eq_default]
  simp only [String.toList, List.length_cons, List.length_nil]
  exact h4

theorem generateLoop_eq (num op : Nat → Nat) (n : Nat) (k : Nat) : ∀ (i : Nat) (expr : Str),
    i + (k + 1) = n →
    generateLoop num op n (k + 1) i expr =
      expr ++ (to_string (num i) ++ renderItems (genItems num op k (i + 1))) := by
  induction k with
  | zero =>
    intro i expr h
    have hi : ¬ i < n - 1 := by omega
    simp [generateLoop, hi, genItems, renderItems]
  | succ k ih =>
    intro i expr h
    have hi : i < n - 1 := by omega
    rw [generateLoop]
    simp only [hi, if_true]
    rw [ih (i + 1) _ (by omega)]
    simp [genItems, renderItems, Item.render, NumLit.ofDigits, NumLit.text, NumLit.absText,
      opOfDraw_char]

theorem genItems_wf (num op : Nat → Nat) (k : Nat) : ∀ i,
    (genItems num op k i).all Item.spaced = true ∧
      (genItems num op k i).all (fun i => i.num.wf) = true := by
  induction k with
  | zero => intro i; simp [genItems]
  | succ k ih =>
    intro i
    obtain ⟨h1, h2⟩ := ih (i + 1)
    simp only [genItems, List.all_cons, Bool.and_eq_true]
    exact ⟨⟨by simp [Item.spaced], h1⟩, ⟨to_string_wf _, h2⟩⟩

theorem genExpr_wf (num op : Nat → Nat) (n : Nat) : (genExpr num op n).wf = true := by
  obtain ⟨h1, h2⟩ := genItems_wf num op (n - 1) 1
  simp only [Expr.wf, Expr.spaced, genExpr, Bool.and_eq_true]
  exact ⟨⟨⟨⟨by simp, by simp⟩, h1⟩, to_string_wf _⟩, h2⟩

theorem generate_expression_eq (num op : Nat → Nat) (n : Int) (expr : Str) (hn : 1 ≤ n)
    (hgen : generate_expression num op n = some expr) :
    expr = (genExpr num op n.toNat).render ++ [' '] := by
  have hn' : ¬ n ≤ 0 := by omega
  simp only [generate_expression, hn', if_false, Option.some.injEq] at hgen
  obtain ⟨k, hk⟩ : ∃ k, n.toNat = k + 1 := ⟨n.toNat - 1, by omega⟩
  rw [← hgen]
  rw [hk, generateLoop_eq num op (k + 1) k 0 [] (by omega)]
  simp [genExpr, Expr.render, NumLit.ofDigits, NumLit.text, NumLit.absText]

theorem digits_no_space (ds : Str) (h : ds.all isdigit = true) : ' ' ∉ ds := by
  intro hmem
  have := List.all_eq_true.mp h ' ' hmem
  revert this
  decide

theorem to_string_no_space (m : Nat) : ' ' ∉ to_string m :=
  digits_no_space _ (natDigitsAux_digits (m + 1) m [] rfl)

theorem genItems_no_space (num op : Nat → Nat) (k : Nat) : ∀ i,
    ' ' ∉ renderItems (genItems num op k i) := by
  induction k with
  | zero => intro i; simp [genItems, renderItems]
  | succ k ih =>
    intro i
    have hop : ' ' ≠ (opOfDraw (op (i - 1))).char := by
      cases opOfDraw (op (i - 1)) <;> decide
    simp only [genItems, renderItems, Item.render, NumLit.ofDigits, NumLit.text, NumLit.absText,
      List.nil_append, List.append_nil, List.cons_append, List.mem_cons, List.mem_append, not_or,
      Bool.false_eq_true, if_false]
    exact ⟨hop, to_string_no_space _, ih _⟩

theorem genExpr_no_space (num op : Nat → Nat) (n : Nat) : ' ' ∉ (genExpr num op n).render := by
  simp only [genExpr, Expr.render, NumLit.ofDigits, NumLit.text, NumLit.absText,
    List.nil_append, List.append_nil, List.mem_append, not_or, Bool.false_eq_true, if_false]
  exact ⟨to_string_no_space _, genItems_no_space num op _ _⟩

theorem splitStream_token (b : Str) (rest : Str) (h : ' ' ∉ b) :
    splitStream (b ++ ' ' :: rest) = (b :: (splitStream rest).1, (splitStream rest).2) := by
  induction b with
  | nil => simp [splitStream]
  | cons c b ih =>
    simp only [List.mem_cons, not_or] at h
    have hc : c ≠ ' ' := fun e => h.1 e.symm
    rw [List.cons_append, splitStream_cons c _ hc, ih h.2]
    simp [consToken]

theorem genExpr_render_ne_nil (num op : Nat → Nat) (n : Nat) : (genExpr num op n).render ≠ [] := by
  have h := natDigitsAux_ne_nil (num 0 + 1) (num 0) [] (Or.inl (Nat.succ_pos _))
  simp only [genExpr, Expr.render, NumLit.ofDigits, NumLit.text, NumLit.absText, to_string,
    List.nil_append, List.append_nil, Bool.false_eq_true, if_false, ne_eq, List.append_eq_nil,
    not_and]
  exact fun h1 => absurd h1 h

/-- C9: round trip.  Let `expr` be the string `Generator::generate_expression(n)`
returns for `n >= 1`, whatever the random draws `num` and `op` are; the client keeps
`expr` for its check and transmits `expr` followed by the delimiter.  However
these bytes are chunked over `recv` calls and readable events, the server
extracts exactly one non-empty token `tok`, answers it with one response line and
leaves an empty input buffer, and `calculate` gives the same result on `tok` as
on the client's `expr`. -/
theorem round_trip (num op : Nat → Nat) (n : Int) (expr : Str) (groups : List (List Str))
    (hn : 1 ≤ n) (hgen : generate_expression num op n = some expr)
    (hne : ∀ g ∈ groups, ∀ b ∈ g, b ≠ [])
    (hsent : groups.flatten.flatten = expr ++ [' ']) :
    ∃ tok : Str, tok ≠ [] ∧
      (splitStream (expr ++ [' '])).1.filter (fun t => decide (t ≠ [])) = [tok] ∧
      runSteps (some Client.fresh) [] (groups.map readStep) =
        (some { in_buf := [], out_buf := response tok, out_sent := 0, closing := false }, []) ∧
      calculate tok = calculate expr := by
  have hexpr := generate_expression_eq num op n expr hn hgen
  have hns := genExpr_no_space num op n.toNat
  have hnn := genExpr_render_ne_nil num op n.toNat
  have hsplit : splitStream (expr ++ [' ']) = ([(genExpr num op n.toNat).render, []], []) := by
    rw [hexpr, List.append_assoc, List.singleton_append, splitStream_token _ _ hns]
    simp [splitStream]
  refine ⟨(genExpr num op n.toNat).render, hnn, ?_, ?_, ?_⟩
  · rw [hsplit]
    simp [hnn]
  · rw [runSteps_fresh groups hne, hsent, onData_eq]
    simp only [Client.fresh, List.nil_append, hsplit]
    simp [answers, hnn]
  · rw [hexpr]
    exact (calculate_trailing_ws _ [' '] (by decide)
      (expr_lexical_of_wf _ (genExpr_wf num op n.toNat))).symm

/-- Witness of C9: the draws 7, 100, 3 with `*` and `/` give `7*100/3 `; the bytes
`7*100/3  ` arrive as `7*1`, then `00/3` and the two spaces. -/
theorem round_trip_witness :
    generate_expression sampleNum sampleOp 3 = some "7*100/3 ".toList ∧
    ∃ tok : Str, tok ≠ [] ∧
      (splitStream ("7*100/3 ".toList ++ [' '])).1.filter (fun t => decide (t ≠ [])) = [tok] ∧
      runSteps (some Client.fresh) []
          ([["7*1".toList], ["00/3".toList, "  ".toList]].map readStep) =
        (some { in_buf := [], out_buf := response tok, out_sent := 0, closing := false }, []) ∧
      calculate tok = calculate "7*100/3 ".toList :=
  ⟨by decide, round_trip sampleNum sampleOp 3 "7*100/3 ".toList
    [["7*1".toList], ["00/3".toList, "  ".toList]] (by decide) (by decide) (by decide)
    (by decide)⟩

/-! ## Claim C3: inputs outside the grammar -/

theorem drop_of_getElem? (s : Str) : ∀ (p : Nat) (c : Char), s[p]? = some c →
    s.drop p = c :: s.drop (p + 1) := by
  induction s with
  | nil => intro p c h; simp at h
  | cons a s ih =>
    intro p c h
    cases p with
    | zero => simp at h; simp [h]
    | succ p => simp at h; simpa using ih p c h

theorem skipLoop_inv (s : Str) (fuel : Nat) : ∀ (p : Nat),
    ∃ ws : Str, ws.all isspace = true ∧ s.drop p = ws ++ s.drop (skipLoop s fuel p) := by
  induction fuel with
  | zero => intro p; exact ⟨[], rfl, rfl⟩
  | succ f ih =>
    intro p
    simp only [skipLoop]
    cases hc : s[p]? with
    | none => exact ⟨[], rfl, rfl⟩
    | some c =>
      by_cases hsp : isspace c = true
      · obtain ⟨ws, h1, h2⟩ := ih (p + 1)
        refine ⟨c :: ws, by simp [hsp, h1], ?_⟩
        simp only [hsp, if_true]
        rw [drop_of_getElem? s p c hc, h2]
        rfl
      · simp only [hsp, Bool.false_eq_true, if_false]
        exact ⟨[], rfl, rfl⟩

theorem skip_spaces_inv (s : Str) (p : Nat) :
    ∃ ws : Str, ws.all isspace = true ∧ s.drop p = ws ++ s.drop (skip_spaces s p) :=
  skipLoop_inv s s.length p

theorem numberLoop_inv_digits (s : Str) (fuel : Nat) : ∀ (p : Nat),
    ∃ ds : Str, ds.all isdigit = true ∧ numberLoop s fuel p true = p + ds.length ∧
      s.drop p = ds ++ s.drop (p + ds.length) := by
  induction fuel with
  | zero => intro p; exact ⟨[], rfl, rfl, rfl⟩
  | succ f ih =>
    intro p
    simp only [numberLoop]
    cases hc : s[p]? with
    | none => exact ⟨[], rfl, rfl, rfl⟩
    | some c =>
      by_cases hd : isdigit c = true
      · obtain ⟨ds, h1, h2, h3⟩ := ih (p + 1)
        refine ⟨c :: ds, by simp [hd, h1], ?_, ?_⟩
        · simp only [hd, Bool.true_or, if_true, isdigit_ne_dot c hd, if_false, h2,
            List.length_cons]
          omega
        · rw [drop_of_getElem? s p c hc, h3]
          simp only [List.length_cons, List.cons_append]
          rw [show p + (ds.length + 1) = p + 1 + ds.length by omega]
      · simp only [hd, Bool.false_or, Bool.not_true, Bool.false_and, Bool.false_eq_true,
          if_false]
        exact ⟨[], rfl, rfl, rfl⟩

theorem numberLoop_inv (s : Str) (fuel : Nat) : ∀ (p : Nat),
    ∃ n : NumLit, n.neg = false ∧ n.digitsOk = true ∧
      numberLoop s fuel p false = p + n.absText.length ∧
      s.drop p = n.absText ++ s.drop (p + n.absText.length) := by
  induction fuel with
  | zero => intro p; exact ⟨⟨false, [], none⟩, rfl, rfl, rfl, rfl⟩
  | succ f ih =>
    intro p
    simp only [numberLoop]
    cases hc : s[p]? with
    | none => exact ⟨⟨false, [], none⟩, rfl, rfl, rfl, rfl⟩
    | some c =>
      by_cases hd : isdigit c = true
      · obtain ⟨n, h0, h1, h2, h3⟩ := ih (p + 1)
        have e1 : (NumLit.mk false (c :: n.ip) n.fp).absText = c :: n.absText := rfl
        refine ⟨⟨false, c :: n.ip, n.fp⟩, rfl, ?_, ?_, ?_⟩
        · simp only [NumLit.digitsOk, Bool.and_eq_true, List.all_cons] at h1 ⊢
          exact ⟨⟨hd, h1.1⟩, h1.2⟩
        · simp only [hd, Bool.true_or, if_true, isdigit_ne_dot c hd, if_false, h2, e1,
            List.length_cons]
          omega
        · rw [drop_of_getElem? s p c hc, h3, e1]
          simp only [List.length_cons, List.cons_append]
          rw [show p + (n.absText.length + 1) = p + 1 + n.absText.length by omega]
      · by_cases hdot : c = '.'
        · subst hdot
          obtain ⟨ds, h1, h2, h3⟩ := numberLoop_inv_digits s f (p + 1)
          have e1 : (NumLit.mk false [] (some ds)).absText = '.' :: ds := rfl
          have hd' : isdigit '.' = false := by decide
          refine ⟨⟨false, [], some ds⟩, rfl, ?_, ?_, ?_⟩
          · simp [NumLit.digitsOk, h1]
          · simp only [hd', Bool.false_or, Bool.not_false, Bool.true_and, decide_True,
              if_true, h2, e1, List.length_cons]
            omega
          · rw [drop_of_getElem? s p _ hc, h3, e1]
            simp only [List.length_cons, List.cons_append]
            rw [show p + (ds.length + 1) = p + 1 + ds.length by omega]
        · simp only [hd, hdot, Bool.false_or, Bool.not_false, Bool.true_and, decide_False,
            Bool.false_eq_true, if_false]
          exact ⟨⟨false, [], none⟩, rfl, rfl, rfl, rfl⟩

theorem takeWhile_digits (ds : Str) (rest : Str) (h : ds.all isdigit = true)
    (hr : ∀ c, rest.head? = some c → isdigit c = false) :
    (ds ++ rest).takeWhile isdigit = ds ∧ (ds ++ rest).dropWhile isdigit = rest := by
  induction ds with
  | nil =>
    cases rest with
    | nil => simp
    | cons c rest => simp [hr c rfl]
  | cons d ds ih =>
    simp only [List.all_cons, Bool.and_eq_true] at h
    obtain ⟨h1, h2⟩ := ih h.2
    simp [h.1, h1, h2]

theorem stod_some_lax (n : NumLit) (hd : n.digitsOk = true) (v : Dbl)
    (h : stod n.absText = some v) (b : Bool) : (NumLit.mk b n.ip n.fp).lax = true := by
  obtain ⟨neg, ip, fp⟩ := n
  simp only [NumLit.digitsOk, Bool.and_eq_true] at hd
  cases fp with
  | none =>
    obtain ⟨h1, h2⟩ := takeWhile_digits ip [] hd.1 (by simp)
    simp only [NumLit.absText] at h
    simp only [stod, h1, h2] at h
    by_cases hip : ip = []
    · simp [hip] at h
    · simp [NumLit.lax, hd.1, hip]
  | some f =>
    obtain ⟨h1, h2⟩ := takeWhile_digits ip ('.' :: f) hd.1 (by simp; decide)
    obtain ⟨h3, _⟩ := takeWhile_digits f [] hd.2 (by simp)
    simp only [List.append_nil] at h3
    simp only [NumLit.absText] at h
    simp only [stod, h1, h2, h3] at h
    by_cases hip : ip = [] ∧ f = []
    · simp [hip] at h
    · have : ip ≠ [] ∨ f ≠ [] := by
        by_cases h1 : ip = []
        · exact Or.inr (fun h2 => hip ⟨h1, h2⟩)
        · exact Or.inl h1
      have hf : f.all isdigit = true := hd.2
      rcases this with h5 | h5
      · simp [NumLit.lax, hd.1, hf, h5]
      · simp [NumLit.lax, hd.1, hf, h5]

theorem parse_number_tail_inv (s : Str) (pos2 : Nat) (neg : Bool) (v : Dbl) (q : Nat)
    (h : (match s[pos2]? with
      | none => (Except.error CalcError.expectedDigit : Except CalcError (Dbl × Nat))
      | some c =>
        if (!isdigit c && decide (c ≠ '.')) = true then Except.error CalcError.expectedDigit
        else
          match stod (substr s pos2 (numberLoop s s.length pos2 false - pos2)) with
          | none => Except.error CalcError.invalidNumberFormat
          | some value =>
            Except.ok (if neg = true then value.neg else value,
              numberLoop s s.length pos2 false)) = Except.ok (v, q)) :
    ∃ n : NumLit, n.digitsOk = true ∧ (∃ value, stod n.absText = some value) ∧
      s.drop pos2 = n.absText ++ s.drop q := by
  cases hc : s[pos2]? with
  | none => simp [hc] at h
  | some c =>
    simp only [hc] at h
    by_cases hcc : (!isdigit c && decide (c ≠ '.')) = true
    · rw [if_pos hcc] at h; cases h
    · rw [if_neg hcc] at h
      obtain ⟨n, _, hn1, hn2, hn3⟩ := numberLoop_inv s s.length pos2
      rw [hn2] at h
      simp only [Nat.add_sub_cancel_left] at h
      have hsub : substr s pos2 n.absText.length = n.absText := by
        unfold substr
        rw [hn3]
        simp
      rw [hsub] at h
      cases hst : stod n.absText with
      | none => simp [hst] at h
      | some value =>
        simp only [hst, Except.ok.injEq, Prod.mk.injEq] at h
        refine ⟨n, hn1, ⟨value, hst⟩, ?_⟩
        rw [← h.2]
        exact hn3

theorem parse_number_inv (s : Str) (p : Nat) (v : Dbl) (q : Nat)
    (h : parse_number s p = Except.ok (v, q)) :
    ∃ (ws : Str) (n : NumLit), ws.all isspace = true ∧ n.lax = true ∧
      s.drop p = ws ++ (n.text ++ s.drop q) := by
  obtain ⟨ws, hws, hdrop⟩ := skip_spaces_inv s p
  unfold parse_number at h
  cases hc0 : s[skip_spaces s p]? with
  | none => simp [hc0] at h
  | some c0 =>
    by_cases hneg : c0 = '-'
    · subst hneg
      obtain ⟨n, hn1, ⟨value, hst⟩, hn3⟩ :=
        parse_number_tail_inv s (skip_spaces s p + 1) true v q (by simpa [hc0] using h)
      refine ⟨ws, ⟨true, n.ip, n.fp⟩, hws, stod_some_lax n hn1 value hst true, ?_⟩
      rw [hdrop, drop_of_getElem? s _ _ hc0, hn3]
      simp [NumLit.text, NumLit.absText]
    · obtain ⟨n, hn1, ⟨value, hst⟩, hn3⟩ :=
        parse_number_tail_inv s (skip_spaces s p) false v q (by simpa [hc0, hneg] using h)
      refine ⟨ws, ⟨false, n.ip, n.fp⟩, hws, stod_some_lax n hn1 value hst false, ?_⟩
      rw [hdrop, hn3]
      simp [NumLit.text, NumLit.absText]

theorem parse_factor_inv (s : Str) (p : Nat) (v : Dbl) (q : Nat)
    (h : parse_factor s p = Except.ok (v, q)) :
    ∃ (ws : Str) (n : NumLit), ws.all isspace = true ∧ n.lax = true ∧
      s.drop p = ws ++ (n.text ++ s.drop q) := by
  obtain ⟨ws1, hws1, hdrop⟩ := skip_spaces_inv s p
  obtain ⟨ws2, n, hws2, hn, hd2⟩ := parse_number_inv s _ v q h
  refine ⟨ws1 ++ ws2, n, by simp [hws1, hws2], hn, ?_⟩
  rw [hdrop, hd2]
  simp

theorem mulOp_char (c : Char) (h : ¬ (c ≠ '*' ∧ c ≠ '/' ∧ c ≠ '%')) : ∃ o : Op, o.char = c := by
  by_cases h1 : c = '*'
  · exact ⟨Op.mul, h1.symm⟩
  by_cases h2 : c = '/'
  · exact ⟨Op.div, h2.symm⟩
  by_cases h3 : c = '%'
  · exact ⟨Op.mod, h3.symm⟩
  exact absurd ⟨h1, h2, h3⟩ h

theorem termLoop_inv (s : Str) (fuel : Nat) : ∀ (lhs : Dbl) (p : Nat) (v : Dbl) (q : Nat),
    termLoop s fuel lhs p = Except.ok (v, q) →
    ∃ run : List Item, itemsLax run = true ∧ s.drop p = renderItems run ++ s.drop q := by
  induction fuel with
  | zero =>
    intro lhs p v q h
    simp only [termLoop, Except.ok.injEq, Prod.mk.injEq] at h
    exact ⟨[], rfl, by rw [h.2]; rfl⟩
  | succ f ih =>
    intro lhs p v q h
    unfold termLoop at h
    cases hc : s[p]? with
    | none =>
      simp only [hc, Except.ok.injEq, Prod.mk.injEq] at h
      exact ⟨[], rfl, by rw [h.2]; rfl⟩
    | some op =>
      simp only [hc] at h
      by_cases hcond : op ≠ '*' ∧ op ≠ '/' ∧ op ≠ '%'
      · rw [if_pos hcond] at h
        simp only [Except.ok.injEq, Prod.mk.injEq] at h
        exact ⟨[], rfl, by rw [h.2]; rfl⟩
      · rw [if_neg hcond] at h
        obtain ⟨o, ho⟩ := mulOp_char op hcond
        cases hpf : parse_factor s (p + 1) with
        | error e => simp [hpf] at h
        | ok r =>
          obtain ⟨rhs, pos1⟩ := r
          simp only [hpf] at h
          have key : ∃ lhs', termLoop s f lhs' (skip_spaces s pos1) = Except.ok (v, q) := by
            by_cases h1 : op = '*'
            · rw [if_pos h1] at h; exact ⟨_, h⟩
            · rw [if_neg h1] at h
              by_cases h2 : op = '/'
              · rw [if_pos h2] at h
                by_cases hz : rhs.abs.lt Dbl.epsilon = true
                · rw [if_pos hz] at h; cases h
                · rw [if_neg hz] at h; exact ⟨_, h⟩
              · rw [if_neg h2] at h
                by_cases hz : rhs.abs.lt Dbl.epsilon = true
                · rw [if_pos hz] at h; cases h
                · rw [if_neg hz] at h; exact ⟨_, h⟩
          obtain ⟨lhs', hk⟩ := key
          obtain ⟨run, hrun, hdrop⟩ := ih lhs' _ v q hk
          obtain ⟨ws1, n, hws1, hn, hd1⟩ := parse_factor_inv s (p + 1) rhs pos1 hpf
          obtain ⟨ws2, hws2, hd2⟩ := skip_spaces_inv s pos1
          refine ⟨⟨o, ws1, n, ws2⟩ :: run, ?_, ?_⟩
          · simp only [itemsLax, List.all_cons, Bool.and_eq_true, Item.spaced] at hrun ⊢
            exact ⟨⟨⟨hws1, hws2⟩, hrun.1⟩, ⟨hn, hrun.2⟩⟩
          · rw [drop_of_getElem? s p op hc, hd1, hd2, hdrop]
            simp [renderItems, Item.render, ho]

theorem parse_term_inv (s : Str) (p : Nat) (v : Dbl) (q : Nat)
    (h : parse_term s p = Except.ok (v, q)) :
    ∃ t : Expr, t.lax = true ∧ s.drop p = t.render ++ s.drop q := by
  unfold parse_term at h
  cases hpf : parse_factor s p with
  | error e => simp [hpf] at h
  | ok r =>
    obtain ⟨lhs, pos1⟩ := r
    simp only [hpf] at h
    obtain ⟨ws0, n, hws0, hn, hd0⟩ := parse_factor_inv s p lhs pos1 hpf
    obtain ⟨ws1, hws1, hd1⟩ := skip_spaces_inv s pos1
    obtain ⟨run, hrun, hd2⟩ := termLoop_inv s _ _ _ v q h
    refine ⟨⟨ws0, n, ws1, run⟩, ?_, ?_⟩
    · simp only [itemsLax, Bool.and_eq_true] at hrun
      simp only [Expr.lax, Expr.spaced, Bool.and_eq_true]
      exact ⟨⟨⟨⟨hws0, hws1⟩, hrun.1⟩, hn⟩, hrun.2⟩
    · rw [hd0, hd1, hd2]
      simp [Expr.render]

theorem parse_number_err (s : Str) (p : Nat) (e : CalcError)
    (h : parse_number s p = Except.error e) : e.isParseError = true := by
  unfold parse_number at h
  cases hc0 : s[skip_spaces s p]? with
  | none => simp only [hc0, Except.error.injEq] at h; rw [← h]; rfl
  | some c0 =>
    simp only [hc0] at h
    split at h
    · simp only [Except.error.injEq] at h; rw [← h]; rfl
    · split at h
      · simp only [Except.error.injEq] at h; rw [← h]; rfl
      · split at h
        · simp only [Except.error.injEq] at h; rw [← h]; rfl
        · cases h

theorem termLoop_err (s : Str) (fuel : Nat) : ∀ (lhs : Dbl) (p : Nat) (e : CalcError),
    termLoop s fuel lhs p = Except.error e → e.isParseError = true := by
  induction fuel with
  | zero => intro lhs p e h; simp [termLoop] at h
  | succ f ih =>
    intro lhs p e h
    unfold termLoop at h
    split at h
    · cases h
    · split at h
      · cases h
      · split at h
        · rename_i e' hpf
          simp only [Except.error.injEq] at h
          rw [← h]
          exact parse_number_err s _ e' hpf
        · split at h
          · exact ih _ _ e h
          · split at h
            · split at h
              · simp only [Except.error.injEq] at h; rw [← h]; rfl
              · exact ih _ _ e h
            · split at h
              · simp only [Except.error.injEq] at h; rw [← h]; rfl
              · exact ih _ _ e h

theorem parse_term_err (s : Str) (p : Nat) (e : CalcError)
    (h : parse_term s p = Except.error e) : e.isParseError = true := by
  unfold parse_term at h
  split at h
  · rename_i e' hpf
    simp only [Except.error.injEq] at h
    rw [← h]
    exact parse_number_err s _ e' hpf
  · exact termLoop_err s _ _ _ e h

theorem exprLoop_err (s : Str) (fuel : Nat) : ∀ (lhs : Dbl) (p : Nat) (e : CalcError),
    exprLoop s fuel lhs p = Except.error e → e.isParseError = true := by
  induction fuel with
  | zero => intro lhs p e h; simp [exprLoop] at h
  | succ f ih =>
    intro lhs p e h
    unfold exprLoop at h
    split at h
    · cases h
    · split at h
      · cases h
      · split at h
        · rename_i e' hpt
          simp only [Except.error.injEq] at h
          rw [← h]
          exact parse_term_err s _ e' hpt
        · split at h
          · exact ih _ _ e h
          · exact ih _ _ e h

theorem parse_expression_err (s : Str) (p : Nat) (e : CalcError)
    (h : parse_expression s p = Except.error e) : e.isParseError = true := by
  unfold parse_expression at h
  split at h
  · rename_i e' hpt
    simp only [Except.error.injEq] at h
    rw [← h]
    exact parse_term_err s _ e' hpt
  · exact exprLoop_err s _ _ _ e h

theorem render_ne_nil (e : Expr) (he : e.lexical = true) : e.render ≠ [] := by
  simp only [Expr.lexical, Bool.and_eq_true] at he
  have := text_ne_nil e.first he.1.2
  cases h1 : e.first.text with
  | nil => exact absurd h1 this
  | cons c t => cases h0 : e.ws0 <;> simp [Expr.render, h1, h0]

theorem getElem?_none_of_le (s : Str) (p : Nat) (h : s.length - p ≤ 0) : s[p]? = none := by
  apply List.getElem?_eq_none
  omega

theorem lt_of_getElem?_some (s : Str) (p : Nat) (c : Char) (h : s[p]? = some c) :
    p < s.length := by
  by_contra hlt
  rw [List.getElem?_eq_none (by omega)] at h
  cases h

theorem skipLoop_fuel (s : Str) (fuel : Nat) : ∀ p, s.length - p ≤ fuel →
    skipLoop s (fuel + 1) p = skipLoop s fuel p := by
  induction fuel with
  | zero => intro p h; simp [skipLoop, getElem?_none_of_le s p h]
  | succ f ih =>
    intro p h
    conv => lhs; unfold skipLoop
    conv => rhs; unfold skipLoop
    cases hc : s[p]? with
    | none => rfl
    | some c =>
      have := lt_of_getElem?_some s p c hc
      simp only
      rw [ih (p + 1) (by omega)]

theorem numberLoop_fuel (s : Str) (fuel : Nat) : ∀ p hd, s.length - p ≤ fuel →
    numberLoop s (fuel + 1) p hd = numberLoop s fuel p hd := by
  induction fuel with
  | zero => intro p hd h; simp [numberLoop, getElem?_none_of_le s p h]
  | succ f ih =>
    intro p hd h
    conv => lhs; unfold numberLoop
    conv => rhs; unfold numberLoop
    cases hc : s[p]? with
    | none => rfl
    | some c =>
      have := lt_of_getElem?_some s p c hc
      simp only
      rw [ih (p + 1) _ (by omega)]

theorem skip_spaces_measure (s : Str) (p : Nat) : s.length - skip_spaces s p ≤ s.length - p := by
  obtain ⟨ws, _, h⟩ := skip_spaces_inv s p
  have := congrArg List.length h
  simp only [List.length_drop, List.length_append] at this
  omega

theorem parse_factor_measure (s : Str) (p : Nat) (v : Dbl) (q : Nat)
    (h : parse_factor s p = Except.ok (v, q)) : s.length - q ≤ s.length - p := by
  obtain ⟨ws, n, _, _, hd⟩ := parse_factor_inv s p v q h
  have := congrArg List.length hd
  simp only [List.length_drop, List.length_append] at this
  omega

theorem termLoop_fuel (s : Str) (fuel : Nat) : ∀ lhs p, s.length - p ≤ fuel →
    termLoop s (fuel + 1) lhs p = termLoop s fuel lhs p := by
  induction fuel with
  | zero => intro lhs p h; simp [termLoop, getElem?_none_of_le s p h]
  | succ f ih =>
    intro lhs p h
    conv => lhs; unfold termLoop
    conv => rhs; unfold termLoop
    cases hc : s[p]? with
    | none => rfl
    | some op =>
      have hp := lt_of_getElem?_some s p op hc
      simp only
      cases hpf : parse_factor s (p + 1) with
      | error e => rfl
      | ok r =>
        obtain ⟨rhs, pos1⟩ := r
        have h1 := parse_factor_measure s (p + 1) rhs pos1 hpf
        have h2 := skip_spaces_measure s pos1
        have hm : s.length - skip_spaces s pos1 ≤ f := by omega
        simp only [ih _ _ hm]

theorem termLoop_measure (s : Str) (fuel : Nat) (lhs : Dbl) (p : Nat) (v : Dbl) (q : Nat)
    (h : termLoop s fuel lhs p = Except.ok (v, q)) : s.length - q ≤ s.length - p := by
  obtain ⟨run, _, hd⟩ := termLoop_inv s fuel lhs p v q h
  have := congrArg List.length hd
  simp only [List.length_drop, List.length_append] at this
  omega

theorem parse_term_measure (s : Str) (p : Nat) (v : Dbl) (q : Nat)
    (h : parse_term s p = Except.ok (v, q)) : s.length - q ≤ s.length - p := by
  obtain ⟨t, _, hd⟩ := parse_term_inv s p v q h
  have := congrArg List.length hd
  simp only [List.length_drop, List.length_append] at this
  omega

theorem exprLoop_fuel (s : Str) (fuel : Nat) : ∀ lhs p, s.length - p ≤ fuel →
    exprLoop s (fuel + 1) lhs p = exprLoop s fuel lhs p := by
  induction fuel with
  | zero => intro lhs p h; simp [exprLoop, getElem?_none_of_le s p h]
  | succ f ih =>
    intro lhs p h
    conv => lhs; unfold exprLoop
    conv => rhs; unfold exprLoop
    cases hc : s[p]? with
    | none => rfl
    | some op =>
      have hp := lt_of_getElem?_some s p op hc
      simp only
      cases hpt : parse_term s (p + 1) with
      | error e => rfl
      | ok r =>
        obtain ⟨rhs, pos1⟩ := r
        have h1 := parse_term_measure s (p + 1) rhs pos1 hpt
        have h2 := skip_spaces_measure s pos1
        have hm : s.length - skip_spaces s pos1 ≤ f := by omega
        simp only [ih _ _ hm]

/-- The bound of the loops of the evaluator is adequate: with any larger bound
`skip_spaces`, the digit loop and the loops of `parse_term` and
`parse_expression` give the same result. -/
theorem loop_bounds_adequate (s : Str) (extra : Nat) :
    (∀ p, skipLoop s (s.length + extra) p = skipLoop s s.length p) ∧
    (∀ p hd, numberLoop s (s.length + extra) p hd = numberLoop s s.length p hd) ∧
    (∀ lhs p, termLoop s (s.length + extra) lhs p = termLoop s s.length lhs p) ∧
    (∀ lhs p, exprLoop s (s.length + extra) lhs p = exprLoop s s.length lhs p) := by
  induction extra with
  | zero => exact ⟨fun _ => rfl, fun _ _ => rfl, fun _ _ => rfl, fun _ _ => rfl⟩
  | succ k ih =>
    obtain ⟨h1, h2, h3, h4⟩ := ih
    refine ⟨fun p => ?_, fun p hd => ?_, fun lhs p => ?_, fun lhs p => ?_⟩
    · rw [← Nat.add_assoc, skipLoop_fuel s _ p (by omega), h1]
    · rw [← Nat.add_assoc, numberLoop_fuel s _ p hd (by omega), h2]
    · rw [← Nat.add_assoc, termLoop_fuel s _ lhs p (by omega), h3]
    · rw [← Nat.add_assoc, exprLoop_fuel s _ lhs p (by omega), h4]

theorem foldl_decimal (cs : Str) : ∀ a : Nat,
    cs.foldl (fun acc c => acc * 10 + digitVal c) a =
      a * 10 ^ cs.length + cs.foldl (fun acc c => acc * 10 + digitVal c) 0 := by
  induction cs with
  | nil => intro a; simp
  | cons c cs ih =>
    intro a
    simp only [List.foldl_cons, List.length_cons]
    rw [ih (a * 10 + digitVal c), ih (0 * 10 + digitVal c)]
    ring

theorem decimalValue_cons (c : Char) (cs : Str) :
    decimalValue (c :: cs) = digitVal c * 10 ^ cs.length + decimalValue cs := by
  simp only [decimalValue, List.foldl_cons]
  rw [foldl_decimal cs (0 * 10 + digitVal c)]
  simp

theorem digitVal_digitChar (d : Nat) (h : d < 10) : digitVal (digitChar d) = d := by
  interval_cases d <;> decide

theorem natDigitsAux_value (fuel : Nat) : ∀ (n : Nat) (acc : Str), n < 10 ^ fuel →
    decimalValue (natDigitsAux fuel n acc) = n * 10 ^ acc.length + decimalValue acc := by
  induction fuel with
  | zero =>
    intro n acc h
    have : n = 0 := by simpa using h
    simp [natDigitsAux, this]
  | succ f ih =>
    intro n acc h
    simp only [natDigitsAux]
    by_cases hn : n < 10
    · simp only [hn, if_true]
      rw [decimalValue_cons, digitVal_digitChar n hn]
    · simp only [hn, if_false]
      have h1 : n / 10 < 10 ^ f := by
        rw [Nat.div_lt_iff_lt_mul (by decide)]
        rw [Nat.pow_succ] at h
        exact h
      rw [ih (n / 10) _ h1, decimalValue_cons, digitVal_digitChar _ (Nat.mod_lt _ (by decide))]
      simp only [List.length_cons, Nat.pow_succ]
      have h2 := Nat.div_add_mod n 10
      calc n / 10 * (10 ^ acc.length * 10) + (n % 10 * 10 ^ acc.length + decimalValue acc)
          = (10 * (n / 10) + n % 10) * 10 ^ acc.length + decimalValue acc := by ring
        _ = n * 10 ^ acc.length + decimalValue acc := by rw [h2]

/-- The decimal digits `std::to_string` writes denote the number written: the
bound of the digit loop is adequate. -/
theorem decimalValue_to_string (n : Nat) : decimalValue (to_string n) = n := by
  have h : n < 10 ^ (n + 1) := by
    calc n < 2 ^ n := Nat.lt_two_pow n
      _ ≤ 10 ^ n := Nat.pow_le_pow_left (by decide) n
      _ ≤ 10 ^ (n + 1) := Nat.pow_le_pow_right (by decide) (Nat.le_succ n)
  have := natDigitsAux_value (n + 1) n [] h
  simpa [to_string, decimalValue] using this

/-! ## Claim C11: evaluator errors on the server -/

theorem recvLoop_eq (recvs : List RecvResult) : ∀ (c : Client) (ctl : Option Interest),
    recvFails recvs = false →
    ∃ ctl1, recvLoop c ctl recvs = some ((recvChunks recvs).foldl onData c, ctl1) := by
  induction recvs with
  | nil => intro c ctl _; exact ⟨ctl, rfl⟩
  | cons r recvs ih =>
    intro c ctl hf
    cases r with
    | bytes b =>
      by_cases hb : 0 < b.length
      · simp only [recvFails, hb, if_true] at hf
        simp only [recvLoop, recvChunks, hb, if_true, List.foldl_cons]
        exact ih _ _ hf
      · simp only [recvLoop, recvChunks, hb, if_false, List.foldl_nil]
        exact ⟨ctl, rfl⟩
    | wouldBlock => exact ⟨ctl, rfl⟩
    | error => simp [recvFails] at hf

theorem recvLoop_fails (recvs : List RecvResult) : ∀ (c : Client) (ctl : Option Interest),
    recvFails recvs = true → recvLoop c ctl recvs = none := by
  induction recvs with
  | nil => intro c ctl hf; simp [recvFails] at hf
  | cons r recvs ih =>
    intro c ctl hf
    cases r with
    | bytes b =>
      by_cases hb : 0 < b.length
      · simp only [recvFails, hb, if_true] at hf
        simp only [recvLoop, hb, if_true]
        exact ih _ _ hf
      · simp [recvFails, hb] at hf
    | wouldBlock => simp [recvFails] at hf
    | error => rfl

theorem foldl_onData_flatten (chunks : List Str) (c : Client) (h : chunks ≠ []) :
    chunks.foldl onData c = onData c chunks.flatten := by
  cases chunks with
  | nil => exact absurd rfl h
  | cons b rest => simp only [List.foldl_cons, List.flatten_cons, foldl_onData]

theorem answers_error (t : Str) (e : CalcError) (ht : t ≠ []) (he : calculate t = Except.error e) :
    answers [t] = "Error: ".toList ++ (e.what ++ ['\n']) := by
  simp [answers, ht, response, he]

/-- C11: evaluator errors are answered and do not end the connection.  Take a
readable event whose `recv` calls deliver some bytes and do not fail, and a
token `t` of the stream (input buffer followed by the bytes received) whose
evaluation fails with `e`, with the tokens `pre` before it and `post` after it.
The connection stays in the table, its `closing` flag and send cursor are as
before, and its output buffer has gained the answers to `pre`, then the line
`Error: ` with the text of `e`, then the answers to `post`: the later tokens
are evaluated too.  So `3/0 2+2 ` yields the error line followed by `4.00`. -/
theorem evaluator_errors_nonfatal :
    (∀ (c : Client) (recvs : List RecvResult) (sends : List SendResult)
        (pre post : List Str) (t : Str) (e : CalcError),
      recvFails recvs = false → recvChunks recvs ≠ [] →
      (splitStream (c.in_buf ++ (recvChunks recvs).flatten)).1 = pre ++ t :: post →
      t ≠ [] → calculate t = Except.error e →
      ∃ c1, (handleClient c Events.readable recvs sends).client = some c1 ∧
        c1.closing = c.closing ∧ c1.out_sent = c.out_sent ∧
        c1.in_buf = (splitStream (c.in_buf ++ (recvChunks recvs).flatten)).2 ∧
        c1.out_buf = c.out_buf ++
          (answers pre ++ (("Error: ".toList ++ (e.what ++ ['\n'])) ++ answers post))) ∧
    handleClient Client.fresh Events.readable [RecvResult.bytes "3/0 2+2 ".toList] [] =
      { client := some { in_buf := [], out_buf := "Error: Division by zero\n4.00\n".toList,
                         out_sent := 0, closing := false },
        sent := [], ctl := some Interest.writable } := by
  refine ⟨?_, by decide⟩
  intro c recvs sends pre post t e hf hne hsplit ht he
  obtain ⟨ctl1, h⟩ := recvLoop_eq recvs c none hf
  refine ⟨onData c (recvChunks recvs).flatten, ?_, ?_⟩
  · simp [handleClient, Events.readable, h, foldl_onData_flatten _ c hne]
  · rw [onData_eq, hsplit]
    refine ⟨rfl, rfl, rfl, ?_⟩
    have h1 : pre ++ t :: post = pre ++ ([t] ++ post) := rfl
    simp only [h1, answers_append, answers_error t e ht he]

/-- Witness of C11: the bytes `3/0 2+2 ` on a fresh connection; the token `3/0` fails. -/
theorem evaluator_errors_nonfatal_witness :
    ∃ c1, (handleClient Client.fresh Events.readable
          [RecvResult.bytes "3/0 2+2 ".toList] []).client = some c1 ∧
      c1.closing = Client.fresh.closing ∧ c1.out_sent = Client.fresh.out_sent ∧
      c1.in_buf = (splitStream (Client.fresh.in_buf ++
        (recvChunks [RecvResult.bytes "3/0 2+2 ".toList]).flatten)).2 ∧
      c1.out_buf = Client.fresh.out_buf ++
        (answers [] ++ (("Error: ".toList ++ (CalcError.divisionByZero.what ++ ['\n'])) ++
          answers ["2+2".toList])) :=
  evaluator_errors_nonfatal.1 Client.fresh [RecvResult.bytes "3/0 2+2 ".toList] []
    [] ["2+2".toList] "3/0".toList CalcError.divisionByZero (by decide) (by decide) (by decide)
    (by decide) (by decide)

/-! ## Claim C12: the send cursor -/

theorem onData_frame (c : Client) (b : Str) :
    (onData c b).out_sent = c.out_sent ∧ (onData c b).closing = c.closing ∧
      ∃ x, (onData c b).out_buf = c.out_buf ++ x := by
  rw [onData_eq]
  exact ⟨rfl, rfl, _, rfl⟩

theorem recvLoop_frame (recvs : List RecvResult) : ∀ (c : Client) (ctl : Option Interest)
    (c1 : Client) (ctl1 : Option Interest), recvLoop c ctl recvs = some (c1, ctl1) →
    c1.out_sent = c.out_sent ∧ c1.closing = c.closing ∧ ∃ x, c1.out_buf = c.out_buf ++ x := by
  induction recvs with
  | nil =>
    intro c ctl c1 ctl1 h
    simp only [recvLoop, Option.some.injEq, Prod.mk.injEq] at h
    rw [← h.1]
    exact ⟨rfl, rfl, [], by simp⟩
  | cons r recvs ih =>
    intro c ctl c1 ctl1 h
    cases r with
    | bytes b =>
      by_cases hb : 0 < b.length
      · simp only [recvLoop, hb, if_true] at h
        obtain ⟨h1, h2, x, h3⟩ := ih _ _ _ _ h
        obtain ⟨g1, g2, y, g3⟩ := onData_frame c b
        exact ⟨by rw [h1, g1], by rw [h2, g2], y ++ x, by rw [h3, g3, List.append_assoc]⟩
      · simp only [recvLoop, hb, if_false, Option.some.injEq, Prod.mk.injEq] at h
        rw [← h.1]
        exact ⟨rfl, rfl, [], by simp⟩
    | wouldBlock =>
      simp only [recvLoop, Option.some.injEq, Prod.mk.injEq] at h
      rw [← h.1]
      exact ⟨rfl, rfl, [], by simp⟩
    | error => simp [recvLoop] at h

theorem pending_advance (c : Client) (k : Nat) :
    substr c.out_buf c.out_sent k ++ (c.out_buf.drop (c.out_sent + k)) = c.pending := by
  simp only [substr, Client.pending]
  rw [← List.drop_drop, List.take_append_drop]

/-- What the `send` loop keeps: the buffers and the flag, the bound on the cursor,
and the bytes sent followed by the bytes still pending. -/
theorem sendLoop_some (sends : List SendResult) : ∀ (c : Client) (acc : Str) (c1 : Client)
    (acc1 : Str), c.out_sent ≤ c.out_buf.length → sendLoop c acc sends = (some c1, acc1) →
    c1.in_buf = c.in_buf ∧ c1.out_buf = c.out_buf ∧ c1.closing = c.closing ∧
      c1.out_sent ≤ c1.out_buf.length ∧ acc1 ++ c1.pending = acc ++ c.pending := by
  induction sends with
  | nil =>
    intro c acc c1 acc1 hc h
    simp only [sendLoop, Prod.mk.injEq, Option.some.injEq] at h
    rw [← h.1, ← h.2]
    exact ⟨rfl, rfl, rfl, hc, rfl⟩
  | cons r sends ih =>
    intro c acc c1 acc1 hc h
    by_cases hlt : c.out_sent < c.out_buf.length
    · cases r with
      | accepted n =>
        by_cases hk : 0 < min n (c.out_buf.length - c.out_sent)
        · simp only [sendLoop, hlt, if_true, hk] at h
          have hle : c.out_sent + min n (c.out_buf.length - c.out_sent) ≤ c.out_buf.length := by
            have := Nat.min_le_right n (c.out_buf.length - c.out_sent)
            omega
          obtain ⟨h1, h2, h3, h4, h5⟩ := ih _ _ _ _ hle h
          refine ⟨h1, h2, h3, h4, ?_⟩
          rw [h5, List.append_assoc]
          congr 1
          exact pending_advance c _
        · simp [sendLoop, hlt, hk] at h
      | wouldBlock =>
        simp only [sendLoop, hlt, if_true, Prod.mk.injEq, Option.some.injEq] at h
        rw [← h.1, ← h.2]
        exact ⟨rfl, rfl, rfl, hc, rfl⟩
      | error => simp [sendLoop, hlt] at h
    · simp only [sendLoop, hlt, if_false, Prod.mk.injEq, Option.some.injEq] at h
      rw [← h.1, ← h.2]
      exact ⟨rfl, rfl, rfl, hc, rfl⟩

theorem response_ne_nil (expr : Str) : response expr ≠ [] := by
  unfold response
  cases calculate expr <;> simp

/-- The `EPOLLRDHUP` branch by cases on the two buffers. -/
theorem handleRdhup_eq (c : Client) :
    handleRdhup c =
      if c.in_buf ≠ [] then
        { client := some { in_buf := [], out_buf := c.out_buf ++ response c.in_buf,
                           out_sent := c.out_sent, closing := true },
          sent := [], ctl := some Interest.writable }
      else if c.out_buf = [] then { client := none, sent := [], ctl := none }
      else { client := some { c with closing := true }, sent := [],
             ctl := some Interest.writable } := by
  by_cases hi : c.in_buf = []
  · by_cases ho : c.out_buf = [] <;> simp [handleRdhup, hi, ho]
  · simp [handleRdhup, hi, response_ne_nil]

theorem handleRdhup_cursor (c c1 : Client) (hc : c.out_sent ≤ c.out_buf.length)
    (h : (handleRdhup c).client = some c1) : c1.out_sent ≤ c1.out_buf.length := by
  rw [handleRdhup_eq] at h
  by_cases hi : c.in_buf = []
  · by_cases ho : c.out_buf = []
    · simp [hi, ho] at h
    · simp only [hi, ne_eq, not_true_eq_false, if_false, ho, Option.some.injEq] at h
      rw [← h]
      exact hc
  · simp only [hi, ne_eq, not_false_eq_true, if_true, Option.some.injEq] at h
    rw [← h]
    simp only [List.length_append]
    omega

theorem handleOut_cursor (c c1 : Client) (ctl : Option Interest) (sends : List SendResult)
    (hc : c.out_sent ≤ c.out_buf.length) (h : (handleOut c ctl sends).client = some c1) :
    c1.out_sent ≤ c1.out_buf.length := by
  simp only [handleOut] at h
  cases hs : sendLoop c [] sends with
  | mk oc acc =>
    rw [hs] at h
    cases oc with
    | none => cases h
    | some c2 =>
      obtain ⟨_, _, _, h4, _⟩ := sendLoop_some sends c [] c2 acc hc hs
      simp only at h
      split at h
      · split at h
        · cases h
        · simp only [Option.some.injEq] at h
          rw [← h]
          exact Nat.le_refl _
      · simp only [Option.some.injEq] at h
        rw [← h]
        exact h4

theorem handleClient_cursor (c c1 : Client) (ev : Events) (recvs : List RecvResult)
    (sends : List SendResult) (hc : c.out_sent ≤ c.out_buf.length)
    (h : (handleClient c ev recvs sends).client = some c1) :
    c1.out_sent ≤ c1.out_buf.length := by
  simp only [handleClient] at h
  split at h
  · cases h
  · split at h
    · exact handleRdhup_cursor c c1 hc h
    · split at h
      · cases h
      · rename_i c2 ctl heq
        have hc2 : c2.out_sent ≤ c2.out_buf.length := by
          by_cases hin : ev.epollin = true
          · rw [if_pos hin] at heq
            obtain ⟨h1, _, x, h3⟩ := recvLoop_frame recvs c none c2 ctl heq
            rw [h1, h3, List.length_append]
            omega
          · rw [if_neg hin] at heq
            simp only [Option.some.injEq, Prod.mk.injEq] at heq
            rw [← heq.1]
            exact hc
        split at h
        · exact handleOut_cursor c2 c1 ctl sends hc2 h
        · simp only [Option.some.injEq] at h
          rw [← h]
          exact hc2

theorem runSteps_cursor (steps : List Step) : ∀ (c : Client) (acc : Str) (c1 : Client)
    (acc1 : Str), c.out_sent ≤ c.out_buf.length → runSteps (some c) acc steps = (some c1, acc1) →
    c1.out_sent ≤ c1.out_buf.length := by
  induction steps with
  | nil =>
    intro c acc c1 acc1 hc h
    simp only [runSteps, Prod.mk.injEq, Option.some.injEq] at h
    rw [← h.1]
    exact hc
  | cons st steps ih =>
    intro c acc c1 acc1 hc h
    simp only [runSteps] at h
    cases ho : (handleClient c st.ev st.recvs st.sends).client with
    | none =>
      rw [ho, runSteps_none] at h
      simp at h
    | some c2 =>
      rw [ho] at h
      exact ih c2 _ c1 acc1 (handleClient_cursor c c2 _ _ _ hc ho) h

/-- C12: the send-cursor invariant.  Whatever events (readable, half-close,
writable, in any combination) a freshly accepted connection has seen, and whatever
the `recv` and `send` calls returned, a connection still in the table has
`out_sent` at most the length of `out_buf`. -/
theorem send_cursor_invariant (steps : List Step) (c : Client) (acc : Str)
    (h : runSteps (some Client.fresh) [] steps = (some c, acc)) :
    c.out_sent ≤ c.out_buf.length :=
  runSteps_cursor steps Client.fresh [] c acc (Nat.le_refl _) h

/-- Witness of C12: `2+2 3*3 ` is received, then a writable event sends three
bytes of the ten pending. -/
theorem send_cursor_invariant_witness :
    (3 : Nat) ≤ "4.00\n9.00\n".toList.length :=
  send_cursor_invariant
    [readStep ["2+2 3*3 ".toList],
      { ev := Events.writable, recvs := [], sends := [SendResult.accepted 3] }]
    { in_buf := [], out_buf := "4.00\n9.00\n".toList, out_sent := 3, closing := false }
    "4.0".toList (by decide)

/-! ## Claim C13: connections do not affect each other -/

theorem handle_client_data_frame (clients : Table) (a b : Int) (ev : Events)
    (recvs : List RecvResult) (sends : List SendResult) (hab : b ≠ a) :
    (handle_client_data clients a ev recvs sends).1 b = clients b := by
  unfold handle_client_data
  cases clients a with
  | none => rfl
  | some c => simp [hab]

theorem handle_client_data_self (clients : Table) (a : Int) (c : Client) (ev : Events)
    (recvs : List RecvResult) (sends : List SendResult) (ha : clients a = some c) :
    (handle_client_data clients a ev recvs sends).1 a = (handleClient c ev recvs sends).client ∧
      (handle_client_data clients a ev recvs sends).2 = (handleClient c ev recvs sends).sent := by
  unfold handle_client_data
  rw [ha]
  simp

theorem handle_client_data_absent (clients : Table) (a : Int) (ev : Events)
    (recvs : List RecvResult) (sends : List SendResult) (ha : clients a = none) :
    handle_client_data clients a ev recvs sends = (clients, []) := by
  unfold handle_client_data
  rw [ha]

/-- A batch of events seen from one descriptor: its record and the bytes sent on
it are those of its own events alone. -/
theorem runEvents_project (evs : List (Int × Step)) : ∀ (clients : Table) (out : Int → Str)
    (b : Int), ((runEvents clients out evs).1 b, (runEvents clients out evs).2 b) =
      runSteps (clients b) (out b) (stepsOf b evs) := by
  induction evs with
  | nil => intro clients out b; cases h : clients b <;> simp [runEvents, stepsOf, runSteps, h]
  | cons e evs ih =>
    intro clients out b
    obtain ⟨fd, st⟩ := e
    simp only [runEvents]
    rw [ih]
    by_cases hfd : fd = b
    · subst hfd
      have hs : stepsOf fd ((fd, st) :: evs) = st :: stepsOf fd evs := by simp [stepsOf]
      rw [hs]
      cases hc : clients fd with
      | none =>
        rw [handle_client_data_absent clients fd _ _ _ hc, runSteps_none]
        simp [hc, runSteps_none]
      | some c =>
        obtain ⟨h1, h2⟩ := handle_client_data_self clients fd c st.ev st.recvs st.sends hc
        simp only [runSteps, if_true, h1, h2]
    · have hs : stepsOf b ((fd, st) :: evs) = stepsOf b evs := by simp [stepsOf, hfd]
      have hne : b ≠ fd := fun h => hfd h.symm
      rw [hs, handle_client_data_frame clients fd b _ _ _ hne]
      simp [hne]

/-- C13: connection isolation.  An event on descriptor `a` leaves the entry of
every other descriptor `b` as it was: the same record (both buffers, cursor and
flag), or no entry if there was none.  Hence, in any batch of events on any
descriptors, the record of `b` and the bytes sent on `b` are what the events of
`b` alone produce, in their order: the events of other connections, wherever they
are interleaved, do not matter. -/
theorem connection_isolation :
    (∀ (clients : Table) (a b : Int) (ev : Events) (recvs : List RecvResult)
        (sends : List SendResult), b ≠ a →
      (handle_client_data clients a ev recvs sends).1 b = clients b) ∧
    (∀ (evs : List (Int × Step)) (clients : Table) (out : Int → Str) (b : Int),
      ((runEvents clients out evs).1 b, (runEvents clients out evs).2 b) =
        runSteps (clients b) (out b) (stepsOf b evs)) :=
  ⟨fun clients a b ev recvs sends hab => handle_client_data_frame clients a b ev recvs sends hab,
    fun evs clients out b => runEvents_project evs clients out b⟩

/-- Witness of C13: descriptor 5 receives `2 ` and answers `3.00`; the entry of
descriptor 7 is as before. -/
theorem connection_isolation_witness :
    (handle_client_data twoClients 5 Events.readable [RecvResult.bytes "2 ".toList] []).1 7 =
      twoClients 7 :=
  connection_isolation.1 twoClients 5 7 Events.readable [RecvResult.bytes "2 ".toList] []
    (by decide)

/-! ## Response lines -/

theorem validate_characters_error (s : Str) (e : CalcError)
    (h : validate_characters s = Except.error e) :
    ∃ c, e = CalcError.invalidCharacter c ∧ allowedChar c = false := by
  induction s with
  | nil => simp [validate_characters] at h
  | cons a s ih =>
    simp only [validate_characters] at h
    by_cases ha : allowedChar a = true
    · rw [if_pos ha] at h
      exact ih h
    · rw [if_neg ha] at h
      simp only [Except.error.injEq] at h
      exact ⟨a, h.symm, by simpa using ha⟩

/-- The character an `Invalid character` exception of `calculate` names is not an
allowed one. -/
theorem calculate_error_char (s : Str) (c : Char)
    (h : calculate s = Except.error (CalcError.invalidCharacter c)) : allowedChar c = false := by
  unfold calculate at h
  split at h
  · cases h
  · split at h
    · rename_i e hv
      obtain ⟨c1, h1, h2⟩ := validate_characters_error s e hv
      simp only [Except.error.injEq] at h
      rw [h1] at h
      simp only [CalcError.invalidCharacter.injEq] at h
      rw [← h]
      exact h2
    · split at h
      · rename_i e hpe
        have hk := parse_expression_err s 0 e hpe
        simp only [Except.error.injEq] at h
        rw [h] at hk
        simp [CalcError.isParseError] at hk
      · simp only at h
        split at h
        · cases h
        · split at h <;> cases h

theorem digits_no_newline (ds : Str) (h : ds.all isdigit = true) : '\n' ∉ ds := by
  intro hmem
  have := List.all_eq_true.mp h '\n' hmem
  revert this
  decide

theorem to_string_no_newline (m : Nat) : '\n' ∉ to_string m :=
  digits_no_newline _ (natDigitsAux_digits (m + 1) m [] rfl)

theorem what_no_newline (s : Str) (e : CalcError) (h : calculate s = Except.error e) :
    '\n' ∉ e.what := by
  cases e with
  | invalidCharacter c =>
    have hc := calculate_error_char s c h
    have hne : c ≠ '\n' := by
      intro hc1
      rw [hc1] at hc
      revert hc
      decide
    simp only [CalcError.what]
    split
    · decide
    · simp only [List.mem_append, List.mem_singleton, not_or]
      exact ⟨by decide, fun h1 => hne h1.symm⟩
  | unexpectedCharacters pos =>
    simp only [CalcError.what, List.mem_append, not_or]
    exact ⟨by decide, to_string_no_newline pos⟩
  | emptyExpression => decide
  | expectedNumber => decide
  | expectedDigit => decide
  | invalidNumberFormat => decide
  | divisionByZero => decide
  | moduloByZero => decide
  | overflow => decide

theorem digitChar_ne_newline (d : Nat) (h : d < 10) : '\n' ≠ digitChar d := by
  interval_cases d <;> decide

theorem format_no_newline (d : Dbl) : '\n' ∉ format_double_2dp d := by
  cases d with
  | fin s k =>
    simp only [format_double_2dp, List.mem_append, List.mem_cons, List.mem_singleton,
      List.not_mem_nil, or_false, not_or]
    refine ⟨⟨?_, to_string_no_newline _⟩, by decide, ?_, ?_⟩
    · cases s <;> simp
    · exact digitChar_ne_newline _ (Nat.div_lt_of_lt_mul (Nat.mod_lt _ (by decide)))
    · exact digitChar_ne_newline _ (Nat.mod_lt _ (by decide))
  | inf s => cases s <;> decide
  | nan => decide

/-- A response is one line: a text without a newline, then the newline. -/
theorem response_line (t : Str) :
    ∃ body, response t = body ++ ['\n'] ∧ '\n' ∉ body ∧ (response t).count '\n' = 1 := by
  unfold response
  cases h : calculate t with
  | ok v =>
    refine ⟨format_double_2dp v, rfl, format_no_newline v, ?_⟩
    simp [List.count_append, List.count_eq_zero_of_not_mem (format_no_newline v)]
  | error e =>
    have hw := what_no_newline t e h
    have hb : '\n' ∉ "Error: ".toList ++ e.what := by
      simp only [List.mem_append, not_or]
      exact ⟨by decide, hw⟩
    refine ⟨"Error: ".toList ++ e.what, by simp, hb, ?_⟩
    have h1 : "Error: ".toList ++ (e.what ++ ['\n']) = ("Error: ".toList ++ e.what) ++ ['\n'] := by
      simp
    simp only [h1]
    rw [List.count_append, List.count_eq_zero_of_not_mem hb]
    rfl

/-! ## Claims C14 and C20: the half-close handler -/

theorem handleClient_rdhup (c : Client) (ev : Events) (recvs : List RecvResult)
    (sends : List SendResult) (hr : ev.epollrdhup = true) (he : ev.epollerr = false)
    (hh : ev.epollhup = false) : handleClient c ev recvs sends = handleRdhup c := by
  simp [handleClient, hr, he, hh]

/-- C14: the half-close handler.  On an event that reports the peer's shutdown
(and neither an error nor a hangup): a non-empty input buffer is emptied and the
response to its content, evaluated as one expression, is appended to the output
buffer; that response is one line, the result with two decimals or `Error: ` and
the message, ending in its only newline.  Afterwards a connection whose output
buffer is empty is closed and erased, and any other stays in the table with
`closing` set (and interest in writability); nothing is sent by this handler. -/
theorem half_close_handler (c : Client) (ev : Events) (recvs : List RecvResult)
    (sends : List SendResult) (hr : ev.epollrdhup = true) (he : ev.epollerr = false)
    (hh : ev.epollhup = false) :
    (c.in_buf ≠ [] →
      handleClient c ev recvs sends =
        { client := some { in_buf := [], out_buf := c.out_buf ++ response c.in_buf,
                           out_sent := c.out_sent, closing := true },
          sent := [], ctl := some Interest.writable } ∧
      (∃ body, response c.in_buf = body ++ ['\n'] ∧ '\n' ∉ body) ∧
      ((∃ v, calculate c.in_buf = Except.ok v ∧
          response c.in_buf = format_double_2dp v ++ ['\n']) ∨
        (∃ e, calculate c.in_buf = Except.error e ∧
          response c.in_buf = "Error: ".toList ++ (e.what ++ ['\n'])))) ∧
    (c.in_buf = [] → c.out_buf = [] →
      handleClient c ev recvs sends = { client := none, sent := [], ctl := none }) ∧
    (c.in_buf = [] → c.out_buf ≠ [] →
      handleClient c ev recvs sends =
        { client := some { c with closing := true }, sent := [],
          ctl := some Interest.writable }) := by
  rw [handleClient_rdhup c ev recvs sends hr he hh, handleRdhup_eq]
  refine ⟨fun hi => ⟨by rw [if_pos hi], ?_, ?_⟩, fun hi ho => ?_, fun hi ho => ?_⟩
  · obtain ⟨body, h1, h2, _⟩ := response_line c.in_buf
    exact ⟨body, h1, h2⟩
  · unfold response
    cases hc : calculate c.in_buf with
    | ok v => exact Or.inl ⟨v, rfl, rfl⟩
    | error e => exact Or.inr ⟨e, rfl, rfl⟩
  · simp [hi, ho]
  · simp [hi, ho]

/-- Witness of C14: the residue `2+2` behind a pending `9.00` line, on the event
`EPOLLIN | EPOLLRDHUP`. -/
theorem half_close_handler_witness :
    handleClient residueClient Events.readableRdhup [] [] =
      { client := some { in_buf := [],
                         out_buf := residueClient.out_buf ++ response residueClient.in_buf,
                         out_sent := residueClient.out_sent, closing := true },
        sent := [], ctl := some Interest.writable } :=
  ((half_close_handler residueClient Events.readableRdhup [] [] rfl rfl rfl).1 (by decide)).1

theorem calculate_blank (ws : Str) (hne : ws ≠ []) (hws : ws.all isspace = true) :
    calculate ws = Except.error CalcError.expectedNumber := by
  have hall : ws.all allowedChar = true := allowed_of_space ws hws
  have h0 : skip_spaces ws 0 = ws.length := by
    have h := skip_spaces_spaces ws [] ws [] 0 (by simp) rfl hws (by simp [noSpaceHead])
    simpa using h
  have h1 : skip_spaces ws ws.length = ws.length :=
    skip_spaces_none ws ws [] ws.length (by simp) rfl (by simp [noSpaceHead])
  have hpn : parse_number ws ws.length = Except.error CalcError.expectedNumber := by
    simp [parse_number, h1]
  simp [calculate, hne, validate_characters_all ws hall, parse_expression, parse_term,
    parse_factor, h0, hpn]

/-- C20, as stated, fails: a lone newline, or a lone tab, left in the input buffer
at half-close is evaluated, and the line `Error: Expected number` is appended to
the output buffer.  Such a residue arises when a client sends `2+2`, a space and a
newline, and then shuts down its sending side. -/
theorem blank_residue_counterexample :
    "\n".toList.all isspace = true ∧ "\t".toList.all isspace = true ∧
    handleClient { in_buf := "\n".toList, out_buf := [], out_sent := 0, closing := false }
        Events.readableRdhup [] [] =
      { client := some { in_buf := [], out_buf := "Error: Expected number\n".toList,
                         out_sent := 0, closing := true },
        sent := [], ctl := some Interest.writable } ∧
    (handleRdhup { in_buf := "\t".toList, out_buf := [], out_sent := 0, closing := false }).client =
      some { in_buf := [], out_buf := "Error: Expected number\n".toList, out_sent := 0,
             closing := true } ∧
    runSteps (some Client.fresh) []
        [readStep ["2+2 \n".toList], { ev := Events.readableRdhup, recvs := [], sends := [] }] =
      (some { in_buf := [], out_buf := "4.00\nError: Expected number\n".toList, out_sent := 0,
              closing := true }, []) := by
  decide

/-- C20, amended.  On a half-close event with an empty input buffer nothing is
appended to the output buffer: the connection is closed if the output buffer is
empty and is otherwise kept, marked closing, with its buffers as they were.  A
residue that is not empty is evaluated even when it consists only of whitespace
characters, and then the line `Error: Expected number` is appended. -/
theorem half_close_blank_residue (c : Client) (ev : Events) (recvs : List RecvResult)
    (sends : List SendResult) (hr : ev.epollrdhup = true) (he : ev.epollerr = false)
    (hh : ev.epollhup = false) :
    (c.in_buf = [] →
      handleClient c ev recvs sends =
        if c.out_buf = [] then { client := none, sent := [], ctl := none }
        else { client := some { c with closing := true }, sent := [],
               ctl := some Interest.writable }) ∧
    (c.in_buf ≠ [] → c.in_buf.all isspace = true →
      handleClient c ev recvs sends =
        { client := some { in_buf := [],
                           out_buf := c.out_buf ++ "Error: Expected number\n".toList,
                           out_sent := c.out_sent, closing := true },
          sent := [], ctl := some Interest.writable }) := by
  rw [handleClient_rdhup c ev recvs sends hr he hh, handleRdhup_eq]
  refine ⟨fun hi => by simp [hi], fun hi hws => ?_⟩
  rw [if_pos hi]
  have hresp : response c.in_buf = "Error: Expected number\n".toList := by
    simp only [response, calculate_blank c.in_buf hi hws]
    rfl
  rw [hresp]

/-- Witness of C20: a tab left behind the pending line `9.00`. -/
theorem half_close_blank_residue_witness :
    handleClient tabClient Events.readableRdhup [] [] =
      { client := some { in_buf := [],
                         out_buf := tabClient.out_buf ++ "Error: Expected number\n".toList,
                         out_sent := tabClient.out_sent, closing := true },
        sent := [], ctl := some Interest.writable } :=
  (half_close_blank_residue tabClient Events.readableRdhup [] [] rfl rfl rfl).2
    (by decide) (by decide)

/-! ## Claim C15: the writable handler -/

theorem substr_add (b : Str) (s n m : Nat) :
    substr b s n ++ substr b (s + n) m = substr b s (n + m) := by
  simp only [substr]
  rw [List.take_add, List.drop_drop]

/-- The `send` loop when the transport takes fewer bytes than are pending and then
reports `EAGAIN`. -/
theorem sendLoop_short (ns : List Nat) : ∀ (c : Client) (acc : Str) (stop : List SendResult),
    (∀ n ∈ ns, 0 < n) → ns.sum < c.out_buf.length - c.out_sent →
    (stop = [] ∨ ∃ rest, stop = SendResult.wouldBlock :: rest) →
    sendLoop c acc (ns.map SendResult.accepted ++ stop) =
      (some { c with out_sent := c.out_sent + ns.sum },
        acc ++ substr c.out_buf c.out_sent ns.sum) := by
  induction ns with
  | nil =>
    intro c acc stop _ hsum hstop
    have hlt : c.out_sent < c.out_buf.length := by omega
    rcases hstop with h | ⟨rest, h⟩
    · subst h
      simp [sendLoop, substr]
    · subst h
      simp [sendLoop, hlt, substr]
  | cons n ns ih =>
    intro c acc stop hpos hsum hstop
    have hn : 0 < n := hpos n (List.mem_cons_self _ _)
    simp only [List.sum_cons] at hsum
    have hlt : c.out_sent < c.out_buf.length := by omega
    have hmin : min n (c.out_buf.length - c.out_sent) = n := by omega
    rw [List.map_cons, List.cons_append]
    simp only [sendLoop, hlt, if_true, hmin, hn]
    rw [ih _ _ stop (fun x hx => hpos x (List.mem_cons_of_mem _ hx)) (by simp only; omega) hstop]
    simp only [List.sum_cons, List.append_assoc, substr_add, Nat.add_assoc]

/-- The `send` loop when the transport takes all the pending bytes. -/
theorem sendLoop_all (ns : List Nat) : ∀ (c : Client) (acc : Str) (rest : List SendResult),
    (∀ n ∈ ns, 0 < n) → c.out_sent ≤ c.out_buf.length →
    c.out_buf.length - c.out_sent ≤ ns.sum →
    sendLoop c acc (ns.map SendResult.accepted ++ rest) =
      (some { c with out_sent := c.out_buf.length }, acc ++ c.pending) := by
  induction ns with
  | nil =>
    intro c acc rest _ hle hsum
    simp only [List.sum_nil, Nat.le_zero] at hsum
    have heq : c.out_sent = c.out_buf.length := by omega
    have hp : c.pending = [] := by simp [Client.pending, heq]
    have hc : ({ c with out_sent := c.out_buf.length } : Client) = c := by rw [← heq]
    rw [hp, hc, List.append_nil]
    cases rest with
    | nil => rfl
    | cons r rest => simp [sendLoop, heq]
  | cons n ns ih =>
    intro c acc rest hpos hle hsum
    have hn : 0 < n := hpos n (List.mem_cons_self _ _)
    simp only [List.sum_cons] at hsum
    by_cases hlt : c.out_sent < c.out_buf.length
    · have hk : 0 < min n (c.out_buf.length - c.out_sent) := by omega
      rw [List.map_cons, List.cons_append]
      simp only [sendLoop, hlt, if_true, hk]
      rw [ih _ _ rest (fun x hx => hpos x (List.mem_cons_of_mem _ hx)) (by simp only; omega)
        (by simp only; omega)]
      simp only [List.append_assoc, Client.pending]
      rw [pending_advance c]
      rfl
    · have heq : c.out_sent = c.out_buf.length := by omega
      have hp : c.pending = [] := by simp [Client.pending, heq]
      have hc : ({ c with out_sent := c.out_buf.length } : Client) = c := by rw [← heq]
      rw [hp, hc, List.append_nil]
      simp [sendLoop, heq]

/-- C15: the writable handler.  Take a connection with pending output and an
event that reports `EPOLLOUT` alone, during which the `send` calls accept
`ns.sum` bytes in all.  If that is less than what is pending and the next call
would block, the cursor advances by `ns.sum`, exactly these bytes of the output
buffer are sent, both buffers and the flag are unchanged and the connection stays
in the table with its interest set untouched.  If it covers all that is pending,
every pending byte is sent; a connection marked closing is then closed and erased,
and one that is not is kept with an empty output buffer, the cursor 0 and
interest in readability. -/
theorem writable_handler (c : Client) (recvs : List RecvResult) (ns : List Nat)
    (hpos : ∀ n ∈ ns, 0 < n) (hp : c.out_sent < c.out_buf.length) :
    (∀ stop : List SendResult, (stop = [] ∨ ∃ rest, stop = SendResult.wouldBlock :: rest) →
      ns.sum < c.out_buf.length - c.out_sent →
      handleClient c Events.writable recvs (ns.map SendResult.accepted ++ stop) =
        { client := some { c with out_sent := c.out_sent + ns.sum },
          sent := substr c.out_buf c.out_sent ns.sum, ctl := none }) ∧
    (∀ rest : List SendResult, c.out_buf.length - c.out_sent ≤ ns.sum →
      handleClient c Events.writable recvs (ns.map SendResult.accepted ++ rest) =
        if c.closing then { client := none, sent := c.pending, ctl := none }
        else { client := some { c with out_buf := [], out_sent := 0 }, sent := c.pending,
               ctl := some Interest.readable }) := by
  constructor
  · intro stop hstop hsum
    have h := sendLoop_short ns c [] stop hpos hsum hstop
    have hnot : ¬ c.out_buf.length ≤ c.out_sent + ns.sum := by omega
    simp [handleClient, Events.writable, handleOut, h, hnot]
  · intro rest hsum
    have h := sendLoop_all ns c [] rest hpos (Nat.le_of_lt hp) hsum
    cases hcl : c.closing <;> simp [handleClient, Events.writable, handleOut, h, hcl]

/-- Witness of C15: of the three bytes pending, the transport takes one, then one
more, then reports `EAGAIN`. -/
theorem writable_handler_witness :
    handleClient residueClient Events.writable []
        ([1, 1].map SendResult.accepted ++ [SendResult.wouldBlock]) =
      { client := some { residueClient with out_sent := residueClient.out_sent + [1, 1].sum },
        sent := substr residueClient.out_buf residueClient.out_sent [1, 1].sum, ctl := none } :=
  (writable_handler residueClient [] [1, 1] (by decide) (by decide)).1 [SendResult.wouldBlock]
    (Or.inr ⟨[], rfl⟩) (by decide)

/-! ## Claim C16: the order of the output -/

theorem splitStream_of_no_space (s : Str) (h : ' ' ∉ s) : splitStream s = ([], s) := by
  induction s with
  | nil => rfl
  | cons c s ih =>
    simp only [List.mem_cons, not_or] at h
    rw [splitStream_cons c s (fun e => h.1 e.symm), ih h.2]
    rfl

theorem fed_nil (c : Client) (h : c.tidy) : c.fed [] = c := by
  obtain ⟨ib, ob, os, cl⟩ := c
  have hs : splitStream ib = ([], ib) := splitStream_of_no_space ib h.2
  simp [Client.fed, hs, answers]

theorem fed_tidy (c : Client) (d : Str) (h : c.tidy) : (c.fed d).tidy := by
  refine ⟨?_, (splitStream_no_space _).2⟩
  have := h.1
  simp only [Client.fed, List.length_append]
  omega

theorem fed_pending (c : Client) (d : Str) (h : c.tidy) :
    (c.fed d).pending = c.pending ++ answers (splitStream (c.in_buf ++ d)).1 := by
  simp only [Client.pending, Client.fed]
  exact List.drop_append_of_le_length h.1

theorem fed_fed (c : Client) (a b : Str) : (c.fed a).fed b = c.fed (a ++ b) := by
  simp only [Client.fed]
  rw [← List.append_assoc c.in_buf a b, splitStream_append (c.in_buf ++ a) b]
  simp only [answers_append, List.append_assoc]

theorem foldl_onData_fed (chunks : List Str) (c : Client) (h : c.tidy) :
    chunks.foldl onData c = c.fed chunks.flatten := by
  cases chunks with
  | nil => exact (fed_nil c h).symm
  | cons b rest =>
    rw [foldl_onData_flatten _ c (by simp), onData_eq]
    rfl

theorem sendLoop_none (sends : List SendResult) : ∀ (c : Client) (acc acc1 : Str),
    c.out_sent ≤ c.out_buf.length → sendLoop c acc sends = (none, acc1) →
    ∃ lost, acc1 ++ lost = acc ++ c.pending := by
  induction sends with
  | nil => intro c acc acc1 _ h; simp [sendLoop] at h
  | cons r sends ih =>
    intro c acc acc1 hc h
    by_cases hlt : c.out_sent < c.out_buf.length
    · cases r with
      | accepted n =>
        by_cases hk : 0 < min n (c.out_buf.length - c.out_sent)
        · simp only [sendLoop, hlt, if_true, hk] at h
          have hle : c.out_sent + min n (c.out_buf.length - c.out_sent) ≤ c.out_buf.length := by
            have := Nat.min_le_right n (c.out_buf.length - c.out_sent)
            omega
          obtain ⟨lost, hl⟩ := ih _ _ _ hle h
          refine ⟨lost, ?_⟩
          rw [hl, List.append_assoc]
          congr 1
          exact pending_advance c _
        · simp only [sendLoop, hlt, if_true, hk, if_false, Prod.mk.injEq, true_and] at h
          exact ⟨c.pending, by rw [h]⟩
      | wouldBlock => simp [sendLoop, hlt] at h
      | error =>
        simp only [sendLoop, hlt, if_true, Prod.mk.injEq, true_and] at h
        exact ⟨c.pending, by rw [h]⟩
    · simp [sendLoop, hlt] at h

/-- The `EPOLLOUT` branch hands over a prefix of the pending bytes, in order, and
keeps the rest pending. -/
theorem handleOut_pending (c : Client) (ctl : Option Interest) (sends : List SendResult)
    (hc : c.tidy) :
    (∀ c2, (handleOut c ctl sends).client = some c2 →
      (handleOut c ctl sends).sent ++ c2.pending = c.pending ∧ c2.in_buf = c.in_buf ∧ c2.tidy) ∧
    ((handleOut c ctl sends).client = none →
      ∃ lost, (handleOut c ctl sends).sent ++ lost = c.pending) := by
  unfold handleOut
  cases hs : sendLoop c [] sends with
  | mk oc acc =>
    cases oc with
    | none =>
      obtain ⟨lost, hl⟩ := sendLoop_none sends c [] acc hc.1 hs
      simp only [reduceCtorEq, false_implies, implies_true, true_and]
      exact fun _ => ⟨lost, by simpa using hl⟩
    | some c1 =>
      obtain ⟨h1, h2, h3, h4, h5⟩ := sendLoop_some sends c [] c1 acc hc.1 hs
      simp only [List.nil_append] at h5
      have htidy : c1.tidy := ⟨h4, by rw [h1]; exact hc.2⟩
      simp only
      by_cases hall : c1.out_buf.length ≤ c1.out_sent
      · have hp : c1.pending = [] := by
          simp only [Client.pending]
          exact List.drop_eq_nil_of_le hall
        rw [hp, List.append_nil] at h5
        rw [if_pos hall]
        cases hcl : c1.closing
        · simp only [Bool.false_eq_true, if_false, Option.some.injEq, reduceCtorEq,
            false_implies, and_true]
          intro c2 hc2
          rw [← hc2]
          refine ⟨by simp [Client.pending, h5], h1, ?_⟩
          exact ⟨Nat.le_refl _, by rw [h1]; exact hc.2⟩
        · simp only [if_true, reduceCtorEq, false_implies, implies_true, true_and]
          exact fun _ => ⟨[], by simp [h5]⟩
      · rw [if_neg hall]
        simp only [Option.some.injEq, reduceCtorEq, false_implies, and_true]
        intro c2 hc2
        rw [← hc2]
        exact ⟨h5, h1, htidy⟩

/-- One readable or writable event: the bytes sent, then the bytes pending
afterwards, are the bytes pending before, then the answers to the tokens that the
bytes received complete. -/
theorem handleClient_plain (c : Client) (st : Step) (hc : c.tidy) (hev : st.ev.plain = true) :
    (∀ c2, (handleClient c st.ev st.recvs st.sends).client = some c2 →
      (handleClient c st.ev st.recvs st.sends).sent ++ c2.pending =
          c.pending ++ answers (splitStream (c.in_buf ++ st.data)).1 ∧
        c2.in_buf = (splitStream (c.in_buf ++ st.data)).2 ∧ c2.tidy) ∧
    ((handleClient c st.ev st.recvs st.sends).client = none →
      ∃ lost, (handleClient c st.ev st.recvs st.sends).sent ++ lost =
        c.pending ++ answers (splitStream (c.in_buf ++ st.data)).1) := by
  simp only [Events.plain, Bool.and_eq_true, Bool.not_eq_true'] at hev
  obtain ⟨⟨he, hh⟩, hr⟩ := hev
  have hread : (if st.ev.epollin = true then recvLoop c none st.recvs else some (c, none)) = none ∨
      ∃ ctl, (if st.ev.epollin = true then recvLoop c none st.recvs else some (c, none)) =
        some (c.fed st.data, ctl) := by
    by_cases hin : st.ev.epollin = true
    · simp only [hin, if_true, Step.data]
      cases hf : recvFails st.recvs
      · obtain ⟨ctl1, h⟩ := recvLoop_eq st.recvs c none hf
        exact Or.inr ⟨ctl1, by rw [h, foldl_onData_fed _ c hc]⟩
      · exact Or.inl (recvLoop_fails st.recvs c none hf)
    · simp only [hin, if_false, Step.data, Bool.false_eq_true, List.flatten_nil]
      exact Or.inr ⟨none, by rw [fed_nil c hc]⟩
  have hpend := fed_pending c st.data hc
  simp only [handleClient, he, hh, hr, Bool.or_self, Bool.false_eq_true, if_false]
  rcases hread with h | ⟨ctl, h⟩
  · rw [h]
    simp only [reduceCtorEq, false_implies, implies_true, true_and, List.nil_append]
    exact fun _ => ⟨_, rfl⟩
  · rw [h]
    simp only
    by_cases hout : st.ev.epollout = true
    · rw [if_pos hout]
      obtain ⟨g1, g2⟩ := handleOut_pending (c.fed st.data) ctl st.sends (fed_tidy c _ hc)
      constructor
      · intro c2 hc2
        obtain ⟨k1, k2, k3⟩ := g1 c2 hc2
        exact ⟨by rw [k1, hpend], by rw [k2]; rfl, k3⟩
      · intro hn
        obtain ⟨lost, hl⟩ := g2 hn
        exact ⟨lost, by rw [hl, hpend]⟩
    · rw [if_neg hout]
      simp only [Option.some.injEq, reduceCtorEq, false_implies, and_true, List.nil_append]
      intro c2 hc2
      rw [← hc2]
      exact ⟨hpend, rfl, fed_tidy c _ hc⟩
theorem streamOf_cons (st : Step) (steps : List Step) :
    streamOf (st :: steps) = st.data ++ streamOf steps := by
  simp [streamOf]

/-- A sequence of readable and writable events: the bytes sent, then the bytes
pending at the end, are the bytes pending at the start, then the answers to the
tokens completed, in order. -/
theorem runSteps_order (steps : List Step) : ∀ (c : Client) (acc : Str), c.tidy →
    plainSteps steps = true →
    (∀ c1 acc1, runSteps (some c) acc steps = (some c1, acc1) →
      acc1 ++ c1.pending =
          acc ++ (c.pending ++ answers (splitStream (c.in_buf ++ streamOf steps)).1) ∧
        c1.in_buf = (splitStream (c.in_buf ++ streamOf steps)).2 ∧ c1.tidy) ∧
    (∀ acc1, runSteps (some c) acc steps = (none, acc1) →
      ∃ lost, acc1 ++ lost =
        acc ++ (c.pending ++ answers (splitStream (c.in_buf ++ streamOf steps)).1)) := by
  induction steps with
  | nil =>
    intro c acc hc _
    have hs : splitStream c.in_buf = ([], c.in_buf) := splitStream_of_no_space _ hc.2
    constructor
    · intro c1 acc1 h
      simp only [runSteps, Prod.mk.injEq, Option.some.injEq] at h
      rw [← h.1, ← h.2]
      simp [streamOf, hs, answers, hc]
    · intro acc1 h
      simp [runSteps] at h
  | cons st steps ih =>
    intro c acc hc hpl
    simp only [plainSteps, List.all_cons, Bool.and_eq_true] at hpl
    obtain ⟨g1, g2⟩ := handleClient_plain c st hc hpl.1
    have hsplit := splitStream_append (c.in_buf ++ st.data) (streamOf steps)
    rw [List.append_assoc] at hsplit
    simp only [runSteps, streamOf_cons, hsplit, answers_append]
    cases ho : (handleClient c st.ev st.recvs st.sends).client with
    | none =>
      obtain ⟨lost, hl⟩ := g2 ho
      constructor
      · intro c1 acc1 h
        rw [runSteps_none] at h
        simp at h
      · intro acc1 h
        rw [runSteps_none] at h
        simp only [Prod.mk.injEq, true_and] at h
        refine ⟨lost ++ answers
          (splitStream ((splitStream (c.in_buf ++ st.data)).2 ++ streamOf steps)).1, ?_⟩
        rw [← h, List.append_assoc, ← List.append_assoc _ lost, hl]
        simp only [List.append_assoc]
    | some c2 =>
      obtain ⟨k1, k2, k3⟩ := g1 c2 ho
      obtain ⟨i1, i2⟩ := ih c2 (acc ++ (handleClient c st.ev st.recvs st.sends).sent) k3
        (by simpa [plainSteps] using hpl.2)
      rw [k2] at i1 i2
      constructor
      · intro c1 acc1 h
        obtain ⟨j1, j2, j3⟩ := i1 c1 acc1 h
        refine ⟨?_, j2, j3⟩
        rw [j1, List.append_assoc, ← List.append_assoc _ c2.pending, k1]
        simp only [List.append_assoc]
      · intro acc1 h
        obtain ⟨lost, hl⟩ := i2 acc1 h
        refine ⟨lost, ?_⟩
        rw [hl, List.append_assoc, ← List.append_assoc _ c2.pending, k1]
        simp only [List.append_assoc]

theorem fresh_tidy : Client.fresh.tidy := ⟨Nat.le_refl _, by simp [Client.fresh]⟩

/-- C16: the order of the output.  Let a freshly accepted connection go through
any sequence of events that report readable, writable or both, whatever the `recv`
and `send` calls return (short writes included).  While the connection is in the
table, the bytes handed to the transport so far followed by the output buffer from
the send cursor on are exactly the answers, in order, to the tokens of the bytes
received so far, one line per non-empty token; the input buffer is the residue
after the last delimiter.  If a transport failure has closed the connection, the
bytes handed to the transport are a prefix of these answers. -/
theorem output_order (steps : List Step) (hplain : plainSteps steps = true) :
    (∀ c acc, runSteps (some Client.fresh) [] steps = (some c, acc) →
      acc ++ c.pending = answers (splitStream (streamOf steps)).1 ∧
        c.in_buf = (splitStream (streamOf steps)).2) ∧
    (∀ acc, runSteps (some Client.fresh) [] steps = (none, acc) →
      acc <+: answers (splitStream (streamOf steps)).1) := by
  obtain ⟨h1, h2⟩ := runSteps_order steps Client.fresh [] fresh_tidy hplain
  constructor
  · intro c acc h
    obtain ⟨j1, j2, _⟩ := h1 c acc h
    exact ⟨by simpa [Client.fresh, Client.pending] using j1, by simpa [Client.fresh] using j2⟩
  · intro acc h
    obtain ⟨lost, hl⟩ := h2 acc h
    exact ⟨lost, by simpa [Client.fresh, Client.pending] using hl⟩

/-- Witness of C16: `2+2 3*` is received, two bytes are sent, then `3 ` is
received: `4.` has been sent and `00`, the newline and the line `9.00` are pending. -/
theorem output_order_witness :
    "4.".toList ++ (Client.mk [] "4.00\n9.00\n".toList 2 false).pending =
        answers (splitStream (streamOf interleavedSteps)).1 ∧
      (Client.mk [] "4.00\n9.00\n".toList 2 false).in_buf =
        (splitStream (streamOf interleavedSteps)).2 :=
  (output_order interleavedSteps (by decide)).1 (Client.mk [] "4.00\n9.00\n".toList 2 false)
    "4.".toList (by decide)

/-! ## Claim C17: the chunks the client sends -/

theorem substr_length (s : Str) (pos l : Nat) (h : pos + l ≤ s.length) :
    (substr s pos l).length = l := by
  simp only [substr, List.length_take, List.length_drop]
  omega

/-- The loop of `split_expression_randomly` from position `pos` on: the chunks it
adds spell the rest of the string, and each has between 1 and
`min 4 remaining` bytes. -/
theorem splitLoop_spec (s : Str) (draw : Nat → Nat → Nat) (hd : drawsInRange draw)
    (fuel : Nat) : ∀ (i pos : Nat) (parts : List Str), pos ≤ s.length →
    s.length - pos ≤ fuel →
    ∃ new, splitLoop s draw fuel i pos parts = parts ++ new ∧ new.flatten = s.drop pos ∧
      ∀ pre ch post, new = pre ++ ch :: post →
        1 ≤ ch.length ∧ ch.length ≤ min 4 (s.length - pos - pre.flatten.length) := by
  induction fuel with
  | zero =>
    intro i pos parts hpos hfuel
    have he : pos = s.length := by omega
    refine ⟨[], by simp [splitLoop], by simp [he], ?_⟩
    intro pre ch post h
    simp at h
  | succ fuel ih =>
    intro i pos parts hpos hfuel
    by_cases hlt : pos < s.length
    · obtain ⟨hl1, hl2⟩ := hd i (min 4 (s.length - pos)) (by omega)
      have hle : pos + draw i (min 4 (s.length - pos)) ≤ s.length := by omega
      have hlen := substr_length s pos _ hle
      obtain ⟨new, h1, h2, h3⟩ := ih (i + 1) (pos + draw i (min 4 (s.length - pos)))
        (parts ++ [substr s pos (draw i (min 4 (s.length - pos)))]) hle (by omega)
      refine ⟨substr s pos (draw i (min 4 (s.length - pos))) :: new, ?_, ?_, ?_⟩
      · simp only [splitLoop, hlt, if_true]
        rw [h1]
        simp
      · rw [List.flatten_cons, h2]
        simp only [substr]
        rw [← List.drop_drop, List.take_append_drop]
      · intro pre ch post h
        cases pre with
        | nil =>
          simp only [List.nil_append, List.cons.injEq] at h
          rw [← h.1, hlen]
          simp only [List.flatten_nil, List.length_nil, Nat.sub_zero]
          exact ⟨hl1, hl2⟩
        | cons p pre =>
          simp only [List.cons_append, List.cons.injEq] at h
          obtain ⟨g1, g2⟩ := h3 pre ch post h.2
          refine ⟨g1, ?_⟩
          rw [List.flatten_cons, List.length_append, ← h.1, hlen]
          have e : s.length - pos - (draw i (min 4 (s.length - pos)) + pre.flatten.length) =
              s.length - (pos + draw i (min 4 (s.length - pos))) - pre.flatten.length := by omega
          rw [e]
          exact g2
    · have he : pos = s.length := by omega
      refine ⟨[], by simp [splitLoop, hlt], by simp [he], ?_⟩
      intro pre ch post h
      simp at h

/-- More iterations than the bound change nothing: the loop has ended by its own
test. -/
theorem splitLoop_fuel (s : Str) (draw : Nat → Nat → Nat) (hd : drawsInRange draw)
    (fuel : Nat) : ∀ (i pos : Nat) (parts : List Str) (extra : Nat), pos ≤ s.length →
    s.length - pos ≤ fuel →
    splitLoop s draw (fuel + extra) i pos parts = splitLoop s draw fuel i pos parts := by
  induction fuel with
  | zero =>
    intro i pos parts extra hpos hfuel
    have hlt : ¬ pos < s.length := by omega
    cases extra with
    | zero => rfl
    | succ e => simp [splitLoop, hlt]
  | succ fuel ih =>
    intro i pos parts extra hpos hfuel
    have e : fuel + 1 + extra = (fuel + extra) + 1 := by omega
    rw [e]
    by_cases hlt : pos < s.length
    · obtain ⟨hl1, hl2⟩ := hd i (min 4 (s.length - pos)) (by omega)
      simp only [splitLoop, hlt, if_true]
      exact ih _ _ _ _ (by omega) (by omega)
    · simp [splitLoop, hlt]

/-- C17: the chunks of `split_expression_randomly`.  Whatever values within
their ranges the distributions draw, the loop ends within `s.length` iterations
(more iterations would add nothing), the chunks concatenated in order give `s`,
each chunk has at least 1 byte and at most `min 4 r` bytes, where `r` counts the
bytes of `s` not covered by the chunks before it, and the empty string gives no
chunk. -/
theorem split_expression_randomly_chunks (s : Str) (draw : Nat → Nat → Nat)
    (hd : drawsInRange draw) :
    (split_expression_randomly s draw).flatten = s ∧
    (∀ pre ch post, split_expression_randomly s draw = pre ++ ch :: post →
      1 ≤ ch.length ∧ ch.length ≤ min 4 (s.length - pre.flatten.length)) ∧
    (∀ fuel, s.length ≤ fuel → splitLoop s draw fuel 0 0 [] = split_expression_randomly s draw) ∧
    (s = [] → split_expression_randomly s draw = []) := by
  obtain ⟨new, h1, h2, h3⟩ := splitLoop_spec s draw hd s.length 0 0 [] (Nat.zero_le _)
    (Nat.le_refl _)
  simp only [List.nil_append, List.drop_zero, Nat.sub_zero] at h1 h2 h3
  refine ⟨?_, ?_, ?_, ?_⟩
  · rw [split_expression_randomly, h1, h2]
  · intro pre ch post h
    rw [split_expression_randomly, h1] at h
    exact h3 pre ch post h
  · intro fuel hf
    obtain ⟨extra, he⟩ := Nat.exists_eq_add_of_le hf
    rw [he]
    exact splitLoop_fuel s draw hd s.length 0 0 [] extra (Nat.zero_le _) (by omega)
  · intro hs
    subst hs
    rfl

/-- Witness of C17: every draw takes the largest value allowed; `2+2*3 ` is cut
into `2+2*` and `3 `, and the second chunk has at most `min 4 (6 - 4)` bytes. -/
theorem split_expression_randomly_chunks_witness :
    1 ≤ "3 ".toList.length ∧
      "3 ".toList.length ≤ min 4 ("2+2*3 ".toList.length - ["2+2*".toList].flatten.length) :=
  (split_expression_randomly_chunks "2+2*3 ".toList (fun _ m => m)
    (fun _ _ h => ⟨h, Nat.le_refl _⟩)).2.1 ["2+2*".toList] "3 ".toList [] (by decide)

/-! ## Claim C18: the client sends its chunks -/

theorem clientWritable_finished (c : Conn) (r : SendResult) (hf : c.finished_sending = true) :
    clientWritable c r = (some c, []) := by
  simp [clientWritable, hf]

theorem clientWritable_error (c : Conn) (hf : c.finished_sending = false)
    (hi : c.chunk_index < c.chunks.length) :
    clientWritable c SendResult.error = (none, []) := by
  simp [clientWritable, hf, hi, send_all, substr]

theorem clientWritable_wouldBlock (c : Conn) (hf : c.finished_sending = false)
    (hi : c.chunk_index < c.chunks.length) :
    clientWritable c SendResult.wouldBlock = (some c, []) := by
  obtain ⟨e, chs, i, o, rb, f⟩ := c
  simp only at hf hi
  subst hf
  simp [clientWritable, hi, send_all, substr]

theorem clientWritable_zero (c : Conn) (n : Nat) (hf : c.finished_sending = false)
    (hi : c.chunk_index < c.chunks.length)
    (hk : min n ((c.chunks.getD c.chunk_index []).length - c.send_offset) = 0) :
    clientWritable c (SendResult.accepted n) = (some c, []) := by
  obtain ⟨e, chs, i, o, rb, f⟩ := c
  simp only at hf hi hk
  subst hf
  simp only [clientWritable, hi, send_all, hk]
  simp [substr]

theorem clientWritable_accepted (c : Conn) (n k : Nat) (hf : c.finished_sending = false)
    (hi : c.chunk_index < c.chunks.length)
    (hk : k = min n ((c.chunks.getD c.chunk_index []).length - c.send_offset)) (hpos : 0 < k) :
    clientWritable c (SendResult.accepted n) =
      (some (if c.send_offset + k = (c.chunks.getD c.chunk_index []).length then
          (if c.chunk_index + 1 < c.chunks.length then
            { c with chunk_index := c.chunk_index + 1, send_offset := 0 }
          else
            { c with chunk_index := c.chunk_index + 1, send_offset := 0, finished_sending := true })
        else { c with send_offset := c.send_offset + k }),
        substr (c.chunks.getD c.chunk_index []) c.send_offset k) := by
  have hpos1 : (0 : Int) < ((k : Nat) : Int) := by exact_mod_cast hpos
  simp only [clientWritable, hf, hi, send_all, ← hk]
  simp only [Bool.not_false, if_true, hpos1, Int.toNat_ofNat, Nat.add_sub_cancel_left]
  split <;> simp [hi]

theorem take_succ_flatten (chunks : List Str) (i : Nat) (hi : i < chunks.length) :
    (chunks.take (i + 1)).flatten = (chunks.take i).flatten ++ chunks.getD i [] := by
  rw [List.take_succ, List.flatten_append]
  simp [List.getD, List.getElem?_eq_getElem hi]

theorem getD_ne_nil (chunks : List Str) (hch : ∀ ch ∈ chunks, ch ≠ []) (i : Nat)
    (hi : i < chunks.length) : 0 < (chunks.getD i []).length := by
  have h : chunks.getD i [] = chunks[i] := by simp [List.getD, List.getElem?_eq_getElem hi]
  rw [h]
  exact List.length_pos.mpr (hch _ (List.getElem_mem hi))

theorem take_substr (chunk : Str) (off k : Nat) :
    chunk.take off ++ substr chunk off k = chunk.take (off + k) := by
  simp only [substr]
  rw [List.take_add]

theorem sendInv_sent (chunks : List Str) (c : Conn) (sent : Str) (h : sendInv chunks c sent) :
    sent <+: chunks.flatten := by
  obtain ⟨_, h2, _, h4, h5, _⟩ := h
  by_cases hi : c.chunk_index < chunks.length
  · refine ⟨(chunks.getD c.chunk_index []).drop c.send_offset ++
      (chunks.drop (c.chunk_index + 1)).flatten, ?_⟩
    rw [h5, List.append_assoc, ← List.append_assoc (List.take _ _), List.take_append_drop,
      ← List.append_assoc, ← take_succ_flatten chunks _ hi, ← List.flatten_append,
      List.take_append_drop]
  · have he : c.chunk_index = chunks.length := by omega
    refine ⟨[], ?_⟩
    rw [h5, h4 he, he]
    simp

theorem sendInv_done (chunks : List Str) (c : Conn) (sent : Str) (h : sendInv chunks c sent) :
    c.finished_sending = true ↔ sent = chunks.flatten := by
  obtain ⟨_, h2, h3, h4, h5, h6⟩ := h
  rw [h6]
  constructor
  · intro he
    rw [h5, h4 he, he]
    simp
  · intro hs
    by_contra hne
    have hi : c.chunk_index < chunks.length := by omega
    have hlen : chunks.flatten.length =
        (chunks.take (c.chunk_index + 1)).flatten.length +
          (chunks.drop (c.chunk_index + 1)).flatten.length := by
      rw [← List.length_append, ← List.flatten_append, List.take_append_drop]
    have h1 := congrArg List.length hs
    rw [h5, hlen, take_succ_flatten chunks _ hi] at h1
    simp only [List.length_append, List.length_take] at h1
    have := h3 hi
    omega

theorem sendInv_step (chunks : List Str) (hch : ∀ ch ∈ chunks, ch ≠ []) (c : Conn) (sent : Str)
    (r : SendResult) (h : sendInv chunks c sent) :
    (∀ c1, (clientWritable c r).1 = some c1 → sendInv chunks c1 (sent ++ (clientWritable c r).2)) ∧
    ((clientWritable c r).1 = none → (clientWritable c r).2 = []) := by
  obtain ⟨h1, h2, h3, h4, h5, h6⟩ := h
  cases hf : c.finished_sending with
  | true =>
    rw [clientWritable_finished c r hf]
    simp only [Option.some.injEq, List.append_nil, reduceCtorEq, false_implies, and_true]
    intro c1 hc1
    rw [← hc1]
    exact ⟨h1, h2, h3, h4, h5, h6⟩
  | false =>
    have hne : c.chunk_index ≠ chunks.length := fun he => by
      rw [h6.mpr he] at hf
      cases hf
    have hi : c.chunk_index < chunks.length := by omega
    have hi1 : c.chunk_index < c.chunks.length := by rw [h1]; exact hi
    have hoff := h3 hi
    cases r with
    | wouldBlock =>
      rw [clientWritable_wouldBlock c hf hi1]
      simp only [Option.some.injEq, List.append_nil, reduceCtorEq, false_implies, and_true]
      intro c1 hc1
      rw [← hc1]
      exact ⟨h1, h2, h3, h4, h5, h6⟩
    | error =>
      rw [clientWritable_error c hf hi1]
      simp
    | accepted n =>
      by_cases hk : min n ((c.chunks.getD c.chunk_index []).length - c.send_offset) = 0
      · rw [clientWritable_zero c n hf hi1 hk]
        simp only [Option.some.injEq, List.append_nil, reduceCtorEq, false_implies, and_true]
        intro c1 hc1
        rw [← hc1]
        exact ⟨h1, h2, h3, h4, h5, h6⟩
      · rw [clientWritable_accepted c n _ hf hi1 rfl (Nat.pos_of_ne_zero hk)]
        simp only [Option.some.injEq, reduceCtorEq, false_implies, and_true]
        intro c1 hc1
        rw [← hc1, h1]
        rw [h1] at hk
        have hsent : sent ++ substr (chunks.getD c.chunk_index []) c.send_offset
            (min n ((chunks.getD c.chunk_index []).length - c.send_offset)) =
            (chunks.take c.chunk_index).flatten ++ (chunks.getD c.chunk_index []).take
              (c.send_offset + min n ((chunks.getD c.chunk_index []).length - c.send_offset)) := by
          rw [h5, List.append_assoc, take_substr]
        rw [hsent]
        by_cases hfull : c.send_offset +
            min n ((chunks.getD c.chunk_index []).length - c.send_offset) =
            (chunks.getD c.chunk_index []).length
        · rw [if_pos hfull, hfull, List.take_length, ← take_succ_flatten chunks _ hi]
          by_cases hnext : c.chunk_index + 1 < chunks.length
          · rw [if_pos hnext]
            refine ⟨rfl, Nat.le_of_lt hnext, fun _ => getD_ne_nil chunks hch _ hnext,
              fun _ => rfl, by simp, ?_⟩
            simp only [hf, Bool.false_eq_true, false_iff]
            omega
          · rw [if_neg hnext]
            have he : c.chunk_index + 1 = chunks.length := by omega
            refine ⟨rfl, Nat.le_of_eq he, fun hlt => absurd hlt hnext, fun _ => rfl, by simp, ?_⟩
            simp only [true_iff]
            exact he
        · rw [if_neg hfull]
          refine ⟨rfl, h2, fun _ => ?_, fun he => absurd he hne, rfl, ?_⟩
          · simp only
            omega
          · simp only [hf, Bool.false_eq_true, false_iff]
            exact hne

theorem runWritable_none (sent : Str) (rs : List SendResult) :
    runWritable none sent rs = (none, sent) := by
  cases rs <;> rfl

theorem runWritable_inv (chunks : List Str) (hch : ∀ ch ∈ chunks, ch ≠ [])
    (rs : List SendResult) : ∀ (c : Conn) (sent : Str), sendInv chunks c sent →
    (∀ c1 sent1, runWritable (some c) sent rs = (some c1, sent1) → sendInv chunks c1 sent1) ∧
    (∀ sent1, runWritable (some c) sent rs = (none, sent1) → sent1 <+: chunks.flatten) := by
  induction rs with
  | nil =>
    intro c sent h
    constructor
    · intro c1 sent1 h1
      simp only [runWritable, Prod.mk.injEq, Option.some.injEq] at h1
      rw [← h1.1, ← h1.2]
      exact h
    · intro sent1 h1
      simp [runWritable] at h1
  | cons r rs ih =>
    intro c sent h
    obtain ⟨g1, g2⟩ := sendInv_step chunks hch c sent r h
    simp only [runWritable]
    cases ho : (clientWritable c r).1 with
    | none =>
      rw [g2 ho, runWritable_none]
      constructor
      · intro c1 sent1 h1
        simp at h1
      · intro sent1 h1
        simp only [List.append_nil, Prod.mk.injEq, true_and] at h1
        rw [← h1]
        exact sendInv_sent chunks c sent h
    | some c2 => exact ih c2 _ (g1 c2 ho)

theorem runWritable_finished (rs : List SendResult) : ∀ (c : Conn) (sent : Str),
    c.finished_sending = true → runWritable (some c) sent rs = (some c, sent) := by
  induction rs with
  | nil => intro c sent _; rfl
  | cons r rs ih =>
    intro c sent hf
    simp only [runWritable, clientWritable_finished c r hf, List.append_nil]
    exact ih c sent hf

theorem sendInv_init (expr : Str) (chunks : List Str) (hne : chunks ≠ [])
    (hch : ∀ ch ∈ chunks, ch ≠ []) : sendInv chunks (Conn.init expr chunks) [] := by
  have hlen : 0 < chunks.length := List.length_pos.mpr hne
  refine ⟨rfl, Nat.zero_le _, fun _ => getD_ne_nil chunks hch 0 hlen, fun _ => rfl, by
    simp [Conn.init], ?_⟩
  simp only [Conn.init, Bool.false_eq_true, false_iff]
  omega

/-- The chunks `Client::run` makes for a task: the expression and its delimiter, cut
into non-empty chunks. -/
theorem task_chunks (expr : Str) (draw : Nat → Nat → Nat) (hd : drawsInRange draw) :
    split_expression_randomly (expr ++ [' ']) draw ≠ [] ∧
    (∀ ch ∈ split_expression_randomly (expr ++ [' ']) draw, ch ≠ []) ∧
    (split_expression_randomly (expr ++ [' ']) draw).flatten = expr ++ [' '] := by
  obtain ⟨new, h1, h2, h3⟩ := splitLoop_spec (expr ++ [' ']) draw hd (expr ++ [' ']).length 0 0 []
    (Nat.zero_le _) (Nat.le_refl _)
  simp only [List.nil_append, List.drop_zero] at h1 h2
  have hflat : (split_expression_randomly (expr ++ [' ']) draw).flatten = expr ++ [' '] := by
    rw [split_expression_randomly, h1, h2]
  refine ⟨?_, ?_, hflat⟩
  · intro hnil
    rw [hnil] at hflat
    simp at hflat
  · intro ch hmem
    rw [split_expression_randomly, h1] at hmem
    obtain ⟨pre, post, hpp⟩ := List.append_of_mem hmem
    have := (h3 pre ch post hpp).1
    exact List.length_pos.mp this

/-- C18: the client's sending.  A task starts with a non-empty list of non-empty
chunks; such are the chunks `split_expression_randomly` makes of the expression
and its delimiter, whatever the draws (second part).  After any
sequence of writable events, whatever each `send` returned (all the bytes
offered, fewer, none, `EAGAIN` or an error): the bytes transmitted are a prefix of
the chunks concatenated; and for a task still in the table, `chunk_index` is at
most the number of chunks, `send_offset` is below the length of the current chunk
when there is one, the bytes transmitted are the chunks before `chunk_index` and
`send_offset` bytes of the current one, `finished_sending` holds exactly when
every byte of every chunk has been transmitted, and from then on further writable
events transmit nothing and leave the task as it is. -/
theorem client_send_machine :
    (∀ (expr : Str) (chunks : List Str) (rs : List SendResult), chunks ≠ [] →
      (∀ ch ∈ chunks, ch ≠ []) →
      (∀ c sent, runWritable (some (Conn.init expr chunks)) [] rs = (some c, sent) →
        sent <+: chunks.flatten ∧ c.chunk_index ≤ chunks.length ∧
        (c.chunk_index < chunks.length →
          c.send_offset < (chunks.getD c.chunk_index []).length) ∧
        sent = (chunks.take c.chunk_index).flatten ++
          (chunks.getD c.chunk_index []).take c.send_offset ∧
        (c.finished_sending = true ↔ sent = chunks.flatten) ∧
        (c.finished_sending = true →
          ∀ more, runWritable (some c) sent more = (some c, sent))) ∧
      (∀ sent, runWritable (some (Conn.init expr chunks)) [] rs = (none, sent) →
        sent <+: chunks.flatten)) ∧
    (∀ (expr : Str) (draw : Nat → Nat → Nat), drawsInRange draw →
      split_expression_randomly (expr ++ [' ']) draw ≠ [] ∧
      (∀ ch ∈ split_expression_randomly (expr ++ [' ']) draw, ch ≠ []) ∧
      (split_expression_randomly (expr ++ [' ']) draw).flatten = expr ++ [' ']) := by
  refine ⟨fun expr chunks rs hne hch => ?_, task_chunks⟩
  obtain ⟨g1, g2⟩ := runWritable_inv chunks hch rs _ [] (sendInv_init expr chunks hne hch)
  refine ⟨fun c sent h => ?_, g2⟩
  have hinv := g1 c sent h
  exact ⟨sendInv_sent chunks c sent hinv, hinv.2.1, hinv.2.2.1, hinv.2.2.2.2.1,
    sendInv_done chunks c sent hinv, fun hf more => runWritable_finished more c sent hf⟩

/-- Witness of C18: the chunks `2+` and `2 `; the transport takes one byte, then
reports `EAGAIN`, then takes the second byte and then both bytes of the second
chunk. -/
theorem client_send_machine_witness :
    "2+2 ".toList <+: ["2+".toList, "2 ".toList].flatten :=
  ((client_send_machine.1 "2+2".toList ["2+".toList, "2 ".toList]
    [SendResult.accepted 1, SendResult.wouldBlock, SendResult.accepted 5,
      SendResult.accepted 2] (by decide) (by decide)).1
    { expr := "2+2".toList, chunks := ["2+".toList, "2 ".toList], chunk_index := 2
      send_offset := 0, recv_buffer := [], finished_sending := true }
    "2+2 ".toList (by decide)).1

/-! ## Claim C19: closing a client task -/

/-- C19 on the code: how often the readable handling of `Client::run` closes the
descriptor and erases the task.  It does so once after a response line has been
verified, and once more when the `recv` loop has seen the peer's close or an
error; so when both happen in one event, as with the bytes `4.00` and a newline
followed by `recv` returning 0, `close` and `conns.erase` each run twice.  At most
one response line is verified. -/
theorem client_teardown_count :
    (∀ (c : Conn) (recvs : List RecvResult),
      (clientReadable c recvs).2.count Effect.close =
          (if (find (clientRecvLoop c.recv_buffer recvs).1 '\n').isSome then 1 else 0) +
            (if (clientRecvLoop c.recv_buffer recvs).2 then 1 else 0) ∧
        (clientReadable c recvs).2.count Effect.erase =
          (if (find (clientRecvLoop c.recv_buffer recvs).1 '\n').isSome then 1 else 0) +
            (if (clientRecvLoop c.recv_buffer recvs).2 then 1 else 0) ∧
        ((clientReadable c recvs).2.filter
          (fun e => match e with | Effect.verify _ => true | _ => false)).length ≤ 1) ∧
    (clientReadable (Conn.init "2+2".toList ["2+2 ".toList])
        [RecvResult.bytes "4.00\n".toList, RecvResult.bytes []]).2 =
      [Effect.verify "4.00".toList, Effect.close, Effect.epollDel, Effect.erase,
        Effect.close, Effect.epollDel, Effect.erase] ∧
    (clientReadable (Conn.init "2+2".toList ["2+2 ".toList])
        [RecvResult.bytes "4.00\n".toList, RecvResult.bytes []]).2.count Effect.close = 2 ∧
    (clientReadable (Conn.init "2+2".toList ["2+2 ".toList])
        [RecvResult.bytes "4.00\n".toList, RecvResult.bytes []]).2.count Effect.erase = 2 ∧
    (clientReadable (Conn.init "2+2".toList ["2+2 ".toList])
        [RecvResult.bytes "4.00\n".toList]).2.count Effect.close = 1 ∧
    (clientReadable (Conn.init "2+2".toList ["2+2 ".toList])
        [RecvResult.bytes "4.0".toList, RecvResult.bytes []]).2.count Effect.close = 1 := by
  refine ⟨?_, by decide, by decide, by decide, by decide, by decide⟩
  intro c recvs
  unfold clientReadable
  cases hr : clientRecvLoop c.recv_buffer recvs with
  | mk buf closed =>
    cases hf : find buf '\n' <;> cases closed <;> simp [List.count_cons, hf]

/-! ## Claim C21: overflow reporting -/

/-- The guard `std::isinf(result)`: `calculate` returns no infinity. -/
theorem calculate_never_inf (s : Str) (v : Dbl) (h : calculate s = Except.ok v) :
    v.isinf = false := by
  unfold calculate at h
  split at h
  · cases h
  · split at h
    · cases h
    · split at h
      · cases h
      · simp only at h
        split at h
        · cases h
        · split at h
          · cases h
          · rename_i hinf
            simp only [Except.ok.injEq] at h
            rw [← h]
            simpa using hinf

/-- The guard `std::isinf(result)`: an expression whose evaluation yields an
infinity fails with the overflow error. -/
theorem calculate_inf_overflow (e : Expr) (v : Dbl) (hlex : e.lexical = true)
    (hv : stdEval e.tokens = Except.ok v) (hinf : v.isinf = true) :
    calculate e.render = Except.error CalcError.overflow := by
  rw [calculate_render e hlex, hv]
  simp [overflowCheck, hinf]

/-- C21 on the code: a NaN result is returned, not reported.  The product
`10^308*10` overflows to `+inf`, and `calculate` throws the overflow error on it,
as on `-10^308*10`.  But on the difference `10^308*10-10^308*10` of two such
products, and on the remainder `10^308*10%3`, the value is a NaN, `std::isinf` is
false of it, and `calculate` returns the NaN as the value of the expression.  The
client, which evaluates the same expression, then reports `MISMATCH` for the
server's answer, be it written `nan` or `-nan`. -/
theorem nan_result_returned :
    nanExpr.wf = true ∧
    nanExpr.render = '1' :: (List.replicate 308 '0' ++
      ("*10-1".toList ++ (List.replicate 308 '0' ++ "*10".toList))) ∧
    stdEval overflowExpr.tokens = Except.ok (Dbl.inf false) ∧
    calculate overflowExpr.render = Except.error CalcError.overflow ∧
    calculate negOverflowExpr.render = Except.error CalcError.overflow ∧
    calculate nanExpr.render = Except.ok Dbl.nan ∧
    Dbl.nan.isfinite = false ∧ Dbl.nan.isinf = false ∧
    nanModExpr.wf = true ∧
    nanModExpr.render = '1' :: (List.replicate 308 '0' ++ "*10%3".toList) ∧
    calculate nanModExpr.render = Except.ok Dbl.nan ∧
    verifyResponse nanModExpr.render "nan".toList = Verdict.MISMATCH ∧
    verifyResponse nanModExpr.render "-nan".toList = Verdict.MISMATCH := by
  have h1 : calculate overflowExpr.render = Except.error CalcError.overflow :=
    calculate_inf_overflow overflowExpr (Dbl.inf false) (by decide) (by decide) rfl
  have h2 : calculate negOverflowExpr.render = Except.error CalcError.overflow :=
    calculate_inf_overflow negOverflowExpr (Dbl.inf true) (by decide) (by decide) rfl
  have h3 : calculate nanExpr.render = Except.ok Dbl.nan := by
    rw [calculate_render nanExpr (by decide)]
    decide
  have h4 : calculate nanModExpr.render = Except.ok Dbl.nan := by
    rw [calculate_render nanModExpr (by decide)]
    decide
  have h5 : stodAny "nan".toList = some Dbl.nan := by decide
  have h6 : stodAny "-nan".toList = some Dbl.nan := by decide
  refine ⟨by decide, by decide, by decide, h1, h2, h3, rfl, rfl, by decide, by decide, h4, ?_, ?_⟩
  · simp only [verifyResponse, h4, h5]
    decide
  · simp only [verifyResponse, h4, h6]
    decide

/-! ## Claim C22: the framing of the response lines -/

theorem find_newline (body rest : Str) (h : '\n' ∉ body) :
    find (body ++ '\n' :: rest) '\n' = some body.length := by
  induction body with
  | nil => simp [find]
  | cons c body ih =>
    simp only [List.mem_cons, not_or] at h
    have hc : c ≠ '\n' := fun e => h.1 e.symm
    simp [find, hc, ih h.2]

/-- The answers to a list of tokens hold one newline per non-empty token. -/
theorem answers_count (toks : List Str) :
    (answers toks).count '\n' = (toks.filter (fun t => decide (t ≠ []))).length := by
  induction toks with
  | nil => rfl
  | cons t toks ih =>
    simp only [answers, List.count_append, ih]
    by_cases ht : t = []
    · simp [ht]
    · obtain ⟨_, _, _, h3⟩ := response_line t
      simp only [ht, if_false, h3]
      rw [List.filter_cons_of_pos (by simpa using ht), List.length_cons]
      omega

/-- C22: the framing of the error lines.  For every token `t` whose evaluation
fails with `e`, the response is `Error: `, the message and a newline; the message
holds no newline, so the response holds exactly one, at its end.  This is the
text the readable path appends for the token `t`, and the text the half-close
path appends for the residue `t`; a client that has received it finds the newline
at the end of the line, takes `Error: ` and the message as its response line and
leaves nothing in its buffer.  The character an `Invalid character` message names
is never an allowed one, so never a newline.  And the answers to any tokens hold
as many newlines as there are non-empty tokens: one line per request evaluated. -/
theorem error_line_framing :
    (∀ (t : Str) (e : CalcError), calculate t = Except.error e →
      '\n' ∉ "Error: ".toList ++ e.what ∧
      response t = ("Error: ".toList ++ e.what) ++ ['\n'] ∧
      (response t).count '\n' = 1 ∧ (response t).getLast? = some '\n' ∧
      find (response t) '\n' = some ("Error: ".toList ++ e.what).length ∧
      (∀ (c : Client) (b : Str) (sends : List SendResult), b ≠ [] → t ≠ [] → ' ' ∉ t →
        c.in_buf ++ b = t ++ [' '] →
        (handleClient c Events.readable [RecvResult.bytes b] sends).client =
          some { in_buf := [], out_buf := c.out_buf ++ response t, out_sent := c.out_sent,
                 closing := c.closing }) ∧
      (∀ (c : Client) (recvs : List RecvResult) (sends : List SendResult), c.in_buf = t →
        t ≠ [] →
        (handleClient c Events.readableRdhup recvs sends).client =
          some { in_buf := [], out_buf := c.out_buf ++ response t, out_sent := c.out_sent,
                 closing := true }) ∧
      (∀ conn : Conn, conn.recv_buffer = [] →
        clientReadable conn [RecvResult.bytes (response t)] =
          ({ conn with recv_buffer := [] },
            [Effect.verify (trimRight ("Error: ".toList ++ e.what)), Effect.close,
              Effect.epollDel, Effect.erase]))) ∧
    (∀ (t : Str) (c : Char), calculate t = Except.error (CalcError.invalidCharacter c) →
      allowedChar c = false ∧ c ≠ '\n') ∧
    (∀ toks : List Str,
      (answers toks).count '\n' = (toks.filter (fun t => decide (t ≠ []))).length) := by
  refine ⟨?_, ?_, answers_count⟩
  swap
  · intro t c h
    have hc := calculate_error_char t c h
    refine ⟨hc, fun hn => ?_⟩
    rw [hn] at hc
    revert hc
    decide
  intro t e he
  have hw := what_no_newline t e he
  have hb : '\n' ∉ "Error: ".toList ++ e.what := by
    simp only [List.mem_append, not_or]
    exact ⟨by decide, hw⟩
  have hresp : response t = ("Error: ".toList ++ e.what) ++ ['\n'] := by
    simp [response, he]
  have hfind := find_newline ("Error: ".toList ++ e.what) [] hb
  refine ⟨hb, hresp, ?_, ?_, ?_, ?_, ?_, ?_⟩
  · rw [hresp, List.count_append, List.count_eq_zero_of_not_mem hb]
    rfl
  · rw [hresp]
    exact List.getLast?_concat _
  · rw [hresp]
    exact hfind
  · intro c b sends hbne ht hsp hcat
    have hpos : 0 < b.length := List.length_pos.mpr hbne
    have hsplit : splitStream (t ++ ' ' :: []) = ([t], []) := by
      rw [splitStream_token t [] hsp]
      rfl
    simp only [handleClient, Events.readable, Bool.or_self, Bool.false_eq_true, if_false,
      if_true, recvLoop, hpos]
    rw [onData_eq, hcat, hsplit]
    simp [answers, ht]
  · intro c recvs sends hin ht
    rw [handleClient_rdhup c Events.readableRdhup recvs sends rfl rfl rfl, handleRdhup_eq]
    have hne : c.in_buf ≠ [] := by rw [hin]; exact ht
    rw [if_pos hne, hin]
  · intro conn hbuf
    have hpos : 0 < (response t).length := List.length_pos.mpr (response_ne_nil t)
    have hsub : substr (("Error: ".toList ++ e.what) ++ ['\n']) 0
        ("Error: ".toList ++ e.what).length = "Error: ".toList ++ e.what := by
      simp [substr]
    simp only [clientReadable, clientRecvLoop, hbuf, List.nil_append, hpos, if_true]
    rw [hresp, hfind]
    simp only [hsub]
    simp

/-- Witness of C22: the token `3/0`, whose evaluation fails with `Division by zero`. -/
theorem error_line_framing_witness :
    (response "3/0".toList).count '\n' = 1 ∧
      (response "3/0".toList).getLast? = some '\n' :=
  ⟨(error_line_framing.1 "3/0".toList CalcError.divisionByZero (by decide)).2.2.1,
    (error_line_framing.1 "3/0".toList CalcError.divisionByZero (by decide)).2.2.2.1⟩

end TCPEpollCalc
